import Mathlib

/-! # femtojson: lexer, token cursor, recursive-descent parser and renderers

A shallow embedding of `src/main.cpp`.

* The input stream `std::istream` is the list of characters still to be read.
* A thrown C++ exception is an `Error` value; functions that can throw return
  `Except Error _`.  The cursor `token_stream` is passed explicitly and is
  returned also when an exception is thrown, since the caller's object keeps
  the position it had at the throw.
* `double` is the set of IEEE-754 binary64 values this program can compute:
  integers, the two infinities and NaN, with round-to-nearest-even.
* `std::unordered_map` is a list of entries with pairwise distinct keys, kept
  in order of insertion.  The order in which the container is iterated is not
  specified by C++; what is proved of the text of a value is proved for
  every order of the entries (`value.equiv`).
* Characters are the bytes of the input; only ASCII characters are told apart
  by the program.
* `os << n` for a double `n` is the conversion `%g` with precision 6
  (`show_double`).
* The one write to `std::cerr`, in the `default` branch of `tokenize`, is the
  text `tokenize_cerr`; it is kept apart from the outcome of `tokenize`.
-/

namespace femtojson

/-! ## Exceptions -/

/-- The exceptions the program throws, one constructor per `throw` site message,
plus the `std::out_of_range` thrown by `std::vector::at`. -/
inductive Error where
  /-- `std::runtime_error("Invalid string")`, thrown by `tokenize_string`. -/
  | invalid_string
  /-- `std::runtime_error("Invalid letter")`, thrown by `tokenize`. -/
  | invalid_letter
  /-- `std::runtime_error("Unexpected EOF")`, thrown by `token_stream::cur`. -/
  | unexpected_eof
  /-- `std::runtime_error("Unexpected token")`, thrown by `token_stream::expect`. -/
  | unexpected_token
  /-- `std::runtime_error("Invalid token")`, thrown by the catch-all handler of
  `token_stream::visit` (and of the token printer). -/
  | invalid_token
  /-- `std::out_of_range`, thrown by `tokens_.at(head_)` in `token_stream::visit`. -/
  | out_of_range
  deriving DecidableEq, Repr

deriving instance DecidableEq for Except

/-! ## Double-precision numbers -/

/-- The binary64 values closed under the arithmetic the program performs
(`*`, `+`, `-`, unary minus on integer-valued operands): a signed integer
magnitude (so `-0` is distinct from `0`), an infinity, or NaN. -/
inductive double where
  | finite (neg : Bool) (mag : Nat)
  | inf (neg : Bool)
  | nan
  deriving DecidableEq, Repr

namespace double

/-- Number of binary digits of `n`, by repeated halving (`fuel` bounds the loop). -/
def bitsAux : Nat → Nat → Nat → Nat
  | 0, _, acc => acc
  | fuel + 1, n, acc => if n = 0 then acc else bitsAux fuel (n / 2) (acc + 1)

/-- Bit length of `n`. -/
def bits (n : Nat) : Nat := bitsAux (n + 1) n 0

/-- Round a non-negative integer to the nearest binary64 magnitude, ties to the
even significand; `none` is overflow to infinity. -/
def roundMag (n : Nat) : Option Nat :=
  if n < 2 ^ 53 then some n
  else
    let e := bits n - 53
    let q := n / 2 ^ e
    let r := n % 2 ^ e
    let half := 2 ^ (e - 1)
    let q' := if r > half ∨ (r = half ∧ q % 2 = 1) then q + 1 else q
    let m := q' * 2 ^ e
    if bits m ≤ 1024 then some m else none

/-- The double nearest to the signed integer `(-1)^neg * n` for `n ≠ 0`, and
the zero of that sign for `n = 0`. -/
def ofSignMag (neg : Bool) (n : Nat) : double :=
  match roundMag n with
  | some m => finite neg m
  | none => inf neg

/-- Conversion `int → double` (exact: an `int` has at most 32 bits). -/
def ofInt (i : Int) : double := ofSignMag (decide (i < 0)) i.natAbs

/-- Unary minus: flips the sign bit. -/
def neg : double → double
  | finite s m => finite (!s) m
  | inf s => inf (!s)
  | nan => nan

/-- IEEE multiplication. -/
def mul : double → double → double
  | nan, _ => nan
  | _, nan => nan
  | inf s, inf t => inf (xor s t)
  | inf s, finite t m => if m = 0 then nan else inf (xor s t)
  | finite s m, inf t => if m = 0 then nan else inf (xor s t)
  | finite s m, finite t k => ofSignMag (xor s t) (m * k)

/-- The signed integer value of a finite double. -/
def toInt (s : Bool) (m : Nat) : Int := if s then - (m : Int) else (m : Int)

/-- IEEE addition. An exact zero sum is `-0` only when both operands are
negative (both `-0`), and `+0` otherwise. -/
def add : double → double → double
  | nan, _ => nan
  | _, nan => nan
  | inf s, inf t => if s = t then inf s else nan
  | inf s, finite _ _ => inf s
  | finite _ _, inf t => inf t
  | finite s m, finite t k =>
    let z := toInt s m + toInt t k
    if z = 0 then finite (s && t) 0 else ofSignMag (decide (z < 0)) z.natAbs

/-- IEEE subtraction. -/
def sub (x y : double) : double := add x (neg y)

end double

/-! ## Tokens -/

/-- The alternatives of `token::type`; `string` and `number` carry their payload. -/
inductive token where
  | lbrace
  | rbrace
  | lbracket
  | rbracket
  | comma
  | colon
  | string (t : List Char)
  | number (n : double)
  deriving DecidableEq, Repr

/-! ## Lexer -/

/-- `tokenize_string`: reads up to and including the closing quote, returning
the characters before it and the rest of the stream; end of input throws. -/
def tokenize_string : List Char → List Char → Except Error (List Char × List Char)
  | [], _ => .error .invalid_string
  | ch :: is, s => if ch = '"' then .ok (s, is) else tokenize_string is (s ++ [ch])

/-- `tokenize_positive_number`: eats decimal digits while the peeked character
is one, folding `n = n * 10 + ch - '0'` in double arithmetic (the expression
groups as `((n * 10) + ch) - '0'`). -/
def tokenize_positive_number : List Char → double → double × List Char
  | [], n => (n, [])
  | ch :: is, n =>
    if ch.toNat < '0'.toNat ∨ '9'.toNat < ch.toNat then (n, ch :: is)
    else tokenize_positive_number is
      (((n.mul (double.ofInt 10)).add (double.ofInt ch.toNat)).sub (double.ofInt '0'.toNat))

/-- The `while (is)` loop of `tokenize`, one iteration per unit of `fuel`;
`none` means the fuel ran out before the loop ended. -/
def tokenize_loop : Nat → List Char → List token → Option (Except Error (List token))
  | 0, _, _ => none
  | _ + 1, [], ret => some (.ok ret)
  | fuel + 1, ch :: is, ret =>
    if ch = ' ' ∨ ch = '\t' ∨ ch = '\n' ∨ ch = '\r' then tokenize_loop fuel is ret
    else if ch = '{' then tokenize_loop fuel is (ret ++ [.lbrace])
    else if ch = '}' then tokenize_loop fuel is (ret ++ [.rbrace])
    else if ch = '[' then tokenize_loop fuel is (ret ++ [.lbracket])
    else if ch = ']' then tokenize_loop fuel is (ret ++ [.rbracket])
    else if ch = ',' then tokenize_loop fuel is (ret ++ [.comma])
    else if ch = ':' then tokenize_loop fuel is (ret ++ [.colon])
    else if ch = '"' then
      match tokenize_string is [] with
      | .error e => some (.error e)
      | .ok (s, is') => tokenize_loop fuel is' (ret ++ [.string s])
    else if ch = '-' then
      let r := tokenize_positive_number is (double.finite false 0)
      tokenize_loop fuel r.2 (ret ++ [.number r.1.neg])
    else if ch = '1' ∨ ch = '2' ∨ ch = '3' ∨ ch = '4' ∨ ch = '5' ∨ ch = '6' ∨ ch = '7'
        ∨ ch = '8' ∨ ch = '9' then
      let r := tokenize_positive_number is (double.ofInt (ch.toNat - '0'.toNat))
      tokenize_loop fuel r.2 (ret ++ [.number r.1])
    else some (.error .invalid_letter)

/-- `tokenize`: every iteration reads at least one character, so one unit of
fuel per character plus one for the final end-of-input test is enough: the
outcome is never `none` (`tokenize_total`). -/
def tokenize (is : List Char) : Option (Except Error (List token)) :=
  tokenize_loop (is.length + 1) is []

end femtojson

namespace femtojson

/-! ## Values -/

/-- The variant `value::v`: a double, a string, an `unordered_map` from strings
to values, or a vector of values.  The map is the list of its entries in order
of insertion; `emplace` keeps the keys pairwise distinct. -/
inductive value where
  | number (n : double)
  | string (s : List Char)
  | object (m : List (List Char × value))
  | array (v : List value)

instance : Inhabited value := ⟨.array []⟩

/-- Lookup `std::unordered_map::find`: the value stored under `k`, if any. -/
def find (k : List Char) : List (List Char × value) → Option value
  | [] => none
  | (k', v) :: m => if k' = k then some v else find k m

/-- Insertion `std::unordered_map::emplace`: inserts the entry only when the
map has no entry with that key yet; an existing entry is left as it is. -/
def emplace (m : List (List Char × value)) (k : List Char) (v : value) :
    List (List Char × value) :=
  match find k m with
  | some _ => m
  | none => m ++ [(k, v)]

/-! ## Token cursor -/

/-- The template argument `token_kind` of `expect`, `match` and `pop_if`. -/
inductive token_kind where
  | lbrace
  | rbrace
  | lbracket
  | rbracket
  | comma
  | colon
  | string
  | number
  deriving DecidableEq, Repr

/-- The C++ type named by a `token_kind`: the empty structs carry nothing. -/
def token_kind.payload : token_kind → Type
  | .string => List Char
  | .number => double
  | _ => Unit

/-- The alternative a token holds. -/
def token.kind : token → token_kind
  | .lbrace => .lbrace
  | .rbrace => .rbrace
  | .lbracket => .lbracket
  | .rbracket => .rbracket
  | .comma => .comma
  | .colon => .colon
  | .string _ => .string
  | .number _ => .number

/-- The call `std::get_if<token_kind>(&tok)`: the payload when the token holds
that alternative, `none` for the null pointer. -/
def get_if : (k : token_kind) → token → Option k.payload
  | .lbrace, .lbrace => some ()
  | .rbrace, .rbrace => some ()
  | .lbracket, .lbracket => some ()
  | .rbracket, .rbracket => some ()
  | .comma, .comma => some ()
  | .colon, .colon => some ()
  | .string, .string t => some t
  | .number, .number n => some n
  | _, _ => none

/-- The class `token_stream`: the token vector and the read position. -/
structure token_stream where
  tokens_ : List token
  head_ : Nat
  deriving DecidableEq, Repr

/-- Outcome of a cursor or parser call: the returned value or the exception
thrown, together with the cursor as the call leaves it. -/
abbrev Res (α : Type) := Except Error α × token_stream

namespace token_stream

/-- `cur`: the token at the position, or "Unexpected EOF" when
`head_ >= tokens_.size()`. -/
def cur (st : token_stream) : Except Error token :=
  match st.tokens_[st.head_]? with
  | none => .error .unexpected_eof
  | some t => .ok t

/-- `eat`: `head_++`. -/
def eat (st : token_stream) : token_stream := { st with head_ := st.head_ + 1 }

/-- `expect<token_kind>`. -/
def expect (k : token_kind) (st : token_stream) : Res k.payload :=
  match st.cur with
  | .error e => (.error e, st)
  | .ok tok =>
    match get_if k tok with
    | none => (.error .unexpected_token, st)
    | some t => (.ok t, st.eat)

/-- `match<token_kind>` (the cursor is not changed, so only the outcome is returned). -/
def match_ (k : token_kind) (st : token_stream) : Except Error Bool :=
  match st.cur with
  | .error e => .error e
  | .ok tok => .ok (get_if k tok).isSome

/-- `pop_if<token_kind>`. -/
def pop_if (k : token_kind) (st : token_stream) : Res Bool :=
  match st.match_ k with
  | .error e => (.error e, st)
  | .ok true => (.ok true, st.eat)
  | .ok false => (.ok false, st)

/-- `visit<T>`: `std::visit` over `tokens_.at(head_)` with the given handlers
(`handlers tok = none` when no handler takes `tok`, which selects the
catch-all that throws "Invalid token").  A handler runs on the cursor and may
itself run out of fuel. -/
def visit {T : Type} (st : token_stream)
    (handlers : token → Option (token_stream → Option (Res T))) : Option (Res T) :=
  match st.tokens_[st.head_]? with
  | none => some (.error .out_of_range, st)
  | some tok =>
    match handlers tok with
    | some h => h st
    | none => some (.error .invalid_token, st)

end token_stream

/-! ## Parser -/

/-- `parse_string`. -/
def parse_string (st : token_stream) : Res value :=
  match st.expect .string with
  | (.error e, st) => (.error e, st)
  | (.ok s, st) => (.ok (.string s), st)

/-- `parse_number`. -/
def parse_number (st : token_stream) : Res value :=
  match st.expect .number with
  | (.error e, st) => (.error e, st)
  | (.ok n, st) => (.ok (.number n), st)

/-- The `while (!st.pop_if<token::rbracket>())` loop of `parse_array`, one
iteration per unit of fuel; `parse` is the recursive call. -/
def parse_array_loop (parse : token_stream → Option (Res value)) :
    Nat → token_stream → List value → Option (Res value)
  | 0, _, _ => none
  | fuel + 1, st, ret =>
    match st.pop_if .rbracket with
    | (.error e, st) => some (.error e, st)
    | (.ok true, st) => some (.ok (.array ret), st)
    | (.ok false, st) =>
      match st.expect .comma with
      | (.error e, st) => some (.error e, st)
      | (.ok _, st) =>
        match parse st with
        | none => none
        | some (.error e, st) => some (.error e, st)
        | some (.ok v, st) => parse_array_loop parse fuel st (ret ++ [v])

/-- `parse_array`; `fuel` bounds its loop. -/
def parse_array (parse : token_stream → Option (Res value)) (fuel : Nat)
    (st : token_stream) : Option (Res value) :=
  match st.expect .lbracket with
  | (.error e, st) => some (.error e, st)
  | (.ok _, st) =>
    match st.pop_if .rbracket with
    | (.error e, st) => some (.error e, st)
    | (.ok true, st) => some (.ok (.array []), st)
    | (.ok false, st) =>
      match parse st with
      | none => none
      | some (.error e, st) => some (.error e, st)
      | some (.ok v, st) => parse_array_loop parse fuel st [v]

/-- The lambda `expect_one` of `parse_object`, acting on the cursor and on the
map `ret` it captures by reference. -/
def expect_one (parse : token_stream → Option (Res value)) (st : token_stream)
    (ret : List (List Char × value)) : Option (Res (List (List Char × value))) :=
  match st.expect .string with
  | (.error e, st) => some (.error e, st)
  | (.ok k, st) =>
    match st.expect .colon with
    | (.error e, st) => some (.error e, st)
    | (.ok _, st) =>
      match parse st with
      | none => none
      | some (.error e, st) => some (.error e, st)
      | some (.ok v, st) => some (.ok (emplace ret k v), st)

/-- The `while (!st.pop_if<token::rbrace>())` loop of `parse_object`. -/
def parse_object_loop (parse : token_stream → Option (Res value)) :
    Nat → token_stream → List (List Char × value) → Option (Res value)
  | 0, _, _ => none
  | fuel + 1, st, ret =>
    match st.pop_if .rbrace with
    | (.error e, st) => some (.error e, st)
    | (.ok true, st) => some (.ok (.object ret), st)
    | (.ok false, st) =>
      match st.expect .comma with
      | (.error e, st) => some (.error e, st)
      | (.ok _, st) =>
        match expect_one parse st ret with
        | none => none
        | some (.error e, st) => some (.error e, st)
        | some (.ok ret, st) => parse_object_loop parse fuel st ret

/-- `parse_object`; `fuel` bounds its loop. -/
def parse_object (parse : token_stream → Option (Res value)) (fuel : Nat)
    (st : token_stream) : Option (Res value) :=
  match st.expect .lbrace with
  | (.error e, st) => some (.error e, st)
  | (.ok _, st) =>
    match st.pop_if .rbrace with
    | (.error e, st) => some (.error e, st)
    | (.ok true, st) => some (.ok (.object []), st)
    | (.ok false, st) =>
      match expect_one parse st [] with
      | none => none
      | some (.error e, st) => some (.error e, st)
      | some (.ok ret, st) => parse_object_loop parse fuel st ret

/-- `parse` with a bound `fuel` on the nesting of recursive calls and on the
iterations of each loop; `none` means the bound was hit. -/
def parse_fuel : Nat → token_stream → Option (Res value)
  | 0, _ => none
  | fuel + 1, st =>
    st.visit fun tok =>
      match tok with
      | .lbrace => some (parse_object (fun s => parse_fuel fuel s) fuel)
      | .lbracket => some (parse_array (fun s => parse_fuel fuel s) fuel)
      | .string _ => some (fun s => some (parse_string s))
      | .number _ => some (fun s => some (parse_number s))
      | _ => none

/-- `parse`: every recursive call and every loop iteration is preceded by the
consumption of a token, so one unit of fuel per remaining token plus one is
enough: the outcome is never `none` (`parse_total`). -/
def parse (st : token_stream) : Option (Res value) :=
  parse_fuel (st.tokens_.length - st.head_ + 1) st

end femtojson
namespace femtojson

/-! ## Renderers -/

/-- Drop the trailing zeros of a digit string given in reverse. -/
def dropZerosRev : List Char → List Char
  | [] => []
  | c :: cs => if c = '0' then dropZerosRev cs else c :: cs

/-- Scientific notation of the positive integer `m` with `len > 6` decimal
digits, to six significant digits (ties to even), trailing zeros of the
mantissa removed, exponent of at least two digits. -/
def show_scientific (m len : Nat) : List Char :=
  let k := len - 6
  let q := m / 10 ^ k
  let r := m % 10 ^ k
  let half := 10 ^ k / 2
  let q' := if r > half ∨ (r = half ∧ q % 2 = 1) then q + 1 else q
  let q'' := if q' = 10 ^ 6 then 10 ^ 5 else q'
  let x := if q' = 10 ^ 6 then len else len - 1
  let ds := Nat.toDigits 10 q''
  let frac := (dropZerosRev ds.tail.reverse).reverse
  let mant := if frac = [] then ds.take 1 else ds.take 1 ++ '.' :: frac
  let ex := if x < 10 then '0' :: Nat.toDigits 10 x else Nat.toDigits 10 x
  mant ++ 'e' :: '+' :: ex

/-- The text `os << n` writes for a double with the stream's default flags:
the conversion `%g` with precision 6 (C++ `num_put`).  An integer of at most
six digits is written as its decimal digits, a longer one in scientific
notation. -/
def show_double : double → List Char
  | .nan => ['n', 'a', 'n']
  | .inf s => (if s then ['-'] else []) ++ ['i', 'n', 'f']
  | .finite s m =>
    (if s then ['-'] else []) ++
      (let ds := Nat.toDigits 10 m
       if ds.length ≤ 6 then ds else show_scientific m ds.length)

/-- Token printer `token::operator<<`; every alternative of the variant has its
own handler, so the catch-all that throws is never selected. -/
def token.render : token → List Char
  | .lbrace => ['{']
  | .rbrace => ['}']
  | .lbracket => ['[']
  | .rbracket => [']']
  | .comma => [',']
  | .colon => [':']
  | .string t => '"' :: t ++ ['"']
  | .number n => show_double n

/-- The output of the `tokenize` mode of `main`: the tokens printed one after
the other with nothing in between. -/
def render_tokens (tokens : List token) : List Char :=
  (tokens.map token.render).flatten

mutual
/-- Value printer `operator<<(std::ostream&, const value&)`. -/
def render_value : value → List Char
  | .number n => show_double n
  | .string s => '"' :: s ++ ['"']
  | .object m => '{' :: render_members true m ++ ['}']
  | .array [] => ['[', ']']
  | .array (x :: xs) => '[' :: render_value x ++ render_rest xs ++ [']']
/-- The range-for over the map entries; `first` is the flag of that name. -/
def render_members : Bool → List (List Char × value) → List Char
  | _, [] => []
  | first, (s, v) :: m =>
    (if first then [] else [',', ' ']) ++ '"' :: s ++ ['"', ':', ' '] ++ render_value v
      ++ render_members false m
/-- The loop `for (i = 1; i < v.size(); i++)` over the remaining elements. -/
def render_rest : List value → List Char
  | [] => []
  | x :: xs => [',', ' '] ++ render_value x ++ render_rest xs
end

end femtojson
namespace femtojson

/-! ## Specification-side notions -/

/-- A decimal digit character `'0'..'9'`. -/
def digit (c : Char) : Prop := '0'.toNat ≤ c.toNat ∧ c.toNat ≤ '9'.toNat

instance (c : Char) : Decidable (digit c) := by unfold digit; infer_instance

/-- The decimal integer value of a digit string, starting from `init`:
`n = n * 10 + digit` over the digits, in exact integer arithmetic. -/
def decimal_value (init : Nat) (ds : List Char) : Nat :=
  ds.foldl (fun n c => n * 10 + (c.toNat - '0'.toNat)) init

end femtojson
namespace femtojson

/-! ## Successful runs of the parser

`Run toks p h v h'` describes a successful run of one procedure of the parser
on the token vector `toks`: started at position `h` it returns `v` and leaves
the position at `h'`.  It is the proof-side view of `parse_fuel`; the two are
related by `run_of_parse_fuel` and `parse_fuel_of_run`. -/

/-- The three recursive procedures: `parse`, and the two `while` loops with
the container built so far. -/
inductive Proc where
  | parse_value
  | array_loop (ret : List value)
  | object_loop (ret : List (List Char × value))

/-- Successful runs. -/
inductive Run (toks : List token) : Proc → Nat → value → Nat → Prop
  | number {h : Nat} {n : double} :
      toks[h]? = some (.number n) → Run toks .parse_value h (.number n) (h + 1)
  | string {h : Nat} {s : List Char} :
      toks[h]? = some (.string s) → Run toks .parse_value h (.string s) (h + 1)
  | array_empty {h : Nat} :
      toks[h]? = some .lbracket → toks[h + 1]? = some .rbracket →
      Run toks .parse_value h (.array []) (h + 2)
  | array {h h1 h2 : Nat} {v w : value} :
      toks[h]? = some .lbracket → Run toks .parse_value (h + 1) v h1 →
      Run toks (.array_loop [v]) h1 w h2 → Run toks .parse_value h w h2
  | array_done {h : Nat} {ret : List value} :
      toks[h]? = some .rbracket → Run toks (.array_loop ret) h (.array ret) (h + 1)
  | array_more {h h1 h2 : Nat} {ret : List value} {v w : value} :
      toks[h]? = some .comma → Run toks .parse_value (h + 1) v h1 →
      Run toks (.array_loop (ret ++ [v])) h1 w h2 → Run toks (.array_loop ret) h w h2
  | object_empty {h : Nat} :
      toks[h]? = some .lbrace → toks[h + 1]? = some .rbrace →
      Run toks .parse_value h (.object []) (h + 2)
  | object {h h1 h2 : Nat} {k : List Char} {v w : value} :
      toks[h]? = some .lbrace → toks[h + 1]? = some (.string k) →
      toks[h + 2]? = some .colon → Run toks .parse_value (h + 3) v h1 →
      Run toks (.object_loop (emplace [] k v)) h1 w h2 → Run toks .parse_value h w h2
  | object_done {h : Nat} {ret : List (List Char × value)} :
      toks[h]? = some .rbrace → Run toks (.object_loop ret) h (.object ret) (h + 1)
  | object_more {h h1 h2 : Nat} {ret : List (List Char × value)} {k : List Char}
      {v w : value} :
      toks[h]? = some .comma → toks[h + 1]? = some (.string k) →
      toks[h + 2]? = some .colon → Run toks .parse_value (h + 3) v h1 →
      Run toks (.object_loop (emplace ret k v)) h1 w h2 → Run toks (.object_loop ret) h w h2

/-- The computation a `Proc` stands for, with `f` the fuel of the recursive
calls of `parse` and `k` the fuel of the loop. -/
def Proc.exec (f k : Nat) : Proc → token_stream → Option (Res value)
  | .parse_value, st => parse_fuel f st
  | .array_loop ret, st => parse_array_loop (fun s => parse_fuel f s) k st ret
  | .object_loop ret, st => parse_object_loop (fun s => parse_fuel f s) k st ret

/-- The first character of `rest`, if any, is not a digit. -/
def no_digit_head (rest : List Char) : Prop := ∀ c, rest.head? = some c → ¬ digit c

/-- What a sound `parse` argument of the loops guarantees. -/
def SoundParse (P : token_stream → Option (Res value)) : Prop :=
  ∀ st v st', P st = some (.ok v, st') →
    st'.tokens_ = st.tokens_ ∧ Run st.tokens_ .parse_value st.head_ v st'.head_

/-- A token that can start a value. -/
def token.starts_value : token → Bool
  | .lbrace => true
  | .lbracket => true
  | .string _ => true
  | .number _ => true
  | _ => false

/-- The fuel a run needs: more than its length for `parse`, at least its
length for a loop and for the calls of `parse` inside it. -/
def Proc.enough (f k n : Nat) : Proc → Prop
  | .parse_value => n < f
  | .array_loop _ => n ≤ f ∧ n ≤ k
  | .object_loop _ => n ≤ f ∧ n ≤ k

/-! ## The grammar of the specification -/

/-- The nonterminals of the grammar of the specification, with one more for
each starred group: `members_tail` is `(',' member)*` and `elements_tail` is
`(',' value)*`. -/
inductive Nonterminal where
  | value
  | object
  | member
  | array
  | members_tail
  | elements_tail

/-- Derivability in the grammar
```
value   := object | array | STRING | NUMBER
object  := '{' '}' | '{' member (',' member)* '}'
member  := STRING ':' value
array   := '[' ']' | '[' value (',' value)* ']'
```
over token sequences. -/
inductive Derives : Nonterminal → List token → Prop
  | value_object {ts : List token} : Derives .object ts → Derives .value ts
  | value_array {ts : List token} : Derives .array ts → Derives .value ts
  | value_string (s : List Char) : Derives .value [.string s]
  | value_number (n : double) : Derives .value [.number n]
  | object_empty : Derives .object [.lbrace, .rbrace]
  | object_members {m t : List token} :
      Derives .member m → Derives .members_tail t →
      Derives .object (.lbrace :: m ++ t ++ [.rbrace])
  | member (k : List Char) {ts : List token} :
      Derives .value ts → Derives .member (.string k :: .colon :: ts)
  | members_tail_nil : Derives .members_tail []
  | members_tail_cons {m t : List token} :
      Derives .member m → Derives .members_tail t → Derives .members_tail (.comma :: m ++ t)
  | array_empty : Derives .array [.lbracket, .rbracket]
  | array_elements {v t : List token} :
      Derives .value v → Derives .elements_tail t →
      Derives .array (.lbracket :: v ++ t ++ [.rbracket])
  | elements_tail_nil : Derives .elements_tail []
  | elements_tail_cons {v t : List token} :
      Derives .value v → Derives .elements_tail t → Derives .elements_tail (.comma :: v ++ t)

/-- The tokens of `toks` from position `h` up to, not including, position `h'`. -/
def slice (toks : List token) (h h' : Nat) : List token := (toks.drop h).take (h' - h)

/-- What the tokens consumed by a successful run of a procedure derive from:
`parse` consumes a `value`; a loop consumes the rest of the starred group and
the closing bracket. -/
def Proc.derives : Proc → List token → Prop
  | .parse_value, ts => Derives .value ts
  | .array_loop _, ts => ∃ t, Derives .elements_tail t ∧ ts = t ++ [.rbracket]
  | .object_loop _, ts => ∃ t, Derives .members_tail t ∧ ts = t ++ [.rbrace]

/-- The successful run a derivation gives rise to, by nonterminal: a `value`
(and so an `object` or `array`) is parsed whole; a `member` is a key, a colon
and a value that is parsed whole; a starred group followed by its closing
bracket is consumed whole by the loop, whatever the container built so far. -/
def Nonterminal.runs : Nonterminal → List token → Prop
  | .value, ts => ∃ v, Run ts .parse_value 0 v ts.length
  | .object, ts => ∃ v, Run ts .parse_value 0 v ts.length
  | .array, ts => ∃ v, Run ts .parse_value 0 v ts.length
  | .member, ts => ∃ k ts' v, ts = .string k :: .colon :: ts' ∧
      Run ts' .parse_value 0 v ts'.length
  | .elements_tail, ts => ∀ ret, ∃ w,
      Run (ts ++ [.rbracket]) (.array_loop ret) 0 w (ts.length + 1)
  | .members_tail, ts => ∀ ret, ∃ w,
      Run (ts ++ [.rbrace]) (.object_loop ret) 0 w (ts.length + 1)

/-- A member of an object as it is written and as it is read: the key, the
tokens of the value, and the value `parse` returns on those tokens. -/
abbrev Member := List Char × List token × value

/-- The tokens `STRING ':' value` of a member. -/
def member_tokens (m : Member) : List token := .string m.1 :: .colon :: m.2.1

/-- The tokens `'{' member (',' member)* '}'` of an object with the given
members, `'{' '}'` when there are none. -/
def object_tokens : List Member → List token
  | [] => [.lbrace, .rbrace]
  | m :: ms =>
    .lbrace :: member_tokens m ++ (ms.map fun m' => .comma :: member_tokens m').flatten
      ++ [.rbrace]

/-- The map after the members have been inserted in order with `emplace`. -/
def emplace_all (ret : List (List Char × value)) (ms : List Member) :
    List (List Char × value) :=
  ms.foldl (fun r m => emplace r m.1 m.2.2) ret

/-- The value of the first member with key `k`. -/
def first_with_key (k : List Char) : List Member → Option value
  | [] => none
  | m :: ms => if m.1 = k then some m.2.2 else first_with_key k ms

/-- The members are read whole: each value's tokens are parsed to its value. -/
def members_parsed (ms : List Member) : Prop :=
  ∀ m ∈ ms, parse ⟨m.2.1, 0⟩ = some (.ok m.2.2, ⟨m.2.1, m.2.1.length⟩)

/-- The token sequence `'{' STRING(k) ':' v1 ',' STRING(k) ':' v2 '}'`, the
same key twice. -/
def duplicate_key_tokens (k : List Char) (v1 v2 : List token) : List token :=
  .lbrace :: .string k :: .colon :: v1 ++ .comma :: .string k :: .colon :: v2 ++ [.rbrace]

/-- A double that is not negative and not NaN: `+0`, a positive integer or
`+inf`. -/
def double.nonneg : double → Prop
  | .finite s _ => s = false
  | .inf s => s = false
  | .nan => False

/-- A double that is strictly positive: a positive integer or `+inf`. -/
def double.pos : double → Prop
  | .finite s m => s = false ∧ 1 ≤ m
  | .inf s => s = false
  | .nan => False

/-- A double of magnitude below `10 ^ 6`: an integer that `%g` with precision 6
writes in full. -/
def double.small : double → Prop
  | .finite _ m => m < 10 ^ 6
  | _ => False

/-- What the lexer can emit: a string without `'"'`, a number other than `+0`. -/
def token.lexed : token → Prop
  | .string t => '"' ∉ t
  | .number n => n ≠ .finite false 0
  | _ => True

/-- The lexer loop with one unit of fuel per character and one more, which is
enough (`tokenize_loop_fuel`); `tokenize is = lex is []`. -/
def lex (is : List Char) (ret : List token) : Option (Except Error (List token)) :=
  tokenize_loop (is.length + 1) is ret

mutual
/-- Every number in the value satisfies `pn`, every string and every object
key satisfies `ps`. -/
def value.all (pn : double → Prop) (ps : List Char → Prop) : value → Prop
  | .number n => pn n
  | .string s => ps s
  | .object m => entries_all pn ps m
  | .array xs => list_all pn ps xs
/-- The entries of an object satisfy `value.all`. -/
def entries_all (pn : double → Prop) (ps : List Char → Prop) :
    List (List Char × value) → Prop
  | [] => True
  | (k, x) :: m => ps k ∧ x.all pn ps ∧ entries_all pn ps m
/-- The elements of an array satisfy `value.all`. -/
def list_all (pn : double → Prop) (ps : List Char → Prop) : List value → Prop
  | [] => True
  | x :: xs => x.all pn ps ∧ list_all pn ps xs
end

/-- Every number in the value has magnitude below `10 ^ 6`. -/
def value.small (v : value) : Prop := v.all double.small (fun _ => True)

/-- No string or key of the value contains `'"'` and no number is `+0`: the
leaves are what the lexer can emit. -/
def value.lexed (v : value) : Prop := v.all (fun n => n ≠ .finite false 0) (fun s => '"' ∉ s)

mutual
/-- The keys of every object in the value are pairwise distinct. -/
def value.keys_nodup : value → Prop
  | .number _ => True
  | .string _ => True
  | .object m => (m.map Prod.fst).Nodup ∧ entries_keys_nodup m
  | .array xs => list_keys_nodup xs
/-- The values of the entries have pairwise distinct keys. -/
def entries_keys_nodup : List (List Char × value) → Prop
  | [] => True
  | (_, x) :: m => x.keys_nodup ∧ entries_keys_nodup m
/-- The elements have pairwise distinct keys. -/
def list_keys_nodup : List value → Prop
  | [] => True
  | x :: xs => x.keys_nodup ∧ list_keys_nodup xs
end

mutual
/-- Structural equality of values with objects compared as key-to-value maps:
`v.equiv w` when `w` is `v` with the entries of each object in some other
order. -/
def value.equiv : value → value → Prop
  | .number n, w => w = .number n
  | .string s, w => w = .string s
  | .object m, w => ∃ m' p, w = .object m' ∧ List.Perm p m' ∧ entries_equiv m p
  | .array xs, w => ∃ ys, w = .array ys ∧ list_equiv xs ys
/-- Entry by entry: the same keys in the same order, with equivalent values. -/
def entries_equiv : List (List Char × value) → List (List Char × value) → Prop
  | [], p => p = []
  | (k, x) :: m, p => ∃ y p', p = (k, y) :: p' ∧ x.equiv y ∧ entries_equiv m p'
/-- Element by element. -/
def list_equiv : List value → List value → Prop
  | [], ys => ys = []
  | x :: xs, ys => ∃ y ys', ys = y :: ys' ∧ x.equiv y ∧ list_equiv xs ys'
end

mutual
/-- The tokens the text `render_value v` consists of. -/
def value.tokens : value → List token
  | .number n => [.number n]
  | .string s => [.string s]
  | .object m => .lbrace :: entries_tokens true m ++ [.rbrace]
  | .array [] => [.lbracket, .rbracket]
  | .array (x :: xs) => .lbracket :: x.tokens ++ rest_tokens xs ++ [.rbracket]
/-- The tokens of the entries of an object, a comma before all but the first. -/
def entries_tokens : Bool → List (List Char × value) → List token
  | _, [] => []
  | first, (s, v) :: m =>
    (if first then [] else [.comma]) ++ .string s :: .colon :: v.tokens
      ++ entries_tokens false m
/-- The tokens of the elements of an array after the first, each after a comma. -/
def rest_tokens : List value → List token
  | [] => []
  | x :: xs => .comma :: x.tokens ++ rest_tokens xs
end

/-- What `lex_render_value` states of a value. -/
def LexesBack (v : value) : Prop :=
  v.small → v.lexed → ∀ (rest : List Char) (ret : List token), no_digit_head rest →
    lex (render_value v ++ rest) ret = lex rest (ret ++ v.tokens)


/-- What `run_value_tokens` states of a value. -/
def ParsesBack (v : value) : Prop :=
  v.keys_nodup → Run v.tokens .parse_value 0 v v.tokens.length

/-- What a successful run keeps true of the value it returns, the tokens being
what the lexer can emit: the leaves are lexer-made and the keys of every
object are distinct, provided this holds of the container built so far. -/
def Proc.keeps : Proc → value → Prop
  | .parse_value, v => v.lexed ∧ v.keys_nodup
  | .array_loop ret, v =>
    (∀ x ∈ ret, x.lexed ∧ x.keys_nodup) → v.lexed ∧ v.keys_nodup
  | .object_loop ret, v =>
    (∀ e ∈ ret, '"' ∉ e.1 ∧ e.2.lexed ∧ e.2.keys_nodup) → (ret.map Prod.fst).Nodup →
      v.lexed ∧ v.keys_nodup

/-- What a call of `parse` with enough fuel guarantees: an outcome, with the
token vector unchanged and the position not decreased. -/
def TotalParse (f : Nat) (P : token_stream → Option (Res value)) : Prop :=
  ∀ st : token_stream, st.tokens_.length - st.head_ < f →
    ∃ r, P st = some r ∧ r.2.tokens_ = st.tokens_ ∧ st.head_ ≤ r.2.head_

/-! ## What the lexer writes to `std::cerr` -/

/-- The text `tokenize` writes to `std::cerr`: the loop of `tokenize_loop`
again, keeping only the output of `std::cerr << ch << std::endl` in the
`default` branch.  There `ch` is the `int` returned by `is.get()`, so the
stream writes the decimal code of the character, then a newline; no other
branch writes anything. -/
def tokenize_loop_cerr : Nat → List Char → Option (List Char)
  | 0, _ => none
  | _ + 1, [] => some []
  | fuel + 1, ch :: is =>
    if ch = ' ' ∨ ch = '\t' ∨ ch = '\n' ∨ ch = '\r' then tokenize_loop_cerr fuel is
    else if ch = '{' then tokenize_loop_cerr fuel is
    else if ch = '}' then tokenize_loop_cerr fuel is
    else if ch = '[' then tokenize_loop_cerr fuel is
    else if ch = ']' then tokenize_loop_cerr fuel is
    else if ch = ',' then tokenize_loop_cerr fuel is
    else if ch = ':' then tokenize_loop_cerr fuel is
    else if ch = '"' then
      match tokenize_string is [] with
      | .error _ => some []
      | .ok (_, is') => tokenize_loop_cerr fuel is'
    else if ch = '-' then
      tokenize_loop_cerr fuel (tokenize_positive_number is (double.finite false 0)).2
    else if ch = '1' ∨ ch = '2' ∨ ch = '3' ∨ ch = '4' ∨ ch = '5' ∨ ch = '6' ∨ ch = '7'
        ∨ ch = '8' ∨ ch = '9' then
      tokenize_loop_cerr fuel
        (tokenize_positive_number is (double.ofInt (ch.toNat - '0'.toNat))).2
    else some (Nat.toDigits 10 ch.toNat ++ ['\n'])

/-- The text on `std::cerr` after `tokenize`, with the fuel of `tokenize`. -/
def tokenize_cerr (is : List Char) : Option (List Char) :=
  tokenize_loop_cerr (is.length + 1) is

/-! ## Notions of the claims on the lexer and the cursor -/

/-- The characters the first case group of the switch of `tokenize` skips. -/
def whitespace (c : Char) : Prop := c = ' ' ∨ c = '\t' ∨ c = '\n' ∨ c = '\r'

instance (c : Char) : Decidable (whitespace c) := by unfold whitespace; infer_instance

/-- The token of a structural character, as the specification lists them:
`{ } [ ] , :` stand for one token each, every other character for none. -/
def structural_token (c : Char) : Option token :=
  if c = '{' then some .lbrace
  else if c = '}' then some .rbrace
  else if c = '[' then some .lbracket
  else if c = ']' then some .rbracket
  else if c = ',' then some .comma
  else if c = ':' then some .colon
  else none

/-- The payload a token holds: the characters of a string, the double of a
number, nothing for the empty structs. -/
def token.payload : (t : token) → t.kind.payload
  | .lbrace => ()
  | .rbrace => ()
  | .lbracket => ()
  | .rbracket => ()
  | .comma => ()
  | .colon => ()
  | .string s => s
  | .number n => n

/-- The characters the `default` branch of the switch of `tokenize` takes:
none of the case labels. -/
def default_case (c : Char) : Prop :=
  ¬ whitespace c ∧ structural_token c = none ∧ c ≠ '"' ∧ c ≠ '-' ∧
    ¬ ('1'.toNat ≤ c.toNat ∧ c.toNat ≤ '9'.toNat)

instance (c : Char) : Decidable (default_case c) := by unfold default_case; infer_instance

/-- What the loops need of their `parse` argument to keep the position within
the token vector: an outcome reached from a position not past the end leaves
the tokens as they are and the position not past the end. -/
def BoundedParse (P : token_stream → Option (Res value)) : Prop :=
  ∀ st r, P st = some r → st.head_ ≤ st.tokens_.length →
    r.2.tokens_ = st.tokens_ ∧ r.2.head_ ≤ st.tokens_.length

/-- The number of digits written for the positive numbers at the head of the
token list.  `render_tokens` puts nothing between two tokens, so these digits
continue the digits of a number that stands right before them. -/
def glued_digits : List token → Nat
  | .number (.finite s m) :: ts =>
    if s = false ∧ 1 ≤ m then (Nat.toDigits 10 m).length + glued_digits ts else 0
  | _ => 0

/-- Every number of the token list, together with the positive numbers that
directly follow it, is written with at most six digits, and `-0` is not
directly followed by a positive number.  In particular every number has a
magnitude below `10 ^ 6`. -/
def runs_small : List token → Bool
  | [] => true
  | .number n :: ts =>
    match n with
    | .finite s m =>
      decide ((Nat.toDigits 10 m).length + glued_digits ts ≤ 6) &&
        decide (s = true ∧ m = 0 → glued_digits ts = 0) && runs_small ts
    | _ => false
  | _ :: ts => runs_small ts

/-- A double that is at least the integer `b`: a non-negative integer from `b`
on, or `+inf`. -/
def double.at_least (b : Nat) : double → Prop
  | .finite s m => s = false ∧ b ≤ m
  | .inf s => s = false
  | .nan => False

/-! # Theorems -/

/-! ## Exact double arithmetic below `2 ^ 53` -/

theorem bits_pow53 : double.roundMag (2 ^ 53) = some (2 ^ 53) := by decide

theorem roundMag_exact {n : Nat} (h : n ≤ 2 ^ 53) : double.roundMag n = some n := by
  rcases Nat.lt_or_eq_of_le h with h | h
  · unfold double.roundMag; rw [if_pos h]
  · subst h; exact bits_pow53

theorem ofSignMag_exact (s : Bool) {n : Nat} (h : n ≤ 2 ^ 53) :
    double.ofSignMag s n = .finite s n := by
  simp [double.ofSignMag, roundMag_exact h]

theorem ofInt_natCast {n : Nat} (h : n ≤ 2 ^ 53) : double.ofInt (n : Int) = .finite false n := by
  have : ¬ ((n : Int) < 0) := by omega
  simp [double.ofInt, this, ofSignMag_exact _ h]

theorem mul_exact {a b : Nat} (h : a * b ≤ 2 ^ 53) :
    (double.finite false a).mul (.finite false b) = .finite false (a * b) := by
  simp [double.mul, ofSignMag_exact _ h]

theorem add_exact {a b : Nat} (h : a + b ≤ 2 ^ 53) :
    (double.finite false a).add (.finite false b) = .finite false (a + b) := by
  simp only [double.add, double.toInt]
  by_cases hz : ((a : Int) + (b : Int)) = 0
  · have ha : a = 0 := by omega
    have hb : b = 0 := by omega
    subst ha; subst hb; simp
  · have hneg : ¬ ((a : Int) + (b : Int) < 0) := by omega
    have habs : ((a : Int) + (b : Int)).natAbs = a + b := by omega
    simp [hz, hneg, habs, ofSignMag_exact _ h]

theorem sub_exact {a b : Nat} (hba : b ≤ a) (h : a ≤ 2 ^ 53) :
    (double.finite false a).sub (.finite false b) = .finite false (a - b) := by
  simp only [double.sub, double.neg, double.add, double.toInt]
  by_cases hz : ((a : Int) + -(b : Int)) = 0
  · have : a - b = 0 := by omega
    simp [hz, this]
  · have hneg : ¬ ((a : Int) + -(b : Int) < 0) := by omega
    have habs : ((a : Int) + -(b : Int)).natAbs = a - b := by omega
    have h' : a - b ≤ 2 ^ 53 := by omega
    simp [hz, hneg, habs, ofSignMag_exact _ h']



theorem decimal_value_cons (n : Nat) (c : Char) (ds : List Char) :
    decimal_value n (c :: ds) = decimal_value (n * 10 + (c.toNat - 48)) ds := rfl

theorem le_decimal_value (ds : List Char) : ∀ n, n ≤ decimal_value n ds := by
  induction ds with
  | nil => intro n; exact Nat.le_refl _
  | cons c ds ih =>
    intro n
    rw [decimal_value_cons]
    exact Nat.le_trans (by omega) (ih _)

theorem tpn_stop (rest : List Char) (h : no_digit_head rest) (x : double) :
    tokenize_positive_number rest x = (x, rest) := by
  cases rest with
  | nil => rfl
  | cons c r =>
    have hc : ¬ digit c := h c rfl
    have : c.toNat < 48 ∨ 57 < c.toNat := by
      unfold digit at hc
      simp only [show '0'.toNat = 48 from rfl, show '9'.toNat = 57 from rfl] at hc
      omega
    simp only [tokenize_positive_number, show '0'.toNat = 48 from rfl,
      show '9'.toNat = 57 from rfl, if_pos this]

theorem tpn_exact (rest : List Char) (hrest : no_digit_head rest) (ds : List Char) :
    ∀ n, (∀ c ∈ ds, digit c) → decimal_value n ds + 48 ≤ 2 ^ 53 →
      tokenize_positive_number (ds ++ rest) (.finite false n)
        = (.finite false (decimal_value n ds), rest) := by
  induction ds with
  | nil => intro n _ _; exact tpn_stop rest hrest _
  | cons c ds ih =>
    intro n hds hv
    have hc : digit c := hds c (List.mem_cons_self _ _)
    unfold digit at hc
    simp only [show '0'.toNat = 48 from rfl, show '9'.toNat = 57 from rfl] at hc
    have hno : ¬ (c.toNat < 48 ∨ 57 < c.toNat) := by omega
    rw [decimal_value_cons] at hv ⊢
    have hle := le_decimal_value ds (n * 10 + (c.toNat - 48))
    have h1 : n * 10 ≤ 2 ^ 53 := by omega
    have h2 : n * 10 + c.toNat ≤ 2 ^ 53 := by omega
    have h10 : double.ofInt 10 = .finite false 10 := ofInt_natCast (n := 10) (by norm_num)
    have h48 : double.ofInt ((48 : Nat) : Int) = .finite false 48 :=
      ofInt_natCast (n := 48) (by norm_num)
    have hch : double.ofInt (c.toNat : Int) = .finite false c.toNat :=
      ofInt_natCast (by omega)
    simp only [List.cons_append, tokenize_positive_number, show '0'.toNat = 48 from rfl,
      show '9'.toNat = 57 from rfl, if_neg hno, h10, h48, hch, mul_exact h1, add_exact h2,
      sub_exact (show 48 ≤ n * 10 + c.toNat by omega) h2]
    have : n * 10 + c.toNat - 48 = n * 10 + (c.toNat - 48) := by omega
    rw [this]
    exact ih _ (fun c hc => hds c (List.mem_cons_of_mem _ hc)) hv

/-! ## The lexer on numbers -/

/-- A character with a given code is the character of that code. -/
theorem char_eq_of_toNat {c : Char} {k : Nat} (h : c.toNat = k) : c = Char.ofNat k := by
  rw [← h, Char.ofNat_toNat]

theorem nonzero_digit_cases {d : Char} (h : '1'.toNat ≤ d.toNat ∧ d.toNat ≤ '9'.toNat) :
    d = '1' ∨ d = '2' ∨ d = '3' ∨ d = '4' ∨ d = '5' ∨ d = '6' ∨ d = '7' ∨ d = '8' ∨ d = '9' := by
  simp only [show '1'.toNat = 49 from rfl, show '9'.toNat = 57 from rfl] at h
  obtain ⟨h1, h2⟩ := h
  interval_cases hk : d.toNat
  all_goals
    have hc := char_eq_of_toNat hk
    subst hc
    decide

theorem tokenize_loop_number_start (fuel : Nat) (d : Char) (is : List Char) (ret : List token)
    (h : '1'.toNat ≤ d.toNat ∧ d.toNat ≤ '9'.toNat) :
    tokenize_loop (fuel + 1) (d :: is) ret =
      tokenize_loop fuel (tokenize_positive_number is (.finite false (d.toNat - 48))).2
        (ret ++ [.number (tokenize_positive_number is (.finite false (d.toNat - 48))).1]) := by
  rcases nonzero_digit_cases h with h | h | h | h | h | h | h | h | h <;> subst h <;> rfl

theorem tokenize_loop_minus (fuel : Nat) (is : List Char) (ret : List token) :
    tokenize_loop (fuel + 1) ('-' :: is) ret =
      tokenize_loop fuel (tokenize_positive_number is (.finite false 0)).2
        (ret ++ [.number (tokenize_positive_number is (.finite false 0)).1.neg]) := rfl

/-! ## Soundness of the parser for `Run` -/

theorem run_of_array_loop {P : token_stream → Option (Res value)} (hP : SoundParse P) :
    ∀ k toks h ret w st', parse_array_loop P k ⟨toks, h⟩ ret = some (.ok w, st') →
      st'.tokens_ = toks ∧ Run toks (.array_loop ret) h w st'.head_ := by
  intro k
  induction k with
  | zero => intro toks h ret w st' hr; simp [parse_array_loop] at hr
  | succ k ih =>
    intro toks h ret w st' hr
    unfold parse_array_loop at hr
    cases h0 : toks[h]? with
    | none => simp [token_stream.pop_if, token_stream.match_, token_stream.cur, h0] at hr
    | some tok =>
      cases tok <;>
        simp [token_stream.pop_if, token_stream.match_, token_stream.cur, token_stream.expect,
          token_stream.eat, get_if, h0] at hr
      case rbracket =>
        obtain ⟨rfl, rfl⟩ := hr
        exact ⟨rfl, Run.array_done h0⟩
      case comma =>
        cases hp : P ⟨toks, h + 1⟩ with
        | none => simp [hp] at hr
        | some r =>
          obtain ⟨r1, st1⟩ := r
          cases r1 with
          | error e => simp [hp] at hr
          | ok v =>
            simp [hp] at hr
            obtain ⟨ht, hrun⟩ := hP _ _ _ hp
            obtain ⟨toks1, h1⟩ := st1
            simp at ht hrun
            subst ht
            obtain ⟨ht2, hrun2⟩ := ih _ _ _ _ _ hr
            exact ⟨ht2, Run.array_more h0 hrun hrun2⟩

theorem run_of_expect_one {P : token_stream → Option (Res value)} (hP : SoundParse P)
    (toks : List token) (h : Nat) (ret ret' : List (List Char × value)) (st' : token_stream)
    (hr : expect_one P ⟨toks, h⟩ ret = some (.ok ret', st')) :
    ∃ k v, toks[h]? = some (.string k) ∧ toks[h + 1]? = some .colon ∧
      Run toks .parse_value (h + 2) v st'.head_ ∧ st'.tokens_ = toks ∧ ret' = emplace ret k v := by
  unfold expect_one at hr
  cases h0 : toks[h]? with
  | none => simp [token_stream.cur, token_stream.expect, h0] at hr
  | some tok =>
    cases tok <;>
      simp [token_stream.cur, token_stream.expect, token_stream.eat, get_if, h0] at hr
    case string k =>
      cases h1 : toks[h + 1]? with
      | none => simp [h1] at hr
      | some tok1 =>
        cases tok1 <;> simp [h1] at hr
        case colon =>
          cases hp : P ⟨toks, h + 1 + 1⟩ with
          | none => simp [hp] at hr
          | some r =>
            obtain ⟨r1, st1⟩ := r
            cases r1 with
            | error e => simp [hp] at hr
            | ok v =>
              simp [hp] at hr
              obtain ⟨ht, hrun⟩ := hP _ _ _ hp
              obtain ⟨rfl, rfl⟩ := hr
              exact ⟨k, v, rfl, rfl, hrun, ht, rfl⟩

theorem run_of_object_loop {P : token_stream → Option (Res value)} (hP : SoundParse P) :
    ∀ k toks h ret w st', parse_object_loop P k ⟨toks, h⟩ ret = some (.ok w, st') →
      st'.tokens_ = toks ∧ Run toks (.object_loop ret) h w st'.head_ := by
  intro k
  induction k with
  | zero => intro toks h ret w st' hr; simp [parse_object_loop] at hr
  | succ k ih =>
    intro toks h ret w st' hr
    unfold parse_object_loop at hr
    cases h0 : toks[h]? with
    | none => simp [token_stream.pop_if, token_stream.match_, token_stream.cur, h0] at hr
    | some tok =>
      cases tok <;>
        simp [token_stream.pop_if, token_stream.match_, token_stream.cur, token_stream.expect,
          token_stream.eat, get_if, h0] at hr
      case rbrace =>
        obtain ⟨rfl, rfl⟩ := hr
        exact ⟨rfl, Run.object_done h0⟩
      case comma =>
        cases hp : expect_one P ⟨toks, h + 1⟩ ret with
        | none => simp [hp] at hr
        | some r =>
          obtain ⟨r1, st1⟩ := r
          cases r1 with
          | error e => simp [hp] at hr
          | ok ret' =>
            simp [hp] at hr
            obtain ⟨key, v, hk, hc, hrun, ht, hret⟩ := run_of_expect_one hP _ _ _ _ _ hp
            obtain ⟨toks1, h1⟩ := st1
            simp at ht hrun
            subst ht
            subst hret
            obtain ⟨ht2, hrun2⟩ := ih _ _ _ _ _ hr
            exact ⟨ht2, Run.object_more h0 hk hc hrun hrun2⟩

theorem run_of_parse_array {P : token_stream → Option (Res value)} (hP : SoundParse P)
    (k : Nat) (toks : List token) (h : Nat) (w : value) (st' : token_stream)
    (hr : parse_array P k ⟨toks, h⟩ = some (.ok w, st')) :
    st'.tokens_ = toks ∧ Run toks .parse_value h w st'.head_ := by
  unfold parse_array at hr
  cases h0 : toks[h]? with
  | none => simp [token_stream.cur, token_stream.expect, h0] at hr
  | some tok =>
    cases tok <;>
      simp [token_stream.cur, token_stream.expect, token_stream.eat, get_if, h0] at hr
    case lbracket =>
      cases h1 : toks[h + 1]? with
      | none => simp [token_stream.pop_if, token_stream.match_, token_stream.cur, h1] at hr
      | some tok1 =>
        have hcur : (token_stream.mk toks (h + 1)).match_ .rbracket
            = .ok (get_if .rbracket tok1).isSome := by
          simp [token_stream.match_, token_stream.cur, h1]
        by_cases hrb : tok1 = .rbracket
        · subst hrb
          simp [token_stream.pop_if, hcur, get_if, token_stream.eat] at hr
          obtain ⟨rfl, rfl⟩ := hr
          exact ⟨rfl, Run.array_empty h0 h1⟩
        · have hnone : (get_if .rbracket tok1).isSome = false := by
            cases tok1 <;> simp [get_if] at hrb ⊢
          simp only [token_stream.pop_if, hcur, hnone] at hr
          cases hp : P ⟨toks, h + 1⟩ with
          | none => simp [hp] at hr
          | some r =>
            obtain ⟨r1, st1⟩ := r
            cases r1 with
            | error e => simp [hp] at hr
            | ok v =>
              simp [hp] at hr
              obtain ⟨ht, hrun⟩ := hP _ _ _ hp
              obtain ⟨toks1, h1'⟩ := st1
              simp at ht hrun
              subst ht
              obtain ⟨ht2, hrun2⟩ := run_of_array_loop hP _ _ _ _ _ _ hr
              exact ⟨ht2, Run.array h0 hrun hrun2⟩

theorem run_of_parse_object {P : token_stream → Option (Res value)} (hP : SoundParse P)
    (k : Nat) (toks : List token) (h : Nat) (w : value) (st' : token_stream)
    (hr : parse_object P k ⟨toks, h⟩ = some (.ok w, st')) :
    st'.tokens_ = toks ∧ Run toks .parse_value h w st'.head_ := by
  unfold parse_object at hr
  cases h0 : toks[h]? with
  | none => simp [token_stream.cur, token_stream.expect, h0] at hr
  | some tok =>
    cases tok <;>
      simp [token_stream.cur, token_stream.expect, token_stream.eat, get_if, h0] at hr
    case lbrace =>
      cases h1 : toks[h + 1]? with
      | none => simp [token_stream.pop_if, token_stream.match_, token_stream.cur, h1] at hr
      | some tok1 =>
        have hcur : (token_stream.mk toks (h + 1)).match_ .rbrace
            = .ok (get_if .rbrace tok1).isSome := by
          simp [token_stream.match_, token_stream.cur, h1]
        by_cases hrb : tok1 = .rbrace
        · subst hrb
          simp [token_stream.pop_if, hcur, get_if, token_stream.eat] at hr
          obtain ⟨rfl, rfl⟩ := hr
          exact ⟨rfl, Run.object_empty h0 h1⟩
        · have hnone : (get_if .rbrace tok1).isSome = false := by
            cases tok1 <;> simp [get_if] at hrb ⊢
          simp only [token_stream.pop_if, hcur, hnone] at hr
          cases hp : expect_one P ⟨toks, h + 1⟩ [] with
          | none => simp [hp] at hr
          | some r =>
            obtain ⟨r1, st1⟩ := r
            cases r1 with
            | error e => simp [hp] at hr
            | ok ret' =>
              simp [hp] at hr
              obtain ⟨key, v, hk, hc, hrun, ht, hret⟩ := run_of_expect_one hP _ _ _ _ _ hp
              obtain ⟨toks1, h1'⟩ := st1
              simp at ht hrun
              subst ht
              subst hret
              obtain ⟨ht2, hrun2⟩ := run_of_object_loop hP _ _ _ _ _ _ hr
              exact ⟨ht2, Run.object h0 hk hc hrun hrun2⟩

theorem soundParse_parse_fuel : ∀ f, SoundParse (fun s => parse_fuel f s) := by
  intro f
  induction f with
  | zero => intro st v st' hr; simp [parse_fuel] at hr
  | succ f ih =>
    intro st v st' hr
    obtain ⟨toks, h⟩ := st
    simp only [parse_fuel, token_stream.visit] at hr
    cases h0 : toks[h]? with
    | none => simp [h0] at hr
    | some tok =>
      cases tok <;> simp [h0] at hr
      case lbrace => exact run_of_parse_object ih _ _ _ _ _ hr
      case lbracket => exact run_of_parse_array ih _ _ _ _ _ hr
      case string s =>
        simp [parse_string, token_stream.expect, token_stream.cur, h0, get_if,
          token_stream.eat] at hr
        obtain ⟨rfl, rfl⟩ := hr
        exact ⟨rfl, Run.string h0⟩
      case number n =>
        simp [parse_number, token_stream.expect, token_stream.cur, h0, get_if,
          token_stream.eat] at hr
        obtain ⟨rfl, rfl⟩ := hr
        exact ⟨rfl, Run.number h0⟩

/-! ## Completeness of the parser for `Run` -/

theorem lt_length_of_getElem? {α : Type} {l : List α} {i : Nat} {a : α} (h : l[i]? = some a) :
    i < l.length := by
  by_contra hc
  rw [List.getElem?_eq_none (by omega)] at h
  cases h

theorem run_bounds {toks : List token} {p : Proc} {h h' : Nat} {v : value}
    (r : Run toks p h v h') : h < h' ∧ h' ≤ toks.length := by
  induction r with
  | number h0 => exact ⟨by omega, lt_length_of_getElem? h0⟩
  | string h0 => exact ⟨by omega, lt_length_of_getElem? h0⟩
  | array_empty h0 h1 => exact ⟨by omega, lt_length_of_getElem? h1⟩
  | array h0 _ _ ih1 ih2 => exact ⟨by omega, ih2.2⟩
  | array_done h0 => exact ⟨by omega, lt_length_of_getElem? h0⟩
  | array_more h0 _ _ ih1 ih2 => exact ⟨by omega, ih2.2⟩
  | object_empty h0 h1 => exact ⟨by omega, lt_length_of_getElem? h1⟩
  | object h0 _ _ _ _ ih1 ih2 => exact ⟨by omega, ih2.2⟩
  | object_done h0 => exact ⟨by omega, lt_length_of_getElem? h0⟩
  | object_more h0 _ _ _ _ ih1 ih2 => exact ⟨by omega, ih2.2⟩

theorem run_value_head {toks : List token} {h h' : Nat} {v : value}
    (r : Run toks .parse_value h v h') : ∃ t, toks[h]? = some t ∧ t.starts_value = true := by
  cases r with
  | number h0 => exact ⟨_, h0, rfl⟩
  | string h0 => exact ⟨_, h0, rfl⟩
  | array_empty h0 _ => exact ⟨_, h0, rfl⟩
  | array h0 _ _ => exact ⟨_, h0, rfl⟩
  | object_empty h0 _ => exact ⟨_, h0, rfl⟩
  | object h0 _ _ _ _ => exact ⟨_, h0, rfl⟩

theorem exec_of_run {toks : List token} {p : Proc} {h h' : Nat} {v : value}
    (r : Run toks p h v h') :
    ∀ f k, p.enough f k (h' - h) → p.exec f k ⟨toks, h⟩ = some (.ok v, ⟨toks, h'⟩) := by
  induction r with
  | number h0 =>
    intro f k hf
    simp only [Proc.enough] at hf
    obtain ⟨f, rfl⟩ : ∃ f', f = f' + 1 := ⟨f - 1, by omega⟩
    simp [Proc.exec, parse_fuel, token_stream.visit, h0, parse_number, token_stream.expect,
      token_stream.cur, get_if, token_stream.eat]
  | string h0 =>
    intro f k hf
    simp only [Proc.enough] at hf
    obtain ⟨f, rfl⟩ : ∃ f', f = f' + 1 := ⟨f - 1, by omega⟩
    simp [Proc.exec, parse_fuel, token_stream.visit, h0, parse_string, token_stream.expect,
      token_stream.cur, get_if, token_stream.eat]
  | array_empty h0 h1 =>
    intro f k hf
    simp only [Proc.enough] at hf
    obtain ⟨f, rfl⟩ : ∃ f', f = f' + 1 := ⟨f - 1, by omega⟩
    simp [Proc.exec, parse_fuel, token_stream.visit, h0, h1, parse_array, token_stream.expect,
      token_stream.cur, get_if, token_stream.eat, token_stream.pop_if, token_stream.match_]
  | @array h h1 h2 v w h0 r1 r2 ih1 ih2 =>
    intro f k hf
    simp only [Proc.enough] at hf
    obtain ⟨f, rfl⟩ : ∃ f', f = f' + 1 := ⟨f - 1, by omega⟩
    have b1 := run_bounds r1
    have b2 := run_bounds r2
    obtain ⟨t, ht, hs⟩ := run_value_head r1
    have e1 := ih1 f 0 (by simp only [Proc.enough]; omega)
    have e2 := ih2 f f (by simp only [Proc.enough]; omega)
    simp only [Proc.exec] at e1 e2
    have hpop : (token_stream.mk toks (h + 1)).pop_if .rbracket = (.ok false, ⟨toks, h + 1⟩) := by
      cases t <;> simp [token.starts_value] at hs <;>
        simp [token_stream.pop_if, token_stream.match_, token_stream.cur, ht, get_if]
    simp [Proc.exec, parse_fuel, token_stream.visit, h0, parse_array, token_stream.expect,
      token_stream.cur, get_if, token_stream.eat, hpop, e1, e2]
  | array_done h0 =>
    intro f k hf
    simp only [Proc.enough] at hf
    obtain ⟨hf1, hf2⟩ := hf
    obtain ⟨k, rfl⟩ : ∃ k', k = k' + 1 := ⟨k - 1, by omega⟩
    simp [Proc.exec, parse_array_loop, token_stream.pop_if, token_stream.match_,
      token_stream.cur, h0, get_if, token_stream.eat]
  | @array_more h h1 h2 ret v w h0 r1 r2 ih1 ih2 =>
    intro f k hf
    simp only [Proc.enough] at hf
    obtain ⟨hf1, hf2⟩ := hf
    have b1 := run_bounds r1
    have b2 := run_bounds r2
    obtain ⟨k, rfl⟩ : ∃ k', k = k' + 1 := ⟨k - 1, by omega⟩
    have e1 := ih1 f 0 (by simp only [Proc.enough]; omega)
    have e2 := ih2 f k (by simp only [Proc.enough]; omega)
    simp only [Proc.exec] at e1 e2
    simp [Proc.exec, parse_array_loop, token_stream.pop_if, token_stream.match_,
      token_stream.cur, h0, get_if, token_stream.eat, token_stream.expect, e1, e2]
  | object_empty h0 h1 =>
    intro f k hf
    simp only [Proc.enough] at hf
    obtain ⟨f, rfl⟩ : ∃ f', f = f' + 1 := ⟨f - 1, by omega⟩
    simp [Proc.exec, parse_fuel, token_stream.visit, h0, h1, parse_object, token_stream.expect,
      token_stream.cur, get_if, token_stream.eat, token_stream.pop_if, token_stream.match_]
  | @object h h1 h2 key v w h0 hk hc r1 r2 ih1 ih2 =>
    intro f k hf
    simp only [Proc.enough] at hf
    obtain ⟨f, rfl⟩ : ∃ f', f = f' + 1 := ⟨f - 1, by omega⟩
    have b1 := run_bounds r1
    have b2 := run_bounds r2
    have e1 := ih1 f 0 (by simp only [Proc.enough]; omega)
    have e2 := ih2 f f (by simp only [Proc.enough]; omega)
    simp only [Proc.exec] at e1 e2
    simp [Proc.exec, parse_fuel, token_stream.visit, h0, parse_object, token_stream.expect,
      token_stream.cur, get_if, token_stream.eat, token_stream.pop_if, token_stream.match_,
      expect_one, hk, hc, e1, e2]
  | object_done h0 =>
    intro f k hf
    simp only [Proc.enough] at hf
    obtain ⟨hf1, hf2⟩ := hf
    obtain ⟨k, rfl⟩ : ∃ k', k = k' + 1 := ⟨k - 1, by omega⟩
    simp [Proc.exec, parse_object_loop, token_stream.pop_if, token_stream.match_,
      token_stream.cur, h0, get_if, token_stream.eat]
  | @object_more h h1 h2 ret key v w h0 hk hc r1 r2 ih1 ih2 =>
    intro f k hf
    simp only [Proc.enough] at hf
    obtain ⟨hf1, hf2⟩ := hf
    have b1 := run_bounds r1
    have b2 := run_bounds r2
    obtain ⟨k, rfl⟩ : ∃ k', k = k' + 1 := ⟨k - 1, by omega⟩
    have e1 := ih1 f 0 (by simp only [Proc.enough]; omega)
    have e2 := ih2 f k (by simp only [Proc.enough]; omega)
    simp only [Proc.exec] at e1 e2
    simp [Proc.exec, parse_object_loop, token_stream.pop_if, token_stream.match_,
      token_stream.cur, h0, get_if, token_stream.eat, token_stream.expect, expect_one, hk, hc,
      e1, e2]

/-! ## Runs are local: tokens before the start and after the end do not matter -/

theorem getElem?_append_extra {α : Type} {l : List α} {i : Nat} {a : α} (extra : List α)
    (h : l[i]? = some a) : (l ++ extra)[i]? = some a := by
  rw [List.getElem?_append_left (lt_length_of_getElem? h)]; exact h

theorem getElem?_prepend {α : Type} (pre l : List α) (i : Nat) :
    (pre ++ l)[pre.length + i]? = l[i]? := by
  rw [List.getElem?_append_right (by omega)]
  congr 1; omega

theorem run_append {toks : List token} {p : Proc} {h h' : Nat} {v : value}
    (extra : List token) (r : Run toks p h v h') : Run (toks ++ extra) p h v h' := by
  induction r with
  | number h0 => exact Run.number (getElem?_append_extra _ h0)
  | string h0 => exact Run.string (getElem?_append_extra _ h0)
  | array_empty h0 h1 =>
    exact Run.array_empty (getElem?_append_extra _ h0) (getElem?_append_extra _ h1)
  | array h0 _ _ ih1 ih2 => exact Run.array (getElem?_append_extra _ h0) ih1 ih2
  | array_done h0 => exact Run.array_done (getElem?_append_extra _ h0)
  | array_more h0 _ _ ih1 ih2 => exact Run.array_more (getElem?_append_extra _ h0) ih1 ih2
  | object_empty h0 h1 =>
    exact Run.object_empty (getElem?_append_extra _ h0) (getElem?_append_extra _ h1)
  | object h0 hk hc _ _ ih1 ih2 =>
    exact Run.object (getElem?_append_extra _ h0) (getElem?_append_extra _ hk)
      (getElem?_append_extra _ hc) ih1 ih2
  | object_done h0 => exact Run.object_done (getElem?_append_extra _ h0)
  | object_more h0 hk hc _ _ ih1 ih2 =>
    exact Run.object_more (getElem?_append_extra _ h0) (getElem?_append_extra _ hk)
      (getElem?_append_extra _ hc) ih1 ih2

theorem run_prepend {toks : List token} {p : Proc} {h h' : Nat} {v : value}
    (pre : List token) (r : Run toks p h v h') :
    Run (pre ++ toks) p (pre.length + h) v (pre.length + h') := by
  induction r with
  | number h0 => exact Run.number ((getElem?_prepend _ _ _).trans h0)
  | string h0 => exact Run.string ((getElem?_prepend _ _ _).trans h0)
  | array_empty h0 h1 =>
    exact Run.array_empty ((getElem?_prepend _ _ _).trans h0) ((getElem?_prepend _ _ _).trans h1)
  | array h0 _ _ ih1 ih2 => exact Run.array ((getElem?_prepend _ _ _).trans h0) ih1 ih2
  | array_done h0 => exact Run.array_done ((getElem?_prepend _ _ _).trans h0)
  | array_more h0 _ _ ih1 ih2 =>
    exact Run.array_more ((getElem?_prepend _ _ _).trans h0) ih1 ih2
  | object_empty h0 h1 =>
    exact Run.object_empty ((getElem?_prepend _ _ _).trans h0)
      ((getElem?_prepend _ _ _).trans h1)
  | object h0 hk hc _ _ ih1 ih2 =>
    exact Run.object ((getElem?_prepend _ _ _).trans h0) ((getElem?_prepend _ _ _).trans hk)
      ((getElem?_prepend _ _ _).trans hc) ih1 ih2
  | object_done h0 => exact Run.object_done ((getElem?_prepend _ _ _).trans h0)
  | object_more h0 hk hc _ _ ih1 ih2 =>
    exact Run.object_more ((getElem?_prepend _ _ _).trans h0)
      ((getElem?_prepend _ _ _).trans hk) ((getElem?_prepend _ _ _).trans hc) ih1 ih2

/-- `parse` succeeds exactly on the successful runs. -/
theorem parse_eq_ok_iff (st : token_stream) (v : value) (st' : token_stream) :
    parse st = some (.ok v, st') ↔
      st'.tokens_ = st.tokens_ ∧ Run st.tokens_ .parse_value st.head_ v st'.head_ := by
  constructor
  · intro hr
    exact soundParse_parse_fuel _ st v st' hr
  · rintro ⟨ht, r⟩
    obtain ⟨toks, h⟩ := st
    obtain ⟨toks', h'⟩ := st'
    simp only at ht r
    subst ht
    have b := run_bounds r
    have := exec_of_run r (toks'.length - h + 1) 0 (by simp only [Proc.enough]; omega)
    simpa [Proc.exec, parse] using this

/-! ## The parser and the grammar -/

theorem slice_cons {toks : List token} {h h' : Nat} {t : token} (h0 : toks[h]? = some t)
    (hlt : h < h') : slice toks h h' = t :: slice toks (h + 1) h' := by
  have hl := lt_length_of_getElem? h0
  have ht : toks[h] = t := by
    rw [List.getElem?_eq_getElem hl] at h0; exact Option.some.inj h0
  unfold slice
  rw [List.drop_eq_getElem_cons hl, ht]
  obtain ⟨n, hn⟩ : ∃ n, h' - h = n + 1 := ⟨h' - h - 1, by omega⟩
  rw [hn, List.take_succ_cons]
  congr 2; omega

theorem slice_self (toks : List token) (h : Nat) : slice toks h h = [] := by
  simp [slice]

theorem slice_one {toks : List token} {h : Nat} {t : token} (h0 : toks[h]? = some t) :
    slice toks h (h + 1) = [t] := by
  rw [slice_cons h0 (by omega), slice_self]

theorem slice_append (toks : List token) {h h1 h2 : Nat} (h01 : h ≤ h1) (h12 : h1 ≤ h2) :
    slice toks h h2 = slice toks h h1 ++ slice toks h1 h2 := by
  unfold slice
  have e : h2 - h = (h1 - h) + (h2 - h1) := by omega
  rw [e, List.take_add, List.drop_drop]
  congr 3; omega

theorem slice_zero_prefix (toks : List token) (n : Nat) : slice toks 0 n <+: toks := by
  simpa [slice] using List.take_prefix n toks

theorem slice_zero_length {toks : List token} {n : Nat} (h : n ≤ toks.length) :
    (slice toks 0 n).length = n := by
  simp [slice, h]

theorem derives_of_run {toks : List token} {p : Proc} {h h' : Nat} {v : value}
    (r : Run toks p h v h') : p.derives (slice toks h h') := by
  induction r with
  | number h0 => rw [slice_one h0]; exact Derives.value_number _
  | string h0 => rw [slice_one h0]; exact Derives.value_string _
  | array_empty h0 h1 =>
    rw [slice_cons h0 (by omega), slice_one h1]
    exact Derives.value_array Derives.array_empty
  | @array h h1 h2 v w h0 r1 r2 ih1 ih2 =>
    have b1 := run_bounds r1
    have b2 := run_bounds r2
    obtain ⟨t, dt, et⟩ := ih2
    simp only [Proc.derives] at ih1 ⊢
    rw [slice_cons h0 (by omega), slice_append toks (Nat.le_of_lt b1.1) (Nat.le_of_lt b2.1), et,
      ← List.append_assoc]
    exact Derives.value_array (Derives.array_elements ih1 dt)
  | array_done h0 => exact ⟨[], Derives.elements_tail_nil, by rw [slice_one h0]; rfl⟩
  | @array_more h h1 h2 ret v w h0 r1 r2 ih1 ih2 =>
    have b1 := run_bounds r1
    have b2 := run_bounds r2
    obtain ⟨t, dt, et⟩ := ih2
    simp only [Proc.derives] at ih1
    refine ⟨_, Derives.elements_tail_cons ih1 dt, ?_⟩
    rw [slice_cons h0 (by omega), slice_append toks (Nat.le_of_lt b1.1) (Nat.le_of_lt b2.1), et]
    simp
  | object_empty h0 h1 =>
    rw [slice_cons h0 (by omega), slice_one h1]
    exact Derives.value_object Derives.object_empty
  | @object h h1 h2 k v w h0 hk hc r1 r2 ih1 ih2 =>
    have b1 := run_bounds r1
    have b2 := run_bounds r2
    obtain ⟨t, dt, et⟩ := ih2
    simp only [Proc.derives] at ih1 ⊢
    rw [slice_cons h0 (by omega), slice_cons hk (by omega), slice_cons hc (by omega),
      slice_append toks (Nat.le_of_lt b1.1) (Nat.le_of_lt b2.1), et]
    have := Derives.value_object (Derives.object_members (Derives.member k ih1) dt)
    simpa using this
  | object_done h0 => exact ⟨[], Derives.members_tail_nil, by rw [slice_one h0]; rfl⟩
  | @object_more h h1 h2 ret k v w h0 hk hc r1 r2 ih1 ih2 =>
    have b1 := run_bounds r1
    have b2 := run_bounds r2
    obtain ⟨t, dt, et⟩ := ih2
    simp only [Proc.derives] at ih1
    refine ⟨_, Derives.members_tail_cons (Derives.member k ih1) dt, ?_⟩
    rw [slice_cons h0 (by omega), slice_cons hk (by omega), slice_cons hc (by omega),
      slice_append toks (Nat.le_of_lt b1.1) (Nat.le_of_lt b2.1), et]
    simp

/-- A run on `ts` is a run inside any token vector that has `ts` at the start
position. -/
theorem run_embed {ts : List token} {p : Proc} {v : value} {n : Nat} (r : Run ts p 0 v n)
    (pre post : List token) {toks : List token} {h h' : Nat}
    (ht : toks = pre ++ (ts ++ post)) (hh : h = pre.length) (hh' : h' = pre.length + n) :
    Run toks p h v h' := by
  subst ht hh hh'
  exact run_prepend pre (run_append post r)

theorem runs_of_derives {nt : Nonterminal} {ts : List token} (d : Derives nt ts) :
    nt.runs ts := by
  induction d with
  | value_object _ ih => exact ih
  | value_array _ ih => exact ih
  | value_string s => exact ⟨_, Run.string rfl⟩
  | value_number n => exact ⟨_, Run.number rfl⟩
  | object_empty => exact ⟨_, Run.object_empty rfl rfl⟩
  | @object_members m t _ _ ihm iht =>
    obtain ⟨k, ts', v, rfl, r⟩ := ihm
    obtain ⟨w, rl⟩ := iht (emplace [] k v)
    have r1 : Run (.lbrace :: .string k :: .colon :: ts' ++ t ++ [.rbrace]) .parse_value 3 v
        (3 + ts'.length) :=
      run_embed r [.lbrace, .string k, .colon] (t ++ [.rbrace]) (by simp) rfl rfl
    have r2 : Run (.lbrace :: .string k :: .colon :: ts' ++ t ++ [.rbrace])
        (.object_loop (emplace [] k v)) (3 + ts'.length) w
        (token.lbrace :: token.string k :: token.colon :: ts' ++ t ++ [token.rbrace]).length :=
      run_embed rl (.lbrace :: .string k :: .colon :: ts') [] (by simp)
        (by simp; omega) (by simp; omega)
    exact ⟨w, Run.object (by simp) (by simp) (by simp) r1 r2⟩
  | member k _ ih =>
    obtain ⟨v, r⟩ := ih
    exact ⟨k, _, v, rfl, r⟩
  | members_tail_nil => intro ret; exact ⟨_, Run.object_done rfl⟩
  | @members_tail_cons m t _ _ ihm iht =>
    intro ret
    obtain ⟨k, ts', v, rfl, r⟩ := ihm
    obtain ⟨w, rl⟩ := iht (emplace ret k v)
    have r1 : Run (.comma :: .string k :: .colon :: ts' ++ t ++ [.rbrace]) .parse_value 3 v
        (3 + ts'.length) :=
      run_embed r [.comma, .string k, .colon] (t ++ [.rbrace]) (by simp) rfl rfl
    have r2 : Run (.comma :: .string k :: .colon :: ts' ++ t ++ [.rbrace])
        (.object_loop (emplace ret k v)) (3 + ts'.length) w
        ((token.comma :: token.string k :: token.colon :: ts' ++ t).length + 1) :=
      run_embed rl (.comma :: .string k :: .colon :: ts') [] (by simp)
        (by simp; omega) (by simp; omega)
    exact ⟨w, Run.object_more (by simp) (by simp) (by simp) r1 r2⟩
  | array_empty => exact ⟨_, Run.array_empty rfl rfl⟩
  | @array_elements e t _ _ ihe iht =>
    obtain ⟨v, r⟩ := ihe
    obtain ⟨w, rl⟩ := iht [v]
    have r1 : Run (.lbracket :: e ++ t ++ [.rbracket]) .parse_value 1 v (1 + e.length) :=
      run_embed r [.lbracket] (t ++ [.rbracket]) (by simp) rfl rfl
    have r2 : Run (.lbracket :: e ++ t ++ [.rbracket]) (.array_loop [v]) (1 + e.length) w
        (token.lbracket :: e ++ t ++ [token.rbracket]).length :=
      run_embed rl (.lbracket :: e) [] (by simp) (by simp; omega) (by simp; omega)
    exact ⟨w, Run.array (by simp) r1 r2⟩
  | elements_tail_nil => intro ret; exact ⟨_, Run.array_done rfl⟩
  | @elements_tail_cons e t _ _ ihe iht =>
    intro ret
    obtain ⟨v, r⟩ := ihe
    obtain ⟨w, rl⟩ := iht (ret ++ [v])
    have r1 : Run (.comma :: e ++ t ++ [.rbracket]) .parse_value 1 v (1 + e.length) :=
      run_embed r [.comma] (t ++ [.rbracket]) (by simp) rfl rfl
    have r2 : Run (.comma :: e ++ t ++ [.rbracket]) (.array_loop (ret ++ [v])) (1 + e.length) w
        ((token.comma :: e ++ t).length + 1) :=
      run_embed rl (.comma :: e) [] (by simp) (by simp; omega) (by simp; omega)
    exact ⟨w, Run.array_more (by simp) r1 r2⟩

/-! ## Lemmas for the claims on the parser -/

/-- A derivable prefix of the token vector is what `parse` consumes. -/
theorem parse_of_derives_prefix {ts pre : List token} (hp : pre <+: ts)
    (d : Derives .value pre) : ∃ v, parse ⟨ts, 0⟩ = some (.ok v, ⟨ts, pre.length⟩) := by
  obtain ⟨rest, rfl⟩ := hp
  obtain ⟨v, r⟩ := runs_of_derives d
  exact ⟨v, (parse_eq_ok_iff _ _ _).2 ⟨rfl, run_append rest r⟩⟩

theorem parse_at_non_starting_token (st : token_stream) (t : token)
    (h0 : st.tokens_[st.head_]? = some t)
    (ht : t = .comma ∨ t = .colon ∨ t = .rbrace ∨ t = .rbracket) :
    parse st = some (.error .invalid_token, st) := by
  rcases ht with rfl | rfl | rfl | rfl <;>
    simp [parse, parse_fuel, token_stream.visit, h0]

theorem getElem?_prepend_head {α : Type} (pre l : List α) (a : α) :
    (pre ++ a :: l)[pre.length]? = some a := by
  have := getElem?_prepend pre (a :: l) 0
  simpa using this

theorem array_loop_trailing_comma {t : List token} (d : Derives .elements_tail t) :
    ∀ (pre rest : List token) (ret : List value) (f k : Nat), t.length + 2 ≤ f →
      t.length + 1 ≤ k →
      parse_array_loop (fun s => parse_fuel f s) k
          ⟨pre ++ (t ++ .comma :: .rbracket :: rest), pre.length⟩ ret
        = some (.error .invalid_token,
            ⟨pre ++ (t ++ .comma :: .rbracket :: rest), pre.length + t.length + 1⟩) := by
  generalize hnt : Nonterminal.elements_tail = nt at d
  induction d with
  | elements_tail_nil =>
    intro pre rest ret f k hf hk
    obtain ⟨k, rfl⟩ : ∃ k', k = k' + 1 := ⟨k - 1, by omega⟩
    obtain ⟨f, rfl⟩ : ∃ f', f = f' + 1 := ⟨f - 1, by omega⟩
    have h0 : (pre ++ (token.comma :: token.rbracket :: rest))[pre.length]? = some .comma :=
      getElem?_prepend_head _ _ _
    have h1 : (pre ++ (token.comma :: token.rbracket :: rest))[pre.length + 1]?
        = some .rbracket := by
      rw [getElem?_prepend]; simp
    simp [parse_array_loop, token_stream.pop_if, token_stream.match_, token_stream.cur,
      token_stream.expect, token_stream.eat, get_if, h0, h1, parse_fuel, token_stream.visit]
  | @elements_tail_cons e t de _ _ iht =>
    intro pre rest ret f k hf hk
    simp only [List.length_cons, List.length_append] at hf hk
    obtain ⟨k, rfl⟩ : ∃ k', k = k' + 1 := ⟨k - 1, by omega⟩
    obtain ⟨v, r⟩ := runs_of_derives de
    have r' : Run (pre ++ (token.comma :: e ++ t ++ token.comma :: token.rbracket :: rest))
        .parse_value (pre.length + 1) v (pre.length + 1 + e.length) :=
      run_embed r (pre ++ [.comma]) (t ++ .comma :: .rbracket :: rest) (by simp) (by simp)
        (by simp)
    have e1 := exec_of_run r' f 0 (by simp only [Proc.enough]; omega)
    simp only [Proc.exec] at e1
    have h0 : (pre ++ (token.comma :: e ++ t ++ token.comma :: token.rbracket :: rest))[
        pre.length]? = some .comma := by
      simpa using getElem?_prepend_head pre (e ++ t ++ token.comma :: token.rbracket :: rest)
        token.comma
    have ih := iht rfl (pre ++ .comma :: e) rest (ret ++ [v]) f k (by omega) (by omega)
    have eq1 : pre ++ token.comma :: e ++ (t ++ token.comma :: token.rbracket :: rest)
        = pre ++ (token.comma :: e ++ t ++ token.comma :: token.rbracket :: rest) := by simp
    have eq2 : (pre ++ token.comma :: e).length = pre.length + 1 + e.length := by
      simp; omega
    rw [eq1, eq2] at ih
    simp only [parse_array_loop, token_stream.pop_if, token_stream.match_, token_stream.cur,
      token_stream.expect, token_stream.eat, get_if, h0, Option.isSome_none, e1, ih]
    simp; omega
  | _ => cases hnt


theorem pop_if_false {toks : List token} {h : Nat} {t : token} {k : token_kind}
    (h0 : toks[h]? = some t) (hk : get_if k t = none) :
    (token_stream.mk toks h).pop_if k = (.ok false, ⟨toks, h⟩) := by
  simp only [token_stream.pop_if, token_stream.match_, token_stream.cur, h0, hk,
    Option.isSome_none]

theorem get_if_rbracket_of_starts_value {t : token} (hs : t.starts_value = true) :
    get_if .rbracket t = none := by
  cases t <;> simp [token.starts_value] at hs <;> rfl

/-- An array whose loop throws: `parse` throws the same exception. -/
theorem parse_fuel_array_loop_error {toks : List token} {h h1 f : Nat} {v : value} {e : Error}
    {st' : token_stream} (h0 : toks[h]? = some .lbracket) (r : Run toks .parse_value (h + 1) v h1)
    (hf : h1 - h ≤ f)
    (hloop : parse_array_loop (fun s => parse_fuel f s) f ⟨toks, h1⟩ [v] = some (.error e, st')) :
    parse_fuel (f + 1) ⟨toks, h⟩ = some (.error e, st') := by
  obtain ⟨t1, ht1, hs⟩ := run_value_head r
  have b := run_bounds r
  have e1 := exec_of_run r f 0 (by simp only [Proc.enough]; omega)
  simp only [Proc.exec] at e1
  simp only [parse_fuel, token_stream.visit, h0, parse_array, token_stream.expect,
    token_stream.cur, get_if, token_stream.eat,
    pop_if_false ht1 (get_if_rbracket_of_starts_value hs), e1, hloop]

theorem parse_array_trailing_comma {e t : List token} (rest : List token)
    (de : Derives .value e) (dt : Derives .elements_tail t) :
    parse ⟨.lbracket :: e ++ t ++ .comma :: .rbracket :: rest, 0⟩
      = some (.error .invalid_token,
          ⟨.lbracket :: e ++ t ++ .comma :: .rbracket :: rest, e.length + t.length + 2⟩) := by
  obtain ⟨v, r⟩ := runs_of_derives de
  have eq1 : token.lbracket :: e ++ t ++ token.comma :: token.rbracket :: rest
      = (token.lbracket :: e) ++ (t ++ token.comma :: token.rbracket :: rest) := by simp
  rw [eq1]
  have r' : Run ((token.lbracket :: e) ++ (t ++ token.comma :: token.rbracket :: rest))
      .parse_value (0 + 1) v (1 + e.length) :=
    run_embed r [.lbracket] (t ++ .comma :: .rbracket :: rest) (by simp) rfl rfl
  have hlen : ((token.lbracket :: e) ++ (t ++ token.comma :: token.rbracket :: rest)).length
      = e.length + t.length + rest.length + 3 := by simp; omega
  have e2 := array_loop_trailing_comma dt (.lbracket :: e) rest [v]
    (e.length + t.length + rest.length + 3) (e.length + t.length + rest.length + 3)
    (by omega) (by omega)
  have el : (token.lbracket :: e).length = 1 + e.length := by simp; omega
  rw [el] at e2
  have := parse_fuel_array_loop_error (by simp) r' (by omega) e2
  unfold parse
  simp only [hlen, Nat.sub_zero]
  rw [this]
  simp; omega

/-! ## Objects and `emplace` -/

theorem find_append_single (k k' : List Char) (v : value) (m : List (List Char × value)) :
    find k (m ++ [(k', v)]) =
      match find k m with
      | some x => some x
      | none => if k' = k then some v else none := by
  induction m with
  | nil => simp [find]
  | cons e m ih =>
    obtain ⟨ke, ve⟩ := e
    by_cases h : ke = k
    · simp [find, h]
    · simp [find, h, ih]

/-- Lookup after `emplace`: an entry already stored under the key wins. -/
theorem find_emplace (k k' : List Char) (v : value) (m : List (List Char × value)) :
    find k (emplace m k' v) =
      match find k m with
      | some x => some x
      | none => if k' = k then some v else none := by
  unfold emplace
  cases h : find k' m with
  | none => simp only [find_append_single]
  | some x =>
    simp only
    cases h2 : find k m with
    | some y => rfl
    | none =>
      by_cases hk : k' = k
      · subst hk; rw [h] at h2; cases h2
      · simp [hk]

theorem find_emplace_all (k : List Char) (ms : List Member) :
    ∀ ret, find k (emplace_all ret ms) =
      match find k ret with
      | some x => some x
      | none => first_with_key k ms := by
  induction ms with
  | nil => intro ret; simp only [emplace_all, List.foldl_nil, first_with_key]; cases find k ret <;> rfl
  | cons m ms ih =>
    intro ret
    have := ih (emplace ret m.1 m.2.2)
    simp only [emplace_all, List.foldl_cons] at this ⊢
    rw [this, find_emplace]
    cases find k ret with
    | some x => rfl
    | none =>
      by_cases hk : m.1 = k
      · simp [hk, first_with_key]
      · simp [hk, first_with_key]

theorem run_object_loop_members (ms : List Member) :
    members_parsed ms → ∀ (pre : List token) (ret : List (List Char × value)),
      Run (pre ++ ((ms.map fun m' => token.comma :: member_tokens m').flatten ++ [token.rbrace]))
        (.object_loop ret) pre.length (.object (emplace_all ret ms))
        (pre ++ ((ms.map fun m' => token.comma :: member_tokens m').flatten
          ++ [token.rbrace])).length := by
  induction ms with
  | nil =>
    intro _ pre ret
    have : (pre ++ (([] : List Member).map fun m' => token.comma :: member_tokens m').flatten
        ++ [token.rbrace]).length = pre.length + 1 := by simp
    simp only [List.map_nil, List.flatten_nil, List.nil_append, List.length_append,
      List.length_singleton, emplace_all, List.foldl_nil]
    exact Run.object_done (getElem?_prepend_head _ _ _)
  | cons m ms ih =>
    intro hms pre ret
    obtain ⟨k, ts, x⟩ := m
    have hm := hms (k, ts, x) (List.mem_cons_self _ _)
    simp only at hm
    have r := ((parse_eq_ok_iff _ _ _).1 hm).2
    simp only at r
    have ih' := ih (fun m hm => hms m (List.mem_cons_of_mem _ hm))
      (pre ++ .comma :: .string k :: .colon :: ts) (emplace ret k x)
    have eq : pre ++ token.comma :: token.string k :: token.colon :: ts ++
          ((ms.map fun m' => token.comma :: member_tokens m').flatten ++ [token.rbrace])
        = pre ++ ((((k, ts, x) :: ms).map fun m' => token.comma :: member_tokens m').flatten
            ++ [token.rbrace]) := by
      simp [member_tokens]
    rw [eq] at ih'
    have el : (pre ++ token.comma :: token.string k :: token.colon :: ts).length
        = pre.length + 3 + ts.length := by simp; omega
    rw [el] at ih'
    have r1 : Run (pre ++ ((((k, ts, x) :: ms).map fun m' => token.comma :: member_tokens m').flatten
            ++ [token.rbrace])) .parse_value (pre.length + 3) x (pre.length + 3 + ts.length) :=
      run_embed r (pre ++ [.comma, .string k, .colon])
        ((ms.map fun m' => token.comma :: member_tokens m').flatten ++ [token.rbrace])
        (by simp [member_tokens]) (by simp) (by simp)
    refine Run.object_more (k := k) (v := x) ?_ ?_ ?_ r1 ih'
    · simpa [member_tokens] using getElem?_prepend_head pre _ token.comma
    · rw [getElem?_prepend]; simp [member_tokens]
    · rw [getElem?_prepend]; simp [member_tokens]

theorem run_object_tokens (ms : List Member) (hms : members_parsed ms) :
    Run (object_tokens ms) .parse_value 0 (.object (emplace_all [] ms))
      (object_tokens ms).length := by
  cases ms with
  | nil => exact Run.object_empty rfl rfl
  | cons m ms =>
    obtain ⟨k, ts, x⟩ := m
    have hm := hms (k, ts, x) (List.mem_cons_self _ _)
    simp only at hm
    have r := ((parse_eq_ok_iff _ _ _).1 hm).2
    simp only at r
    have rl := run_object_loop_members ms (fun m hm => hms m (List.mem_cons_of_mem _ hm))
      (.lbrace :: .string k :: .colon :: ts) (emplace [] k x)
    have eq : token.lbrace :: token.string k :: token.colon :: ts ++
          ((ms.map fun m' => token.comma :: member_tokens m').flatten ++ [token.rbrace])
        = object_tokens ((k, ts, x) :: ms) := by
      simp [object_tokens, member_tokens]
    rw [eq] at rl
    have el : (token.lbrace :: token.string k :: token.colon :: ts).length = 3 + ts.length := by
      simp; omega
    rw [el] at rl
    have r1 : Run (object_tokens ((k, ts, x) :: ms)) .parse_value 3 x (3 + ts.length) :=
      run_embed r [.lbrace, .string k, .colon]
        ((ms.map fun m' => token.comma :: member_tokens m').flatten ++ [token.rbrace])
        (by simp [object_tokens, member_tokens]) rfl rfl
    exact Run.object (k := k) (v := x) (by simp [object_tokens, member_tokens])
      (by simp [object_tokens, member_tokens]) (by simp [object_tokens, member_tokens]) r1 rl

theorem parse_object_of_run {toks : List token} {w : value} {h h' f : Nat}
    (h0 : toks[h]? = some .lbrace) (r : Run toks .parse_value h w h') (hf : h' - h ≤ f) :
    parse_object (fun s => parse_fuel f s) f ⟨toks, h⟩ = some (.ok w, ⟨toks, h'⟩) := by
  have := exec_of_run r (f + 1) 0 (by simp only [Proc.enough]; omega)
  simpa [Proc.exec, parse_fuel, token_stream.visit, h0] using this

/-! ## Rounding never goes below `2 ^ 52`, so the lexer never emits `+0` -/

theorem bitsAux_zero (fuel acc : Nat) : double.bitsAux fuel 0 acc = acc := by
  cases fuel <;> simp [double.bitsAux]

theorem bitsAux_spec : ∀ (fuel n acc : Nat), n < fuel →
    acc ≤ double.bitsAux fuel n acc ∧ n < 2 ^ (double.bitsAux fuel n acc - acc) ∧
      (1 ≤ n → 2 ^ (double.bitsAux fuel n acc - acc - 1) ≤ n) := by
  intro fuel
  induction fuel with
  | zero => intro n acc h; omega
  | succ fuel ih =>
    intro n acc h
    by_cases hn : n = 0
    · subst hn
      simp [double.bitsAux]
    · simp only [double.bitsAux, if_neg hn]
      by_cases h1n : n / 2 = 0
      · have hn1 : n = 1 := by omega
        subst hn1
        rw [h1n, bitsAux_zero]
        simp
      · have hlt : n / 2 < fuel := by omega
        obtain ⟨h1, h2, h3⟩ := ih (n / 2) (acc + 1) hlt
        have h3' := h3 (by omega)
        generalize double.bitsAux fuel (n / 2) (acc + 1) = B at h1 h2 h3'
        have hne : B - (acc + 1) ≠ 0 := by
          intro h0
          rw [h0] at h2
          simp at h2
          omega
        refine ⟨by omega, ?_, fun _ => ?_⟩
        · have e : B - acc = (B - (acc + 1)) + 1 := by omega
          rw [e, Nat.pow_succ]
          omega
        · have e : B - acc - 1 = (B - (acc + 1) - 1) + 1 := by omega
          rw [e, Nat.pow_succ]
          omega

theorem lt_two_pow_bits (n : Nat) : n < 2 ^ double.bits n := by
  have := (bitsAux_spec (n + 1) n 0 (by omega)).2.1
  simpa [double.bits] using this

theorem two_pow_bits_le {n : Nat} (h : 1 ≤ n) : 2 ^ (double.bits n - 1) ≤ n := by
  have := (bitsAux_spec (n + 1) n 0 (by omega)).2.2 h
  simpa [double.bits] using this

theorem roundMag_ge {x y : Nat} (hx : 2 ^ 53 ≤ x) (h : double.roundMag x = some y) :
    2 ^ 52 ≤ y := by
  unfold double.roundMag at h
  rw [if_neg (by omega)] at h
  simp only at h
  have hb1 := lt_two_pow_bits x
  have hb2 := two_pow_bits_le (n := x) (by
    have : 0 < 2 ^ 53 := Nat.two_pow_pos _
    omega)
  have hbits : 53 < double.bits x := by
    by_contra hc
    have : 2 ^ double.bits x ≤ 2 ^ 53 := Nat.pow_le_pow_right (by norm_num) (by omega)
    omega
  obtain ⟨e, he⟩ : ∃ e, double.bits x - 53 = e := ⟨_, rfl⟩
  rw [he] at h
  have hsplit : double.bits x - 1 = 52 + e := by omega
  rw [hsplit, Nat.pow_add] at hb2
  have hpos : 0 < 2 ^ e := Nat.two_pow_pos _
  have hq : 2 ^ 52 ≤ x / 2 ^ e := (Nat.le_div_iff_mul_le hpos).2 hb2
  split at h
  · split at h
    · cases h
      calc 2 ^ 52 ≤ (x / 2 ^ e + 1) * 1 := by omega
        _ ≤ (x / 2 ^ e + 1) * 2 ^ e := Nat.mul_le_mul_left _ hpos
    · cases h
  · split at h
    · cases h
      calc 2 ^ 52 ≤ (x / 2 ^ e) * 1 := by omega
        _ ≤ (x / 2 ^ e) * 2 ^ e := Nat.mul_le_mul_left _ hpos
    · cases h

/-- Rounding keeps a lower bound `c ≤ 2 ^ 52`. -/
theorem roundMag_lower {x y c : Nat} (hc : c ≤ 2 ^ 52) (hx : c ≤ x)
    (h : double.roundMag x = some y) : c ≤ y := by
  by_cases hlt : x < 2 ^ 53
  · unfold double.roundMag at h
    rw [if_pos hlt] at h
    cases h
    exact hx
  · exact Nat.le_trans hc (roundMag_ge (by omega) h)

theorem ofSignMag_false_cases (x : Nat) :
    double.ofSignMag false x = .inf false ∨
      ∃ y, double.ofSignMag false x = .finite false y ∧ double.roundMag x = some y := by
  unfold double.ofSignMag
  cases h : double.roundMag x with
  | none => exact Or.inl rfl
  | some y => exact Or.inr ⟨y, rfl, rfl⟩

/-- One step `n * 10 + ch - '0'` on a non-negative double, for a digit `ch`:
the result is non-negative, and positive when `n` is. -/
theorem step_nonneg {n : double} {c : Nat} (hc : 48 ≤ c ∧ c ≤ 57) (hn : n.nonneg) :
    (((n.mul (double.ofInt 10)).add (double.ofInt (c : Int))).sub
        (double.ofInt ((48 : Nat) : Int))).nonneg ∧
      (n.pos → (((n.mul (double.ofInt 10)).add (double.ofInt (c : Int))).sub
        (double.ofInt ((48 : Nat) : Int))).pos) := by
  have h10 : double.ofInt 10 = .finite false 10 := ofInt_natCast (n := 10) (by norm_num)
  have h48 : double.ofInt ((48 : Nat) : Int) = .finite false 48 :=
    ofInt_natCast (n := 48) (by norm_num)
  have hch : double.ofInt (c : Int) = .finite false c := ofInt_natCast (by omega)
  rw [h10, h48, hch]
  cases n with
  | nan => exact absurd hn (by simp [double.nonneg])
  | inf s =>
    simp only [double.nonneg] at hn
    subst hn
    simp [double.mul, double.add, double.sub, double.neg, double.nonneg, double.pos]
  | finite s m =>
    simp only [double.nonneg] at hn
    subst hn
    simp only [double.mul, Bool.xor_false, Bool.false_bne]
    rcases ofSignMag_false_cases (m * 10) with h1 | ⟨y1, h1, r1⟩
    · rw [h1]
      simp [double.add, double.sub, double.neg, double.nonneg, double.pos]
    · rw [h1]
      have hz : ¬ ((y1 : Int) + (c : Int) = 0) := by omega
      have hneg : ¬ ((y1 : Int) + (c : Int) < 0) := by omega
      have habs : ((y1 : Int) + (c : Int)).natAbs = y1 + c := by omega
      simp only [double.add, double.toInt, Bool.false_eq_true, if_false, hz, hneg, habs,
        decide_False]
      rcases ofSignMag_false_cases (y1 + c) with h2 | ⟨y2, h2, r2⟩
      · rw [h2]
        simp [double.add, double.sub, double.neg, double.nonneg, double.pos]
      · rw [h2]
        have hy2 : 48 ≤ y2 := roundMag_lower (by norm_num) (by omega) r2
        simp only [double.sub, double.neg, double.add, double.toInt, Bool.not_false,
          Bool.false_eq_true, if_false, if_true, Bool.false_and]
        by_cases hz2 : ((y2 : Int) + -((48 : Nat) : Int)) = 0
        · rw [if_pos hz2]
          refine ⟨by simp [double.nonneg], fun hp => ?_⟩
          simp only [double.pos] at hp
          have hm1 : 10 ≤ m * 10 := by omega
          have hy1 : 10 ≤ y1 := roundMag_lower (by norm_num) hm1 r1
          have hy2' : 58 ≤ y2 := roundMag_lower (by norm_num) (by omega) r2
          omega
        · rw [if_neg hz2]
          have hneg2 : ¬ ((y2 : Int) + -((48 : Nat) : Int) < 0) := by omega
          have habs2 : ((y2 : Int) + -((48 : Nat) : Int)).natAbs = y2 - 48 := by omega
          simp only [hneg2, habs2, decide_False]
          rcases ofSignMag_false_cases (y2 - 48) with h3 | ⟨y3, h3, r3⟩
          · rw [h3]; simp [double.nonneg, double.pos]
          · rw [h3]
            refine ⟨by simp [double.nonneg], fun _ => ?_⟩
            simp only [double.pos, true_and]
            exact roundMag_lower (by norm_num) (by omega) r3

theorem tpn_nonneg (is : List Char) : ∀ n : double, n.nonneg →
    (tokenize_positive_number is n).1.nonneg ∧ (n.pos → (tokenize_positive_number is n).1.pos) := by
  induction is with
  | nil => intro n hn; exact ⟨hn, fun hp => hp⟩
  | cons c is ih =>
    intro n hn
    unfold tokenize_positive_number
    split
    · exact ⟨hn, fun hp => hp⟩
    · rename_i hc
      simp only [show '0'.toNat = 48 from rfl, show '9'.toNat = 57 from rfl] at hc ⊢
      have hstep := step_nonneg (n := n) (c := c.toNat) (by omega) hn
      obtain ⟨h1, h2⟩ := ih _ hstep.1
      exact ⟨h1, fun hp => h2 (hstep.2 hp)⟩

theorem tokenize_string_lexed (is : List Char) : ∀ (s t rest : List Char),
    tokenize_string is s = .ok (t, rest) → '"' ∉ s → '"' ∉ t := by
  induction is with
  | nil => intro s t rest h; simp [tokenize_string] at h
  | cons c is ih =>
    intro s t rest h hs
    unfold tokenize_string at h
    split at h
    · cases h; exact hs
    · rename_i hc
      refine ih _ _ _ h ?_
      simp only [List.mem_append, List.mem_singleton, not_or]
      exact ⟨hs, fun e => hc e.symm⟩

theorem neg_ne_pos_zero {n : double} (hn : n.nonneg) : n.neg ≠ .finite false 0 := by
  cases n with
  | nan => exact absurd hn (by simp [double.nonneg])
  | inf s => simp [double.neg]
  | finite s m =>
    simp only [double.nonneg] at hn
    subst hn
    simp [double.neg]

theorem pos_ne_pos_zero {n : double} (hn : n.pos) : n ≠ .finite false 0 := by
  cases n with
  | nan => exact absurd hn (by simp [double.pos])
  | inf s => simp
  | finite s m =>
    simp only [double.pos] at hn
    intro h
    cases h
    omega

theorem ofInt_digit_pos {d : Char} (h : '1'.toNat ≤ d.toNat ∧ d.toNat ≤ '9'.toNat) :
    (double.finite false (d.toNat - 48)).pos := by
  simp only [show '1'.toNat = 49 from rfl] at h
  simp only [double.pos, true_and]
  omega

/-- Every token the lexer emits is `lexed`. -/
theorem tokenize_loop_lexed : ∀ (fuel : Nat) (is : List Char) (ret ts : List token),
    (∀ t ∈ ret, t.lexed) → tokenize_loop fuel is ret = some (.ok ts) → ∀ t ∈ ts, t.lexed := by
  intro fuel
  induction fuel with
  | zero => intro is ret ts _ h; simp [tokenize_loop] at h
  | succ fuel ih =>
    intro is ret ts hret h
    cases is with
    | nil =>
      simp only [tokenize_loop, Option.some.injEq, Except.ok.injEq] at h
      subst h; exact hret
    | cons ch is =>
      have hsnoc : ∀ tok : token, tok.lexed → ∀ t ∈ ret ++ [tok], t.lexed := by
        intro tok htok t ht
        simp only [List.mem_append, List.mem_singleton] at ht
        rcases ht with ht | rfl
        · exact hret t ht
        · exact htok
      by_cases hnum : '1'.toNat ≤ ch.toNat ∧ ch.toNat ≤ '9'.toNat
      · rw [tokenize_loop_number_start _ _ _ _ hnum] at h
        exact ih _ _ _ (hsnoc (.number _) (pos_ne_pos_zero
          ((tpn_nonneg is _ (by simp [double.nonneg])).2 (ofInt_digit_pos hnum)))) h
      · unfold tokenize_loop at h
        by_cases h1 : ch = ' ' ∨ ch = '\t' ∨ ch = '\n' ∨ ch = '\r'
        · rw [if_pos h1] at h
          exact ih _ _ _ hret h
        rw [if_neg h1] at h
        by_cases h2 : ch = '{'
        · rw [if_pos h2] at h
          exact ih _ _ _ (hsnoc .lbrace trivial) h
        rw [if_neg h2] at h
        by_cases h3 : ch = '}'
        · rw [if_pos h3] at h
          exact ih _ _ _ (hsnoc .rbrace trivial) h
        rw [if_neg h3] at h
        by_cases h4 : ch = '['
        · rw [if_pos h4] at h
          exact ih _ _ _ (hsnoc .lbracket trivial) h
        rw [if_neg h4] at h
        by_cases h5 : ch = ']'
        · rw [if_pos h5] at h
          exact ih _ _ _ (hsnoc .rbracket trivial) h
        rw [if_neg h5] at h
        by_cases h6 : ch = ','
        · rw [if_pos h6] at h
          exact ih _ _ _ (hsnoc .comma trivial) h
        rw [if_neg h6] at h
        by_cases h7 : ch = ':'
        · rw [if_pos h7] at h
          exact ih _ _ _ (hsnoc .colon trivial) h
        rw [if_neg h7] at h
        by_cases h8 : ch = '"'
        · rw [if_pos h8] at h
          cases hs : tokenize_string is [] with
          | error e => simp [hs] at h
          | ok r =>
            obtain ⟨s, is'⟩ := r
            simp only [hs] at h
            exact ih _ _ _ (hsnoc (.string s) (tokenize_string_lexed _ _ _ _ hs (by simp))) h
        rw [if_neg h8] at h
        by_cases h9 : ch = '-'
        · rw [if_pos h9] at h
          exact ih _ _ _ (hsnoc (.number _) (neg_ne_pos_zero
            (tpn_nonneg is _ (by simp [double.nonneg])).1)) h
        rw [if_neg h9] at h
        by_cases h10 : ch = '1' ∨ ch = '2' ∨ ch = '3' ∨ ch = '4' ∨ ch = '5' ∨ ch = '6'
            ∨ ch = '7' ∨ ch = '8' ∨ ch = '9'
        · exfalso
          apply hnum
          rcases h10 with rfl | rfl | rfl | rfl | rfl | rfl | rfl | rfl | rfl <;> decide
        · rw [if_neg h10] at h
          cases h

theorem tokenize_lexed {s : List Char} {ts : List token} (h : tokenize s = some (.ok ts)) :
    ∀ t ∈ ts, t.lexed :=
  tokenize_loop_lexed _ _ _ _ (by intro t ht; cases ht) h

/-! ## Decimal digits -/

theorem digitChar_toNat {k : Nat} (h : k < 10) : (Nat.digitChar k).toNat = 48 + k := by
  interval_cases k <;> rfl

theorem decimal_value_append (init : Nat) (ds es : List Char) :
    decimal_value init (ds ++ es) = decimal_value (decimal_value init ds) es := by
  simp [decimal_value, List.foldl_append]

theorem toDigitsCore_spec : ∀ (fuel n : Nat) (acc : List Char), n < fuel →
    ∃ c ds, Nat.toDigitsCore 10 fuel n acc = c :: ds ++ acc ∧ (∀ x ∈ c :: ds, digit x) ∧
      (∀ init, decimal_value init (c :: ds) = init * 10 ^ (ds.length + 1) + n) ∧
      (1 ≤ n → '1'.toNat ≤ c.toNat) := by
  intro fuel
  induction fuel with
  | zero => intro n acc h; omega
  | succ fuel ih =>
    intro n acc h
    have hmod : n % 10 < 10 := Nat.mod_lt _ (by norm_num)
    have hd := digitChar_toNat hmod
    have hdig : digit (Nat.digitChar (n % 10)) := by
      simp only [digit, hd, show '0'.toNat = 48 from rfl, show '9'.toNat = 57 from rfl]
      omega
    simp only [Nat.toDigitsCore]
    by_cases h0 : n / 10 = 0
    · rw [if_pos h0]
      refine ⟨Nat.digitChar (n % 10), [], rfl, ?_, ?_, ?_⟩
      · intro x hx
        simp only [List.mem_singleton] at hx
        subst hx; exact hdig
      · intro init
        simp only [decimal_value, List.foldl_cons, List.foldl_nil, hd,
          show '0'.toNat = 48 from rfl, List.length_nil]
        omega
      · intro _
        simp only [hd, show '1'.toNat = 49 from rfl]
        omega
    · rw [if_neg h0]
      obtain ⟨c, ds, e, hds, hval, hfirst⟩ := ih (n / 10) (Nat.digitChar (n % 10) :: acc)
        (by omega)
      refine ⟨c, ds ++ [Nat.digitChar (n % 10)], by rw [e]; simp, ?_, ?_, ?_⟩
      · intro x hx
        simp only [List.mem_cons, List.mem_append, List.not_mem_nil, or_false] at hx
        rcases hx with rfl | hx | rfl
        · exact hds _ (List.mem_cons_self _ _)
        · exact hds _ (List.mem_cons_of_mem _ hx)
        · exact hdig
      · intro init
        have := hval init
        rw [← List.cons_append, decimal_value_append, this]
        simp only [decimal_value, List.foldl_cons, List.foldl_nil, hd,
          show '0'.toNat = 48 from rfl, List.length_append, List.length_singleton]
        have hp : 10 ^ (ds.length + 1 + 1) = 10 ^ (ds.length + 1) * 10 := Nat.pow_succ _ _
        have h2 : 48 + n % 10 - 48 = n % 10 := by omega
        rw [hp, h2, Nat.add_mul, Nat.add_assoc, Nat.mul_assoc]
        congr 1
        omega
      · intro _
        exact hfirst (by omega)

/-- The decimal digits of `m`: digit characters whose value is `m`, the first
one not `'0'` unless `m = 0`. -/
theorem toDigits_spec (m : Nat) :
    ∃ c ds, Nat.toDigits 10 m = c :: ds ∧ (∀ x ∈ c :: ds, digit x) ∧
      decimal_value 0 (c :: ds) = m ∧ (1 ≤ m → '1'.toNat ≤ c.toNat) := by
  obtain ⟨c, ds, e, hds, hval, hfirst⟩ := toDigitsCore_spec (m + 1) m [] (by omega)
  refine ⟨c, ds, by simpa [Nat.toDigits] using e, hds, ?_, hfirst⟩
  rw [hval 0]; omega

theorem show_double_small (s : Bool) {m : Nat} (h : m < 10 ^ 6) :
    show_double (.finite s m) = (if s then ['-'] else []) ++ Nat.toDigits 10 m := by
  have hl : (Nat.toDigits 10 m).length ≤ 6 :=
    Nat.toDigitsCore_length 10 (by norm_num) (m + 1) m 6 h (by norm_num)
  simp only [show_double, if_pos hl]

/-! ## Lexing the text of rendered tokens -/

theorem tokenize_string_spec (t : List Char) (ht : '"' ∉ t) (rest : List Char) :
    ∀ s, tokenize_string (t ++ '"' :: rest) s = .ok (s ++ t, rest) := by
  induction t with
  | nil => intro s; simp [tokenize_string]
  | cons c t ih =>
    intro s
    have hc : c ≠ '"' := fun e => ht (by rw [e]; exact List.mem_cons_self _ _)
    have ht' : '"' ∉ t := fun h => ht (List.mem_cons_of_mem _ h)
    rw [List.cons_append, tokenize_string, if_neg hc, ih ht']
    simp

theorem tokenize_loop_lbrace (f : Nat) (is : List Char) (ret : List token) :
    tokenize_loop (f + 1) ('{' :: is) ret = tokenize_loop f is (ret ++ [.lbrace]) := rfl

theorem tokenize_loop_rbrace (f : Nat) (is : List Char) (ret : List token) :
    tokenize_loop (f + 1) ('}' :: is) ret = tokenize_loop f is (ret ++ [.rbrace]) := rfl

theorem tokenize_loop_lbracket (f : Nat) (is : List Char) (ret : List token) :
    tokenize_loop (f + 1) ('[' :: is) ret = tokenize_loop f is (ret ++ [.lbracket]) := rfl

theorem tokenize_loop_rbracket (f : Nat) (is : List Char) (ret : List token) :
    tokenize_loop (f + 1) (']' :: is) ret = tokenize_loop f is (ret ++ [.rbracket]) := rfl

theorem tokenize_loop_comma (f : Nat) (is : List Char) (ret : List token) :
    tokenize_loop (f + 1) (',' :: is) ret = tokenize_loop f is (ret ++ [.comma]) := rfl

theorem tokenize_loop_colon (f : Nat) (is : List Char) (ret : List token) :
    tokenize_loop (f + 1) (':' :: is) ret = tokenize_loop f is (ret ++ [.colon]) := rfl

theorem tokenize_loop_space (f : Nat) (is : List Char) (ret : List token) :
    tokenize_loop (f + 1) (' ' :: is) ret = tokenize_loop f is ret := rfl

theorem tokenize_loop_quote (f : Nat) (is : List Char) (ret : List token) :
    tokenize_loop (f + 1) ('"' :: is) ret =
      match tokenize_string is [] with
      | .error e => some (.error e)
      | .ok (s, is') => tokenize_loop f is' (ret ++ [.string s]) := rfl

/-- A quoted string without `'"'` is lexed back to itself. -/
theorem tokenize_loop_string (f : Nat) (t rest : List Char) (ht : '"' ∉ t) (ret : List token) :
    tokenize_loop (f + 1) ('"' :: t ++ '"' :: rest) ret
      = tokenize_loop f rest (ret ++ [.string t]) := by
  rw [List.cons_append, tokenize_loop_quote, tokenize_string_spec t ht rest []]
  rfl

/-- The text of a number below `10 ^ 6` other than `+0` is lexed back to it,
when no digit follows. -/
theorem tokenize_loop_show_double (f : Nat) (n : double) (hs : n.small)
    (h0 : n ≠ .finite false 0) (rest : List Char) (hrest : no_digit_head rest)
    (ret : List token) :
    tokenize_loop (f + 1) (show_double n ++ rest) ret
      = tokenize_loop f rest (ret ++ [.number n]) := by
  cases n with
  | nan => exact absurd hs (by simp [double.small])
  | inf s => exact absurd hs (by simp [double.small])
  | finite s m =>
    simp only [double.small] at hs
    obtain ⟨c, ds, e, hds, hval, hfirst⟩ := toDigits_spec m
    rw [show_double_small s hs, e]
    have hm : m + 48 ≤ 2 ^ 53 := by
      have : (10 : Nat) ^ 6 + 48 ≤ 2 ^ 53 := by norm_num
      omega
    cases s with
    | true =>
      have key := tpn_exact rest hrest (c :: ds) 0 hds (by rw [hval]; exact hm)
      rw [hval] at key
      simp only [if_true, List.cons_append, List.nil_append] at key ⊢
      rw [tokenize_loop_minus, key]
      rfl
    | false =>
      have hm1 : 1 ≤ m := by
        rcases Nat.eq_zero_or_pos m with h | h
        · subst h; exact absurd rfl h0
        · exact h
      have hc := hds c (List.mem_cons_self _ _)
      have hc19 : '1'.toNat ≤ c.toNat ∧ c.toNat ≤ '9'.toNat := ⟨hfirst hm1, hc.2⟩
      have hval' : decimal_value (c.toNat - 48) ds = m := by
        rw [← hval]
        show _ = decimal_value (0 * 10 + (c.toNat - 48)) ds
        rw [Nat.zero_mul, Nat.zero_add]
      have key := tpn_exact rest hrest ds (c.toNat - 48)
        (fun x hx => hds x (List.mem_cons_of_mem _ hx)) (by rw [hval']; exact hm)
      rw [hval'] at key
      simp only [Bool.false_eq_true, if_false, List.nil_append, List.cons_append]
      rw [tokenize_loop_number_start _ _ _ _ hc19, key]

theorem show_double_ne_nil (n : double) (hs : n.small) : show_double n ≠ [] := by
  cases n with
  | nan => exact absurd hs (by simp [double.small])
  | inf s => exact absurd hs (by simp [double.small])
  | finite s m =>
    simp only [double.small] at hs
    obtain ⟨c, ds, e, -⟩ := toDigits_spec m
    rw [show_double_small s hs, e]
    cases s <;> simp

theorem render_tokens_cons (t : token) (ts : List token) :
    render_tokens (t :: ts) = t.render ++ render_tokens ts := by
  simp [render_tokens]

theorem no_digit_head_render (t : token) (ts : List token) (ht : t.kind ≠ .number) :
    no_digit_head (render_tokens (t :: ts)) := by
  intro c hc
  rw [render_tokens_cons] at hc
  cases t <;> simp [token.render, token.kind] at hc ht <;> subst hc <;> decide

/-! ## The fuel of the lexer -/

theorem tpn_length (is : List Char) : ∀ n : double,
    (tokenize_positive_number is n).2.length ≤ is.length := by
  induction is with
  | nil => intro n; simp [tokenize_positive_number]
  | cons c is ih =>
    intro n
    unfold tokenize_positive_number
    split
    · exact Nat.le_refl _
    · exact Nat.le_trans (ih _) (by simp)

theorem tokenize_string_length (is : List Char) : ∀ (s t rest : List Char),
    tokenize_string is s = .ok (t, rest) → rest.length < is.length := by
  induction is with
  | nil => intro s t rest h; simp [tokenize_string] at h
  | cons c is ih =>
    intro s t rest h
    unfold tokenize_string at h
    split at h
    · cases h; simp
    · exact Nat.lt_trans (ih _ _ _ h) (by simp)

/-- With more fuel than characters the loop does not run out of fuel, and its
outcome does not depend on the fuel. -/
theorem tokenize_loop_fuel : ∀ (f : Nat) (is : List Char) (ret : List token), is.length < f →
    ∀ f', is.length < f' → tokenize_loop f is ret = tokenize_loop f' is ret := by
  intro f
  induction f with
  | zero => intro is ret h; omega
  | succ f ih =>
    intro is ret hf f' hf'
    obtain ⟨f', rfl⟩ : ∃ g, f' = g + 1 := ⟨f' - 1, by omega⟩
    cases is with
    | nil => rfl
    | cons ch is =>
      simp only [List.length_cons] at hf hf'
      have hrec : ∀ ret', tokenize_loop f is ret' = tokenize_loop f' is ret' :=
        fun ret' => ih is ret' (by omega) f' (by omega)
      by_cases hnum : '1'.toNat ≤ ch.toNat ∧ ch.toNat ≤ '9'.toNat
      · rw [tokenize_loop_number_start _ _ _ _ hnum, tokenize_loop_number_start _ _ _ _ hnum]
        have := tpn_length is (.finite false (ch.toNat - 48))
        exact ih _ _ (by omega) f' (by omega)
      · unfold tokenize_loop
        by_cases h1 : ch = ' ' ∨ ch = '\t' ∨ ch = '\n' ∨ ch = '\r'
        · rw [if_pos h1, if_pos h1]; exact hrec _
        rw [if_neg h1, if_neg h1]
        by_cases h2 : ch = '{'
        · rw [if_pos h2, if_pos h2]; exact hrec _
        rw [if_neg h2, if_neg h2]
        by_cases h3 : ch = '}'
        · rw [if_pos h3, if_pos h3]; exact hrec _
        rw [if_neg h3, if_neg h3]
        by_cases h4 : ch = '['
        · rw [if_pos h4, if_pos h4]; exact hrec _
        rw [if_neg h4, if_neg h4]
        by_cases h5 : ch = ']'
        · rw [if_pos h5, if_pos h5]; exact hrec _
        rw [if_neg h5, if_neg h5]
        by_cases h6 : ch = ','
        · rw [if_pos h6, if_pos h6]; exact hrec _
        rw [if_neg h6, if_neg h6]
        by_cases h7 : ch = ':'
        · rw [if_pos h7, if_pos h7]; exact hrec _
        rw [if_neg h7, if_neg h7]
        by_cases h8 : ch = '"'
        · rw [if_pos h8, if_pos h8]
          cases hs : tokenize_string is [] with
          | error e => rfl
          | ok r =>
            obtain ⟨s, is'⟩ := r
            have := tokenize_string_length _ _ _ _ hs
            exact ih _ _ (by omega) f' (by omega)
        rw [if_neg h8, if_neg h8]
        by_cases h9 : ch = '-'
        · rw [if_pos h9, if_pos h9]
          have := tpn_length is (.finite false 0)
          exact ih _ _ (by omega) f' (by omega)
        rw [if_neg h9, if_neg h9]
        by_cases h10 : ch = '1' ∨ ch = '2' ∨ ch = '3' ∨ ch = '4' ∨ ch = '5' ∨ ch = '6'
            ∨ ch = '7' ∨ ch = '8' ∨ ch = '9'
        · exfalso
          apply hnum
          rcases h10 with rfl | rfl | rfl | rfl | rfl | rfl | rfl | rfl | rfl <;> decide
        · rw [if_neg h10, if_neg h10]

/-- `tokenize` continued from the tokens `ret`. -/
theorem tokenize_eq_loop (is : List Char) (f : Nat) (hf : is.length < f) :
    tokenize is = tokenize_loop f is [] :=
  tokenize_loop_fuel _ _ _ (by omega) f hf

/-! ## Induction on values -/

/-- Structural induction on a value, with the hypothesis for every entry of an
object and every element of an array. -/
theorem value.induct {P : value → Prop} (hn : ∀ n, P (.number n)) (hs : ∀ s, P (.string s))
    (ho : ∀ m : List (List Char × value), (∀ e ∈ m, P e.2) → P (.object m))
    (ha : ∀ xs : List value, (∀ x ∈ xs, P x) → P (.array xs)) : ∀ v, P v := by
  intro v
  refine @value.rec P (fun m => ∀ e ∈ m, P e.2) (fun xs => ∀ x ∈ xs, P x) (fun e => P e.2)
    hn hs (fun m ih => ho m ih) (fun xs ih => ha xs ih) ?_ ?_ ?_ ?_ ?_ v
  · intro e h; cases h
  · intro e m he hm e' h
    rcases List.mem_cons.1 h with rfl | h
    · exact he
    · exact hm e' h
  · intro x h; cases h
  · intro x xs hx hxs x' h
    rcases List.mem_cons.1 h with rfl | h
    · exact hx
    · exact hxs x' h
  · intro k x hx; exact hx

theorem entries_all_iff (pn : double → Prop) (ps : List Char → Prop)
    (m : List (List Char × value)) :
    entries_all pn ps m ↔ ∀ e ∈ m, ps e.1 ∧ e.2.all pn ps := by
  induction m with
  | nil => simp [entries_all]
  | cons e m ih =>
    obtain ⟨k, x⟩ := e
    simp only [entries_all, ih, List.forall_mem_cons, and_assoc]

theorem list_all_iff (pn : double → Prop) (ps : List Char → Prop) (xs : List value) :
    list_all pn ps xs ↔ ∀ x ∈ xs, x.all pn ps := by
  induction xs with
  | nil => simp [list_all]
  | cons x xs ih => simp only [list_all, ih, List.forall_mem_cons]

theorem entries_keys_nodup_iff (m : List (List Char × value)) :
    entries_keys_nodup m ↔ ∀ e ∈ m, e.2.keys_nodup := by
  induction m with
  | nil => simp [entries_keys_nodup]
  | cons e m ih =>
    obtain ⟨k, x⟩ := e
    simp only [entries_keys_nodup, ih, List.forall_mem_cons]

theorem list_keys_nodup_iff (xs : List value) :
    list_keys_nodup xs ↔ ∀ x ∈ xs, x.keys_nodup := by
  induction xs with
  | nil => simp [list_keys_nodup]
  | cons x xs ih => simp only [list_keys_nodup, ih, List.forall_mem_cons]

/-! ## Lexing the text of a rendered value -/

theorem tokenize_eq_lex (is : List Char) : tokenize is = lex is [] := rfl

theorem lex_of_loop {f : Nat} {is : List Char} (ret : List token) (hf : is.length < f) :
    tokenize_loop f is ret = lex is ret :=
  tokenize_loop_fuel _ _ _ hf _ (by omega)

theorem lex_nil (ret : List token) : lex [] ret = some (.ok ret) := rfl

theorem lex_lbrace (is : List Char) (ret : List token) :
    lex ('{' :: is) ret = lex is (ret ++ [.lbrace]) := rfl

theorem lex_rbrace (is : List Char) (ret : List token) :
    lex ('}' :: is) ret = lex is (ret ++ [.rbrace]) := rfl

theorem lex_lbracket (is : List Char) (ret : List token) :
    lex ('[' :: is) ret = lex is (ret ++ [.lbracket]) := rfl

theorem lex_rbracket (is : List Char) (ret : List token) :
    lex (']' :: is) ret = lex is (ret ++ [.rbracket]) := rfl

theorem lex_comma (is : List Char) (ret : List token) :
    lex (',' :: is) ret = lex is (ret ++ [.comma]) := rfl

theorem lex_colon (is : List Char) (ret : List token) :
    lex (':' :: is) ret = lex is (ret ++ [.colon]) := rfl

theorem lex_space (is : List Char) (ret : List token) : lex (' ' :: is) ret = lex is ret := rfl

theorem lex_string (t rest : List Char) (ht : '"' ∉ t) (ret : List token) :
    lex ('"' :: t ++ '"' :: rest) ret = lex rest (ret ++ [.string t]) := by
  unfold lex
  rw [tokenize_loop_string _ t rest ht ret]
  exact tokenize_loop_fuel _ _ _ (by simp; omega) _ (by omega)

theorem lex_show_double (n : double) (hs : n.small) (h0 : n ≠ .finite false 0)
    (rest : List Char) (hrest : no_digit_head rest) (ret : List token) :
    lex (show_double n ++ rest) ret = lex rest (ret ++ [.number n]) := by
  unfold lex
  rw [tokenize_loop_show_double _ n hs h0 rest hrest ret]
  have := show_double_ne_nil n hs
  exact tokenize_loop_fuel _ _ _ (by
    cases h : show_double n with
    | nil => exact absurd h this
    | cons _ _ => simp; omega) _ (by omega)

theorem render_value_object (m : List (List Char × value)) :
    render_value (.object m) = '{' :: render_members true m ++ ['}'] := by
  simp [render_value]

theorem render_value_array_cons (x : value) (xs : List value) :
    render_value (.array (x :: xs)) = '[' :: render_value x ++ render_rest xs ++ [']'] := by
  simp [render_value]

theorem render_members_cons (first : Bool) (s : List Char) (v : value)
    (m : List (List Char × value)) :
    render_members first ((s, v) :: m) =
      (if first then [] else [',', ' ']) ++ '"' :: s ++ ['"', ':', ' '] ++ render_value v
        ++ render_members false m := by
  simp [render_members]

theorem render_rest_cons (x : value) (xs : List value) :
    render_rest (x :: xs) = [',', ' '] ++ render_value x ++ render_rest xs := by
  simp [render_rest]

theorem no_digit_head_cons {c : Char} (hc : ¬ digit c) (is : List Char) :
    no_digit_head (c :: is) := by
  intro c' h
  simp only [List.head?_cons, Option.some.injEq] at h
  subst h; exact hc

theorem no_digit_head_members_append (m : List (List Char × value)) (rest : List Char)
    (hrest : no_digit_head rest) : no_digit_head (render_members false m ++ rest) := by
  cases m with
  | nil => simpa [render_members] using hrest
  | cons e m =>
    obtain ⟨s, v⟩ := e
    rw [render_members_cons]
    exact no_digit_head_cons (by decide) _

theorem no_digit_head_rest_append (xs : List value) (rest : List Char)
    (hrest : no_digit_head rest) : no_digit_head (render_rest xs ++ rest) := by
  cases xs with
  | nil => simpa [render_rest] using hrest
  | cons x xs =>
    rw [render_rest_cons]
    exact no_digit_head_cons (by decide) _

theorem lex_render_members (m : List (List Char × value)) (ih : ∀ e ∈ m, LexesBack e.2) :
    ∀ (first : Bool), entries_all double.small (fun _ => True) m →
      entries_all (fun n => n ≠ .finite false 0) (fun s => '"' ∉ s) m →
      ∀ (rest : List Char) (ret : List token), no_digit_head rest →
        lex (render_members first m ++ rest) ret = lex rest (ret ++ entries_tokens first m) := by
  induction m with
  | nil => intro first _ _ rest ret _; simp [render_members, entries_tokens]
  | cons e m ihm =>
    intro first hsm hlx rest ret hrest
    obtain ⟨s, v⟩ := e
    simp only [entries_all] at hsm hlx
    have hv := ih (s, v) (List.mem_cons_self _ _) hsm.2.1 hlx.2.1
      (render_members false m ++ rest)
    have hm := ihm (fun e he => ih e (List.mem_cons_of_mem _ he)) false hsm.2.2 hlx.2.2 rest
    have hnd := no_digit_head_members_append m rest hrest
    rw [render_members_cons]
    cases first with
    | true =>
      simp only [if_true, List.nil_append, List.append_assoc, List.cons_append,
        entries_tokens]
      rw [show '"' :: (s ++ '"' :: ':' :: ' ' :: (render_value v ++ (render_members false m
            ++ rest)))
          = '"' :: s ++ '"' :: (':' :: ' ' :: (render_value v ++ (render_members false m
            ++ rest))) by simp,
        lex_string _ _ hlx.1, lex_colon, lex_space, hv _ hnd, hm _ hrest]
      simp
    | false =>
      simp only [Bool.false_eq_true, if_false, List.append_assoc, List.cons_append,
        List.nil_append, entries_tokens]
      rw [lex_comma, lex_space,
        show '"' :: (s ++ '"' :: ':' :: ' ' :: (render_value v ++ (render_members false m
            ++ rest)))
          = '"' :: s ++ '"' :: (':' :: ' ' :: (render_value v ++ (render_members false m
            ++ rest))) by simp,
        lex_string _ _ hlx.1, lex_colon, lex_space, hv _ hnd, hm _ hrest]
      simp

theorem lex_render_rest (xs : List value) (ih : ∀ x ∈ xs, LexesBack x) :
    list_all double.small (fun _ => True) xs →
      list_all (fun n => n ≠ .finite false 0) (fun s => '"' ∉ s) xs →
      ∀ (rest : List Char) (ret : List token), no_digit_head rest →
        lex (render_rest xs ++ rest) ret = lex rest (ret ++ rest_tokens xs) := by
  induction xs with
  | nil => intro _ _ rest ret _; simp [render_rest, rest_tokens]
  | cons x xs ihx =>
    intro hsm hlx rest ret hrest
    simp only [list_all] at hsm hlx
    have hv := ih x (List.mem_cons_self _ _) hsm.1 hlx.1 (render_rest xs ++ rest)
    have hm := ihx (fun e he => ih e (List.mem_cons_of_mem _ he)) hsm.2 hlx.2 rest
    have hnd := no_digit_head_rest_append xs rest hrest
    rw [render_rest_cons]
    simp only [List.append_assoc, List.cons_append, List.nil_append, rest_tokens]
    rw [lex_comma, lex_space, hv _ hnd, hm _ hrest]
    simp

/-- The text of a value with small numbers and lexer-made leaves is lexed to
the tokens of the value. -/
theorem lex_render_value : ∀ v, LexesBack v := by
  apply value.induct
  · intro n hsm hlx rest ret hrest
    exact lex_show_double n hsm hlx rest hrest ret
  · intro s _ hlx rest ret _
    have : render_value (.string s) ++ rest = '"' :: s ++ '"' :: rest := by
      simp [render_value]
    rw [this, lex_string s rest hlx ret]
    rfl
  · intro m ih hsm hlx rest ret hrest
    have hm := lex_render_members m ih true hsm hlx ('}' :: rest) (ret ++ [.lbrace])
      (no_digit_head_cons (by decide) _)
    rw [render_value_object]
    simp only [List.cons_append, List.append_assoc, List.singleton_append, List.nil_append]
    rw [lex_lbrace, hm, lex_rbrace]
    simp [value.tokens]
  · intro xs ih hsm hlx rest ret hrest
    cases xs with
    | nil =>
      have : render_value (.array []) ++ rest = '[' :: ']' :: rest := by simp [render_value]
      rw [this, lex_lbracket, lex_rbracket]
      simp [value.tokens]
    | cons x xs =>
      have hsm' : list_all double.small (fun _ => True) (x :: xs) := hsm
      have hlx' : list_all (fun n => n ≠ .finite false 0) (fun s => '"' ∉ s) (x :: xs) := hlx
      simp only [list_all] at hsm' hlx'
      have hx := ih x (List.mem_cons_self _ _) hsm'.1 hlx'.1
        (render_rest xs ++ (']' :: rest)) (ret ++ [.lbracket])
        (no_digit_head_rest_append xs _ (no_digit_head_cons (by decide) _))
      have hr := lex_render_rest xs (fun e he => ih e (List.mem_cons_of_mem _ he)) hsm'.2
        hlx'.2 (']' :: rest) (ret ++ [.lbracket] ++ x.tokens)
        (no_digit_head_cons (by decide) _)
      rw [render_value_array_cons]
      simp only [List.cons_append, List.append_assoc, List.singleton_append, List.nil_append]
      rw [lex_lbracket, hx, hr, lex_rbracket]
      simp [value.tokens]

/-! ## Parsing the tokens of a value -/

theorem find_eq_none_iff (k : List Char) (m : List (List Char × value)) :
    find k m = none ↔ k ∉ m.map Prod.fst := by
  induction m with
  | nil => simp [find]
  | cons e m ih =>
    obtain ⟨k', x⟩ := e
    by_cases h : k' = k
    · simp [find, h]
    · simp only [find, if_neg h, ih, List.map_cons, List.mem_cons, not_or]
      exact ⟨fun hm => ⟨fun e => h e.symm, hm⟩, fun hm => hm.2⟩

theorem emplace_of_not_mem {k : List Char} {m : List (List Char × value)} (x : value)
    (h : k ∉ m.map Prod.fst) : emplace m k x = m ++ [(k, x)] := by
  simp only [emplace, (find_eq_none_iff k m).2 h]

theorem run_rest_tokens (xs : List value) (ih : ∀ x ∈ xs, ParsesBack x) :
    list_keys_nodup xs → ∀ (pre : List token) (ret : List value),
      Run (pre ++ (rest_tokens xs ++ [token.rbracket])) (.array_loop ret) pre.length
        (.array (ret ++ xs)) (pre ++ (rest_tokens xs ++ [token.rbracket])).length := by
  induction xs with
  | nil =>
    intro _ pre ret
    simp only [rest_tokens, List.nil_append, List.append_nil, List.length_append,
      List.length_singleton]
    exact Run.array_done (getElem?_prepend_head _ _ _)
  | cons x xs ihx =>
    intro hk pre ret
    simp only [list_keys_nodup] at hk
    have r := ih x (List.mem_cons_self _ _) hk.1
    have rl := ihx (fun e he => ih e (List.mem_cons_of_mem _ he)) hk.2
      (pre ++ token.comma :: x.tokens) (ret ++ [x])
    have eq : pre ++ token.comma :: x.tokens ++ (rest_tokens xs ++ [token.rbracket])
        = pre ++ (rest_tokens (x :: xs) ++ [token.rbracket]) := by
      simp [rest_tokens]
    have el : (pre ++ token.comma :: x.tokens).length = pre.length + 1 + x.tokens.length := by
      simp; omega
    have er : ret ++ [x] ++ xs = ret ++ x :: xs := by simp
    rw [eq, el, er] at rl
    have r1 : Run (pre ++ (rest_tokens (x :: xs) ++ [token.rbracket])) .parse_value
        (pre.length + 1) x (pre.length + 1 + x.tokens.length) :=
      run_embed r (pre ++ [.comma]) (rest_tokens xs ++ [token.rbracket])
        (by simp [rest_tokens]) (by simp) (by simp)
    refine Run.array_more ?_ r1 rl
    simpa [rest_tokens] using getElem?_prepend_head pre
      (x.tokens ++ (rest_tokens xs ++ [token.rbracket])) token.comma

theorem run_entries_tokens (m : List (List Char × value)) (ih : ∀ e ∈ m, ParsesBack e.2) :
    entries_keys_nodup m → ∀ (pre : List token) (ret : List (List Char × value)),
      ((ret ++ m).map Prod.fst).Nodup →
      Run (pre ++ (entries_tokens false m ++ [token.rbrace])) (.object_loop ret) pre.length
        (.object (ret ++ m)) (pre ++ (entries_tokens false m ++ [token.rbrace])).length := by
  induction m with
  | nil =>
    intro _ pre ret _
    simp only [entries_tokens, List.nil_append, List.append_nil, List.length_append,
      List.length_singleton]
    exact Run.object_done (getElem?_prepend_head _ _ _)
  | cons e m ihm =>
    intro hk pre ret hnd
    obtain ⟨k, x⟩ := e
    simp only [entries_keys_nodup] at hk
    have r := ih (k, x) (List.mem_cons_self _ _) hk.1
    have hnot : k ∉ ret.map Prod.fst := by
      simp only [List.map_append, List.map_cons] at hnd
      have := (List.nodup_append.1 hnd).2.2
      intro hmem
      exact this hmem (List.mem_cons_self _ _)
    have er : ret ++ [(k, x)] ++ m = ret ++ (k, x) :: m := by simp
    have rl := ihm (fun e he => ih e (List.mem_cons_of_mem _ he)) hk.2
      (pre ++ token.comma :: token.string k :: token.colon :: x.tokens) (ret ++ [(k, x)])
      (by rw [er]; exact hnd)
    have eq : pre ++ token.comma :: token.string k :: token.colon :: x.tokens
          ++ (entries_tokens false m ++ [token.rbrace])
        = pre ++ (entries_tokens false ((k, x) :: m) ++ [token.rbrace]) := by
      simp [entries_tokens]
    have el : (pre ++ token.comma :: token.string k :: token.colon :: x.tokens).length
        = pre.length + 3 + x.tokens.length := by
      simp; omega
    rw [eq, el, er, ← emplace_of_not_mem x hnot] at rl
    have r1 : Run (pre ++ (entries_tokens false ((k, x) :: m) ++ [token.rbrace])) .parse_value
        (pre.length + 3) x (pre.length + 3 + x.tokens.length) :=
      run_embed r (pre ++ [.comma, .string k, .colon]) (entries_tokens false m ++ [token.rbrace])
        (by simp [entries_tokens]) (by simp) (by simp)
    refine Run.object_more (k := k) (v := x) ?_ ?_ ?_ r1 rl
    · simpa [entries_tokens] using getElem?_prepend_head pre
        (token.string k :: token.colon :: x.tokens ++ (entries_tokens false m ++ [token.rbrace]))
        token.comma
    · rw [getElem?_prepend]; simp [entries_tokens]
    · rw [getElem?_prepend]; simp [entries_tokens]


/-- The tokens of a value with distinct keys are parsed back to the value. -/
theorem run_value_tokens : ∀ v, ParsesBack v := by
  apply value.induct
  · intro n _; exact Run.number rfl
  · intro s _; exact Run.string rfl
  · intro m ih hk
    simp only [value.keys_nodup] at hk
    cases m with
    | nil => exact Run.object_empty rfl rfl
    | cons e m =>
      obtain ⟨k, x⟩ := e
      have hk2 := hk.2
      simp only [entries_keys_nodup] at hk2
      have r := ih (k, x) (List.mem_cons_self _ _) hk2.1
      have rl := run_entries_tokens m (fun e he => ih e (List.mem_cons_of_mem _ he)) hk2.2
        (token.lbrace :: token.string k :: token.colon :: x.tokens) [(k, x)] hk.1
      have eq : token.lbrace :: token.string k :: token.colon :: x.tokens
            ++ (entries_tokens false m ++ [token.rbrace])
          = (value.object ((k, x) :: m)).tokens := by
        simp [value.tokens, entries_tokens]
      have el : (token.lbrace :: token.string k :: token.colon :: x.tokens).length
          = 3 + x.tokens.length := by
        simp; omega
      rw [eq, el] at rl
      have r1 : Run (value.object ((k, x) :: m)).tokens .parse_value 3 x
          (3 + x.tokens.length) :=
        run_embed r [.lbrace, .string k, .colon] (entries_tokens false m ++ [token.rbrace])
          (by simp [value.tokens, entries_tokens]) rfl rfl
      have hem : emplace [] k x = [(k, x)] := rfl
      refine Run.object (k := k) (v := x) ?_ ?_ ?_ r1 (by rw [hem]; exact rl)
      · simp [value.tokens, entries_tokens]
      · simp [value.tokens, entries_tokens]
      · simp [value.tokens, entries_tokens]
  · intro xs ih hk
    simp only [value.keys_nodup] at hk
    cases xs with
    | nil => exact Run.array_empty rfl rfl
    | cons x xs =>
      simp only [list_keys_nodup] at hk
      have r := ih x (List.mem_cons_self _ _) hk.1
      have rl := run_rest_tokens xs (fun e he => ih e (List.mem_cons_of_mem _ he)) hk.2
        (token.lbracket :: x.tokens) [x]
      have eq : token.lbracket :: x.tokens ++ (rest_tokens xs ++ [token.rbracket])
          = (value.array (x :: xs)).tokens := by
        simp [value.tokens]
      have el : (token.lbracket :: x.tokens).length = 1 + x.tokens.length := by
        simp; omega
      rw [eq, el] at rl
      have r1 : Run (value.array (x :: xs)).tokens .parse_value 1 x (1 + x.tokens.length) :=
        run_embed r [.lbracket] (rest_tokens xs ++ [token.rbracket])
          (by simp [value.tokens]) rfl rfl
      exact Run.array (v := x) (by simp [value.tokens]) r1 rl

/-! ## What `parse` returns on the tokens of the lexer -/

theorem mem_of_getElem?_eq {α : Type} {l : List α} {i : Nat} {a : α} (h : l[i]? = some a) :
    a ∈ l := by
  have hl := lt_length_of_getElem? h
  rw [List.getElem?_eq_getElem hl] at h
  cases h
  exact List.getElem_mem _

theorem emplace_cases (m : List (List Char × value)) (k : List Char) (x : value) :
    emplace m k x = m ∨ (k ∉ m.map Prod.fst ∧ emplace m k x = m ++ [(k, x)]) := by
  unfold emplace
  cases h : find k m with
  | some y => exact Or.inl rfl
  | none => exact Or.inr ⟨(find_eq_none_iff k m).1 h, rfl⟩

theorem object_lexed_iff (m : List (List Char × value)) :
    (value.object m).lexed ↔ ∀ e ∈ m, '"' ∉ e.1 ∧ e.2.lexed := by
  simp only [value.lexed, value.all, entries_all_iff]

theorem array_lexed_iff (xs : List value) :
    (value.array xs).lexed ↔ ∀ x ∈ xs, x.lexed := by
  simp only [value.lexed, value.all, list_all_iff]

theorem object_keys_nodup_iff (m : List (List Char × value)) :
    (value.object m).keys_nodup ↔ (m.map Prod.fst).Nodup ∧ ∀ e ∈ m, e.2.keys_nodup := by
  simp only [value.keys_nodup, entries_keys_nodup_iff]

theorem array_keys_nodup_iff (xs : List value) :
    (value.array xs).keys_nodup ↔ ∀ x ∈ xs, x.keys_nodup := by
  simp only [value.keys_nodup, list_keys_nodup_iff]

theorem keeps_of_run {toks : List token} (htoks : ∀ t ∈ toks, t.lexed) {p : Proc} {h h' : Nat}
    {v : value} (r : Run toks p h v h') : p.keeps v := by
  induction r with
  | number h0 =>
    exact ⟨htoks _ (mem_of_getElem?_eq h0), trivial⟩
  | string h0 =>
    exact ⟨htoks _ (mem_of_getElem?_eq h0), trivial⟩
  | array_empty _ _ =>
    exact ⟨(array_lexed_iff _).2 (by intro x hx; cases hx),
      (array_keys_nodup_iff _).2 (by intro x hx; cases hx)⟩
  | array _ _ _ ih1 ih2 =>
    refine ih2 ?_
    intro x hx
    simp only [List.mem_singleton] at hx
    subst hx
    exact ih1
  | array_done _ =>
    intro hret
    exact ⟨(array_lexed_iff _).2 (fun x hx => (hret x hx).1),
      (array_keys_nodup_iff _).2 (fun x hx => (hret x hx).2)⟩
  | array_more _ _ _ ih1 ih2 =>
    intro hret
    refine ih2 ?_
    intro x hx
    simp only [List.mem_append, List.mem_singleton] at hx
    rcases hx with hx | rfl
    · exact hret x hx
    · exact ih1
  | object_empty _ _ =>
    exact ⟨(object_lexed_iff _).2 (by intro x hx; cases hx),
      (object_keys_nodup_iff _).2 ⟨by simp, by intro x hx; cases hx⟩⟩
  | @object h h1 h2 k v w _ hk _ _ _ ih1 ih2 =>
    have hkey : '"' ∉ k := htoks _ (mem_of_getElem?_eq hk)
    refine ih2 ?_ ?_
    · intro e he
      have : e = (k, v) := by simpa [emplace, find] using he
      subst this
      exact ⟨hkey, ih1.1, ih1.2⟩
    · simp [emplace, find]
  | object_done _ =>
    intro hret hnd
    exact ⟨(object_lexed_iff _).2 (fun e he => ⟨(hret e he).1, (hret e he).2.1⟩),
      (object_keys_nodup_iff _).2 ⟨hnd, fun e he => (hret e he).2.2⟩⟩
  | @object_more h h1 h2 ret k v w _ hk _ _ _ ih1 ih2 =>
    intro hret hnd
    have hkey : '"' ∉ k := htoks _ (mem_of_getElem?_eq hk)
    rcases emplace_cases ret k v with he | ⟨hnot, he⟩
    · rw [he] at ih2
      exact ih2 hret hnd
    · rw [he] at ih2
      refine ih2 ?_ ?_
      · intro e hmem
        simp only [List.mem_append, List.mem_singleton] at hmem
        rcases hmem with hmem | rfl
        · exact hret e hmem
        · exact ⟨hkey, ih1.1, ih1.2⟩
      · rw [List.map_append, List.nodup_append]
        refine ⟨hnd, by simp, ?_⟩
        intro a ha hb
        simp only [List.map_cons, List.map_nil, List.mem_singleton] at hb
        subst hb
        exact hnot ha

/-! ## Reordering the entries of objects -/

theorem entries_equiv_keys (m : List (List Char × value)) :
    ∀ p, entries_equiv m p → p.map Prod.fst = m.map Prod.fst := by
  induction m with
  | nil => intro p h; simp only [entries_equiv] at h; subst h; rfl
  | cons e m ih =>
    intro p h
    obtain ⟨k, x⟩ := e
    simp only [entries_equiv] at h
    obtain ⟨y, p', rfl, _, hp'⟩ := h
    simp [ih p' hp']

theorem entries_equiv_mem (m : List (List Char × value)) :
    ∀ p, entries_equiv m p → ∀ e' ∈ p, ∃ e ∈ m, e.1 = e'.1 ∧ e.2.equiv e'.2 := by
  induction m with
  | nil => intro p h e' he'; simp only [entries_equiv] at h; subst h; cases he'
  | cons e m ih =>
    intro p h e' he'
    obtain ⟨k, x⟩ := e
    simp only [entries_equiv] at h
    obtain ⟨y, p', rfl, hxy, hp'⟩ := h
    rcases List.mem_cons.1 he' with rfl | he'
    · exact ⟨(k, x), List.mem_cons_self _ _, rfl, hxy⟩
    · obtain ⟨e, he, h1, h2⟩ := ih p' hp' e' he'
      exact ⟨e, List.mem_cons_of_mem _ he, h1, h2⟩

theorem list_equiv_mem (xs : List value) :
    ∀ ys, list_equiv xs ys → ∀ y ∈ ys, ∃ x ∈ xs, x.equiv y := by
  induction xs with
  | nil => intro ys h y hy; simp only [list_equiv] at h; subst h; cases hy
  | cons x xs ih =>
    intro ys h y hy
    simp only [list_equiv] at h
    obtain ⟨y0, ys', rfl, hxy, hys'⟩ := h
    rcases List.mem_cons.1 hy with rfl | hy
    · exact ⟨x, List.mem_cons_self _ _, hxy⟩
    · obtain ⟨x', hx', h2⟩ := ih ys' hys' y hy
      exact ⟨x', List.mem_cons_of_mem _ hx', h2⟩

/-- A property of the leaves holds of a value with its objects reordered. -/
theorem all_of_equiv (pn : double → Prop) (ps : List Char → Prop) :
    ∀ v : value, v.all pn ps → ∀ w, v.equiv w → w.all pn ps := by
  apply value.induct
  · intro n h w hw; simp only [value.equiv] at hw; subst hw; exact h
  · intro s h w hw; simp only [value.equiv] at hw; subst hw; exact h
  · intro m ih h w hw
    simp only [value.equiv] at hw
    obtain ⟨m', p, rfl, hperm, hp⟩ := hw
    simp only [value.all, entries_all_iff] at h ⊢
    intro e' he'
    obtain ⟨e, he, h1, h2⟩ := entries_equiv_mem m p hp e' (hperm.mem_iff.2 he')
    exact ⟨h1 ▸ (h e he).1, ih e he (h e he).2 _ h2⟩
  · intro xs ih h w hw
    simp only [value.equiv] at hw
    obtain ⟨ys, rfl, hys⟩ := hw
    simp only [value.all, list_all_iff] at h ⊢
    intro y hy
    obtain ⟨x, hx, h2⟩ := list_equiv_mem xs ys hys y hy
    exact ih x hx (h x hx) _ h2

/-- Distinctness of keys holds of a value with its objects reordered. -/
theorem keys_nodup_of_equiv : ∀ v : value, v.keys_nodup → ∀ w, v.equiv w → w.keys_nodup := by
  apply value.induct
  · intro n _ w hw; simp only [value.equiv] at hw; subst hw; trivial
  · intro s _ w hw; simp only [value.equiv] at hw; subst hw; trivial
  · intro m ih h w hw
    simp only [value.equiv] at hw
    obtain ⟨m', p, rfl, hperm, hp⟩ := hw
    rw [object_keys_nodup_iff] at h ⊢
    refine ⟨?_, ?_⟩
    · have hk := entries_equiv_keys m p hp
      have : (p.map Prod.fst).Nodup := by rw [hk]; exact h.1
      exact (hperm.map Prod.fst).nodup_iff.1 this
    · intro e' he'
      obtain ⟨e, he, _, h2⟩ := entries_equiv_mem m p hp e' (hperm.mem_iff.2 he')
      exact ih e he (h.2 e he) _ h2
  · intro xs ih h w hw
    simp only [value.equiv] at hw
    obtain ⟨ys, rfl, hys⟩ := hw
    rw [array_keys_nodup_iff] at h ⊢
    intro y hy
    obtain ⟨x, hx, h2⟩ := list_equiv_mem xs ys hys y hy
    exact ih x hx (h x hx) _ h2

theorem entries_equiv_refl (m : List (List Char × value)) (ih : ∀ e ∈ m, e.2.equiv e.2) :
    entries_equiv m m := by
  induction m with
  | nil => simp [entries_equiv]
  | cons e m ihm =>
    obtain ⟨k, x⟩ := e
    simp only [entries_equiv]
    exact ⟨x, m, rfl, ih (k, x) (List.mem_cons_self _ _),
      ihm (fun e he => ih e (List.mem_cons_of_mem _ he))⟩

theorem list_equiv_refl (xs : List value) (ih : ∀ x ∈ xs, x.equiv x) : list_equiv xs xs := by
  induction xs with
  | nil => simp [list_equiv]
  | cons x xs ihx =>
    simp only [list_equiv]
    exact ⟨x, xs, rfl, ih x (List.mem_cons_self _ _),
      ihx (fun e he => ih e (List.mem_cons_of_mem _ he))⟩

/-- A value is equal to itself as maps. -/
theorem equiv_refl : ∀ v : value, v.equiv v := by
  apply value.induct
  · intro n; simp [value.equiv]
  · intro s; simp [value.equiv]
  · intro m ih
    simp only [value.equiv]
    exact ⟨m, m, rfl, List.Perm.refl _, entries_equiv_refl m ih⟩
  · intro xs ih
    simp only [value.equiv]
    exact ⟨xs, rfl, list_equiv_refl xs ih⟩

/-- A value with small numbers, lexer-made leaves and distinct keys is read
back from its text. -/
theorem roundtrip_of_good (w : value) (hs : w.small) (hl : w.lexed) (hk : w.keys_nodup) :
    tokenize (render_value w) = some (.ok w.tokens) ∧
      parse ⟨w.tokens, 0⟩ = some (.ok w, ⟨w.tokens, w.tokens.length⟩) := by
  refine ⟨?_, (parse_eq_ok_iff _ _ _).2 ⟨rfl, run_value_tokens w hk⟩⟩
  have := lex_render_value w hs hl [] [] (by intro c hc; cases hc)
  rw [List.append_nil, lex_nil, List.nil_append] at this
  exact this

/-! ## The fuel is enough -/

/-- With more fuel than characters the lexer loop ends. -/
theorem tokenize_loop_total : ∀ (f : Nat) (is : List Char) (ret : List token), is.length < f →
    ∃ r, tokenize_loop f is ret = some r := by
  intro f
  induction f with
  | zero => intro is ret h; omega
  | succ f ih =>
    intro is ret hf
    cases is with
    | nil => exact ⟨_, rfl⟩
    | cons ch is =>
      simp only [List.length_cons] at hf
      by_cases hnum : '1'.toNat ≤ ch.toNat ∧ ch.toNat ≤ '9'.toNat
      · rw [tokenize_loop_number_start _ _ _ _ hnum]
        have := tpn_length is (.finite false (ch.toNat - 48))
        exact ih _ _ (by omega)
      · unfold tokenize_loop
        by_cases h1 : ch = ' ' ∨ ch = '\t' ∨ ch = '\n' ∨ ch = '\r'
        · rw [if_pos h1]; exact ih _ _ (by omega)
        rw [if_neg h1]
        by_cases h2 : ch = '{'
        · rw [if_pos h2]; exact ih _ _ (by omega)
        rw [if_neg h2]
        by_cases h3 : ch = '}'
        · rw [if_pos h3]; exact ih _ _ (by omega)
        rw [if_neg h3]
        by_cases h4 : ch = '['
        · rw [if_pos h4]; exact ih _ _ (by omega)
        rw [if_neg h4]
        by_cases h5 : ch = ']'
        · rw [if_pos h5]; exact ih _ _ (by omega)
        rw [if_neg h5]
        by_cases h6 : ch = ','
        · rw [if_pos h6]; exact ih _ _ (by omega)
        rw [if_neg h6]
        by_cases h7 : ch = ':'
        · rw [if_pos h7]; exact ih _ _ (by omega)
        rw [if_neg h7]
        by_cases h8 : ch = '"'
        · rw [if_pos h8]
          cases hs : tokenize_string is [] with
          | error e => exact ⟨_, rfl⟩
          | ok r =>
            obtain ⟨s, is'⟩ := r
            have := tokenize_string_length _ _ _ _ hs
            exact ih _ _ (by omega)
        rw [if_neg h8]
        by_cases h9 : ch = '-'
        · rw [if_pos h9]
          have := tpn_length is (.finite false 0)
          exact ih _ _ (by omega)
        rw [if_neg h9]
        by_cases h10 : ch = '1' ∨ ch = '2' ∨ ch = '3' ∨ ch = '4' ∨ ch = '5' ∨ ch = '6'
            ∨ ch = '7' ∨ ch = '8' ∨ ch = '9'
        · exfalso
          apply hnum
          rcases h10 with rfl | rfl | rfl | rfl | rfl | rfl | rfl | rfl | rfl <;> decide
        · rw [if_neg h10]; exact ⟨_, rfl⟩

/-- `tokenize` never runs out of fuel. -/
theorem tokenize_total (is : List Char) : ∃ r, tokenize is = some r :=
  tokenize_loop_total _ _ _ (by omega)

theorem expect_cases (k : token_kind) (st : token_stream) :
    (∃ e, st.expect k = (.error e, st)) ∨
      (st.head_ < st.tokens_.length ∧ ∃ p, st.expect k = (.ok p, ⟨st.tokens_, st.head_ + 1⟩)) := by
  unfold token_stream.expect token_stream.cur
  cases h0 : st.tokens_[st.head_]? with
  | none => exact Or.inl ⟨_, rfl⟩
  | some t =>
    cases hg : get_if k t with
    | none => exact Or.inl ⟨.unexpected_token, by simp only [hg]⟩
    | some p => exact Or.inr ⟨lt_length_of_getElem? h0, p, by simp only [hg, token_stream.eat]⟩

theorem pop_if_cases (k : token_kind) (st : token_stream) :
    (∃ e, st.pop_if k = (.error e, st)) ∨
      (st.head_ < st.tokens_.length ∧ st.pop_if k = (.ok true, ⟨st.tokens_, st.head_ + 1⟩)) ∨
      (st.head_ < st.tokens_.length ∧ st.pop_if k = (.ok false, st)) := by
  unfold token_stream.pop_if token_stream.match_ token_stream.cur
  cases h0 : st.tokens_[st.head_]? with
  | none => exact Or.inl ⟨_, rfl⟩
  | some t =>
    cases hg : (get_if k t).isSome with
    | true =>
      exact Or.inr (Or.inl ⟨lt_length_of_getElem? h0, by simp only [hg, token_stream.eat]⟩)
    | false => exact Or.inr (Or.inr ⟨lt_length_of_getElem? h0, by simp only [hg]⟩)

theorem array_loop_total {f : Nat} {P : token_stream → Option (Res value)}
    (hP : TotalParse f P) : ∀ (k : Nat) (st : token_stream) (ret : List value),
      st.tokens_.length - st.head_ < k → st.tokens_.length - st.head_ ≤ f →
      ∃ r, parse_array_loop P k st ret = some r ∧ r.2.tokens_ = st.tokens_ ∧
        st.head_ ≤ r.2.head_ := by
  intro k
  induction k with
  | zero => intro st ret h; omega
  | succ k ih =>
    intro st ret hk hf
    unfold parse_array_loop
    rcases pop_if_cases .rbracket st with ⟨e, h⟩ | ⟨hlt, h⟩ | ⟨hlt, h⟩
    · simp only [h]; exact ⟨_, rfl, rfl, Nat.le_refl _⟩
    · simp only [h]; exact ⟨_, rfl, rfl, by simp⟩
    · simp only [h]
      rcases expect_cases .comma st with ⟨e, h⟩ | ⟨_, p, h⟩
      · simp only [h]; exact ⟨_, rfl, rfl, Nat.le_refl _⟩
      · simp only [h]
        obtain ⟨⟨r1, st1⟩, hr, ht, hh⟩ := hP ⟨st.tokens_, st.head_ + 1⟩ (by simp only; omega)
        simp only at ht hh
        simp only [hr]
        cases r1 with
        | error e => exact ⟨_, rfl, ht, by simp only; omega⟩
        | ok v =>
          obtain ⟨r', hr', ht', hh'⟩ := ih st1 (ret ++ [v]) (by rw [ht]; omega)
            (by rw [ht]; omega)
          exact ⟨r', hr', ht'.trans ht, by omega⟩

theorem expect_one_total {f : Nat} {P : token_stream → Option (Res value)}
    (hP : TotalParse f P) (st : token_stream) (ret : List (List Char × value))
    (hf : st.tokens_.length - st.head_ ≤ f) :
    ∃ r, expect_one P st ret = some r ∧ r.2.tokens_ = st.tokens_ ∧ st.head_ ≤ r.2.head_ ∧
      (∀ m, r.1 = .ok m → st.head_ < r.2.head_) := by
  unfold expect_one
  rcases expect_cases .string st with ⟨e, h⟩ | ⟨hlt, p, h⟩
  · simp only [h]; exact ⟨_, rfl, rfl, Nat.le_refl _, by intro m hm; cases hm⟩
  · simp only [h]
    rcases expect_cases .colon ⟨st.tokens_, st.head_ + 1⟩ with ⟨e, h⟩ | ⟨hlt2, p2, h⟩
    · simp only [h]; exact ⟨_, rfl, rfl, by simp, by intro m hm; cases hm⟩
    · simp only [h]
      obtain ⟨⟨r1, st1⟩, hr, ht, hh⟩ := hP ⟨st.tokens_, st.head_ + 1 + 1⟩ (by simp only; omega)
      simp only at ht hh
      simp only [hr]
      cases r1 with
      | error e => exact ⟨_, rfl, ht, by simp only; omega, by intro m hm; cases hm⟩
      | ok v => exact ⟨_, rfl, ht, by simp only at hh ⊢; omega, by
          intro m _; simp only at hh ⊢; omega⟩

theorem object_loop_total {f : Nat} {P : token_stream → Option (Res value)}
    (hP : TotalParse f P) : ∀ (k : Nat) (st : token_stream) (ret : List (List Char × value)),
      st.tokens_.length - st.head_ < k → st.tokens_.length - st.head_ ≤ f →
      ∃ r, parse_object_loop P k st ret = some r ∧ r.2.tokens_ = st.tokens_ ∧
        st.head_ ≤ r.2.head_ := by
  intro k
  induction k with
  | zero => intro st ret h; omega
  | succ k ih =>
    intro st ret hk hf
    unfold parse_object_loop
    rcases pop_if_cases .rbrace st with ⟨e, h⟩ | ⟨hlt, h⟩ | ⟨hlt, h⟩
    · simp only [h]; exact ⟨_, rfl, rfl, Nat.le_refl _⟩
    · simp only [h]; exact ⟨_, rfl, rfl, by simp⟩
    · simp only [h]
      rcases expect_cases .comma st with ⟨e, h⟩ | ⟨_, p, h⟩
      · simp only [h]; exact ⟨_, rfl, rfl, Nat.le_refl _⟩
      · simp only [h]
        obtain ⟨⟨r1, st1⟩, hr, ht, hh, _⟩ := expect_one_total hP ⟨st.tokens_, st.head_ + 1⟩ ret
          (by simp only; omega)
        simp only at ht hh
        simp only [hr]
        cases r1 with
        | error e => exact ⟨_, rfl, ht, by simp only; omega⟩
        | ok m =>
          obtain ⟨r', hr', ht', hh'⟩ := ih st1 m (by rw [ht]; omega) (by rw [ht]; omega)
          exact ⟨r', hr', ht'.trans ht, by omega⟩

theorem parse_array_total {f : Nat} {P : token_stream → Option (Res value)}
    (hP : TotalParse f P) (st : token_stream) (hf : st.tokens_.length - st.head_ ≤ f) :
    ∃ r, parse_array P f st = some r ∧ r.2.tokens_ = st.tokens_ ∧ st.head_ ≤ r.2.head_ := by
  unfold parse_array
  rcases expect_cases .lbracket st with ⟨e, h⟩ | ⟨hlt, p, h⟩
  · simp only [h]; exact ⟨_, rfl, rfl, Nat.le_refl _⟩
  · simp only [h]
    rcases pop_if_cases .rbracket ⟨st.tokens_, st.head_ + 1⟩ with ⟨e, h⟩ | ⟨_, h⟩ | ⟨_, h⟩
    · simp only [h]; exact ⟨_, rfl, rfl, by simp⟩
    · simp only [h]; exact ⟨_, rfl, rfl, by simp only; omega⟩
    · simp only [h]
      obtain ⟨⟨r1, st1⟩, hr, ht, hh⟩ := hP ⟨st.tokens_, st.head_ + 1⟩ (by simp only; omega)
      simp only at ht hh
      simp only [hr]
      cases r1 with
      | error e => exact ⟨_, rfl, ht, by simp only; omega⟩
      | ok v =>
        obtain ⟨r', hr', ht', hh'⟩ := array_loop_total hP f st1 [v] (by rw [ht]; omega)
          (by rw [ht]; omega)
        exact ⟨r', hr', ht'.trans ht, by omega⟩

theorem parse_object_total {f : Nat} {P : token_stream → Option (Res value)}
    (hP : TotalParse f P) (st : token_stream) (hf : st.tokens_.length - st.head_ ≤ f) :
    ∃ r, parse_object P f st = some r ∧ r.2.tokens_ = st.tokens_ ∧ st.head_ ≤ r.2.head_ := by
  unfold parse_object
  rcases expect_cases .lbrace st with ⟨e, h⟩ | ⟨hlt, p, h⟩
  · simp only [h]; exact ⟨_, rfl, rfl, Nat.le_refl _⟩
  · simp only [h]
    rcases pop_if_cases .rbrace ⟨st.tokens_, st.head_ + 1⟩ with ⟨e, h⟩ | ⟨_, h⟩ | ⟨_, h⟩
    · simp only [h]; exact ⟨_, rfl, rfl, by simp⟩
    · simp only [h]; exact ⟨_, rfl, rfl, by simp only; omega⟩
    · simp only [h]
      obtain ⟨⟨r1, st1⟩, hr, ht, hh, hprog⟩ := expect_one_total hP ⟨st.tokens_, st.head_ + 1⟩ []
        (by simp only; omega)
      simp only at ht hh
      simp only [hr]
      cases r1 with
      | error e => exact ⟨_, rfl, ht, by simp only; omega⟩
      | ok m =>
        have hp := hprog m rfl
        simp only at hp
        obtain ⟨r', hr', ht', hh'⟩ := object_loop_total hP f st1 m (by rw [ht]; omega)
          (by rw [ht]; omega)
        exact ⟨r', hr', ht'.trans ht, by omega⟩

/-- With more fuel than remaining tokens `parse_fuel` returns an outcome. -/
theorem parse_fuel_total : ∀ f, TotalParse f (fun s => parse_fuel f s) := by
  intro f
  induction f with
  | zero => intro st h; omega
  | succ f ih =>
    intro st hf
    simp only [parse_fuel, token_stream.visit]
    cases h0 : st.tokens_[st.head_]? with
    | none => exact ⟨_, rfl, rfl, Nat.le_refl _⟩
    | some tok =>
      have hlt := lt_length_of_getElem? h0
      cases tok with
      | lbrace => exact parse_object_total ih st (by omega)
      | lbracket => exact parse_array_total ih st (by omega)
      | string s =>
        simp only [parse_string, token_stream.expect, token_stream.cur, h0, get_if]
        exact ⟨_, rfl, rfl, by simp [token_stream.eat]⟩
      | number n =>
        simp only [parse_number, token_stream.expect, token_stream.cur, h0, get_if]
        exact ⟨_, rfl, rfl, by simp [token_stream.eat]⟩
      | rbrace => exact ⟨_, rfl, rfl, Nat.le_refl _⟩
      | rbracket => exact ⟨_, rfl, rfl, Nat.le_refl _⟩
      | comma => exact ⟨_, rfl, rfl, Nat.le_refl _⟩
      | colon => exact ⟨_, rfl, rfl, Nat.le_refl _⟩

/-- `parse` never runs out of fuel: it returns a value or throws, with the
token vector unchanged and the position not decreased. -/
theorem parse_total (st : token_stream) :
    ∃ r, parse st = some r ∧ r.2.tokens_ = st.tokens_ ∧ st.head_ ≤ r.2.head_ :=
  parse_fuel_total _ st (by omega)

/-! ## The lexer, one character class at a time -/

/-- One iteration of the loop of `tokenize`, by the case label the character
falls under, for the token loop and for the text on `std::cerr`. -/
theorem tokenize_loop_step (ch : Char) :
    (whitespace ch ∧
      (∀ f is ret, tokenize_loop (f + 1) (ch :: is) ret = tokenize_loop f is ret) ∧
      (∀ f is, tokenize_loop_cerr (f + 1) (ch :: is) = tokenize_loop_cerr f is)) ∨
    (∃ tok, structural_token ch = some tok ∧
      (∀ f is ret, tokenize_loop (f + 1) (ch :: is) ret = tokenize_loop f is (ret ++ [tok])) ∧
      (∀ f is, tokenize_loop_cerr (f + 1) (ch :: is) = tokenize_loop_cerr f is)) ∨
    (ch = '"' ∧
      (∀ f is ret, tokenize_loop (f + 1) (ch :: is) ret =
        match tokenize_string is [] with
        | .error e => some (.error e)
        | .ok (s, is') => tokenize_loop f is' (ret ++ [.string s])) ∧
      (∀ f is, tokenize_loop_cerr (f + 1) (ch :: is) =
        match tokenize_string is [] with
        | .error _ => some []
        | .ok (_, is') => tokenize_loop_cerr f is')) ∨
    (ch = '-' ∧
      (∀ f is ret, tokenize_loop (f + 1) (ch :: is) ret =
        tokenize_loop f (tokenize_positive_number is (.finite false 0)).2
          (ret ++ [.number (tokenize_positive_number is (.finite false 0)).1.neg])) ∧
      (∀ f is, tokenize_loop_cerr (f + 1) (ch :: is) =
        tokenize_loop_cerr f (tokenize_positive_number is (.finite false 0)).2)) ∨
    (('1'.toNat ≤ ch.toNat ∧ ch.toNat ≤ '9'.toNat) ∧
      (∀ f is ret, tokenize_loop (f + 1) (ch :: is) ret =
        tokenize_loop f (tokenize_positive_number is (.finite false (ch.toNat - 48))).2
          (ret ++ [.number (tokenize_positive_number is (.finite false (ch.toNat - 48))).1])) ∧
      (∀ f is, tokenize_loop_cerr (f + 1) (ch :: is) =
        tokenize_loop_cerr f
          (tokenize_positive_number is (.finite false (ch.toNat - 48))).2)) ∨
    (default_case ch ∧
      (∀ f is ret, tokenize_loop (f + 1) (ch :: is) ret = some (.error .invalid_letter)) ∧
      (∀ f is, tokenize_loop_cerr (f + 1) (ch :: is)
        = some (Nat.toDigits 10 ch.toNat ++ ['\n']))) := by
  by_cases hnum : '1'.toNat ≤ ch.toNat ∧ ch.toNat ≤ '9'.toNat
  · refine Or.inr (Or.inr (Or.inr (Or.inr (Or.inl ⟨hnum, ?_, ?_⟩))))
    · intro f is ret; exact tokenize_loop_number_start f ch is ret hnum
    · intro f is
      rcases nonzero_digit_cases hnum with h | h | h | h | h | h | h | h | h <;> subst h <;> rfl
  by_cases h1 : ch = ' ' ∨ ch = '\t' ∨ ch = '\n' ∨ ch = '\r'
  · refine Or.inl ⟨h1, ?_, ?_⟩
    · intro f is ret; rcases h1 with h | h | h | h <;> subst h <;> rfl
    · intro f is; rcases h1 with h | h | h | h <;> subst h <;> rfl
  by_cases h2 : ch = '{'
  · subst h2; exact Or.inr (Or.inl ⟨.lbrace, rfl, fun _ _ _ => rfl, fun _ _ => rfl⟩)
  by_cases h3 : ch = '}'
  · subst h3; exact Or.inr (Or.inl ⟨.rbrace, rfl, fun _ _ _ => rfl, fun _ _ => rfl⟩)
  by_cases h4 : ch = '['
  · subst h4; exact Or.inr (Or.inl ⟨.lbracket, rfl, fun _ _ _ => rfl, fun _ _ => rfl⟩)
  by_cases h5 : ch = ']'
  · subst h5; exact Or.inr (Or.inl ⟨.rbracket, rfl, fun _ _ _ => rfl, fun _ _ => rfl⟩)
  by_cases h6 : ch = ','
  · subst h6; exact Or.inr (Or.inl ⟨.comma, rfl, fun _ _ _ => rfl, fun _ _ => rfl⟩)
  by_cases h7 : ch = ':'
  · subst h7; exact Or.inr (Or.inl ⟨.colon, rfl, fun _ _ _ => rfl, fun _ _ => rfl⟩)
  by_cases h8 : ch = '"'
  · subst h8; exact Or.inr (Or.inr (Or.inl ⟨rfl, fun _ _ _ => rfl, fun _ _ => rfl⟩))
  by_cases h9 : ch = '-'
  · subst h9; exact Or.inr (Or.inr (Or.inr (Or.inl ⟨rfl, fun _ _ _ => rfl, fun _ _ => rfl⟩)))
  have h10 : ¬ (ch = '1' ∨ ch = '2' ∨ ch = '3' ∨ ch = '4' ∨ ch = '5' ∨ ch = '6' ∨ ch = '7'
      ∨ ch = '8' ∨ ch = '9') := by
    intro h10
    apply hnum
    rcases h10 with rfl | rfl | rfl | rfl | rfl | rfl | rfl | rfl | rfl <;> decide
  refine Or.inr (Or.inr (Or.inr (Or.inr (Or.inr ⟨⟨h1, ?_, h8, h9, hnum⟩, ?_, ?_⟩))))
  · unfold structural_token
    rw [if_neg h2, if_neg h3, if_neg h4, if_neg h5, if_neg h6, if_neg h7]
  · intro f is ret
    unfold tokenize_loop
    rw [if_neg h1, if_neg h2, if_neg h3, if_neg h4, if_neg h5, if_neg h6, if_neg h7, if_neg h8,
      if_neg h9, if_neg h10]
  · intro f is
    unfold tokenize_loop_cerr
    rw [if_neg h1, if_neg h2, if_neg h3, if_neg h4, if_neg h5, if_neg h6, if_neg h7, if_neg h8,
      if_neg h9, if_neg h10]


/-- With more fuel than characters the text written to `std::cerr` does not
depend on the fuel. -/
theorem tokenize_loop_cerr_fuel : ∀ (f : Nat) (is : List Char), is.length < f →
    ∀ f', is.length < f' → tokenize_loop_cerr f is = tokenize_loop_cerr f' is := by
  intro f
  induction f with
  | zero => intro is h; omega
  | succ f ih =>
    intro is hf f' hf'
    obtain ⟨f', rfl⟩ : ∃ g, f' = g + 1 := ⟨f' - 1, by omega⟩
    cases is with
    | nil => rfl
    | cons ch is =>
      simp only [List.length_cons] at hf hf'
      rcases tokenize_loop_step ch with ⟨_, _, e⟩ | ⟨_, _, _, e⟩ | ⟨_, _, e⟩ | ⟨_, _, e⟩
        | ⟨_, _, e⟩ | ⟨_, _, e⟩
      · rw [e, e]; exact ih _ (by omega) _ (by omega)
      · rw [e, e]; exact ih _ (by omega) _ (by omega)
      · rw [e, e]
        cases hs : tokenize_string is [] with
        | error e => rfl
        | ok r =>
          obtain ⟨s, is'⟩ := r
          have := tokenize_string_length _ _ _ _ hs
          exact ih _ (by omega) _ (by omega)
      · rw [e, e]
        have := tpn_length is (.finite false 0)
        exact ih _ (by omega) _ (by omega)
      · rw [e, e]
        have := tpn_length is (.finite false (ch.toNat - 48))
        exact ih _ (by omega) _ (by omega)
      · rw [e, e]

theorem tokenize_cerr_of_loop {f : Nat} {is : List Char} (hf : is.length < f) :
    tokenize_loop_cerr f is = tokenize_cerr is :=
  tokenize_loop_cerr_fuel _ _ hf _ (by omega)

/-- A string literal closed inside the input is read the same way whatever
follows the input. -/
theorem tokenize_string_append (is : List Char) : ∀ (s t is' rest : List Char),
    tokenize_string is s = .ok (t, is') → tokenize_string (is ++ rest) s = .ok (t, is' ++ rest) := by
  induction is with
  | nil => intro s t is' rest h; simp [tokenize_string] at h
  | cons c is ih =>
    intro s t is' rest h
    unfold tokenize_string at h
    simp only [List.cons_append]
    unfold tokenize_string
    split at h
    · rename_i hc
      rw [if_pos hc]
      cases h
      rfl
    · rename_i hc
      rw [if_neg hc]
      exact ih _ _ _ _ h

/-- The digits of a number are read the same way when what follows the input
does not begin with a digit. -/
theorem tpn_append (rest : List Char) (hrest : no_digit_head rest) (is : List Char) :
    ∀ n : double, tokenize_positive_number (is ++ rest) n =
      ((tokenize_positive_number is n).1, (tokenize_positive_number is n).2 ++ rest) := by
  induction is with
  | nil => intro n; rw [List.nil_append, tpn_stop rest hrest]; rfl
  | cons c is ih =>
    intro n
    simp only [List.cons_append]
    unfold tokenize_positive_number
    split
    · rfl
    · exact ih _

/-- The lexer is compositional: when the loop on `p` ends with the tokens
`ts`, the loop on `p` followed by `rest` goes on from `rest` with those tokens,
provided `rest` does not begin with a digit (which would extend a number ending
`p`); nothing is written to `std::cerr` while `p` is read. -/
theorem tokenize_loop_continues : ∀ (f : Nat) (p : List Char) (acc ts : List token),
    tokenize_loop f p acc = some (.ok ts) →
    ∀ (pre : List token) (rest : List Char), no_digit_head rest →
    ∀ g, (p ++ rest).length < g →
      tokenize_loop g (p ++ rest) (pre ++ acc) = lex rest (pre ++ ts) ∧
        tokenize_loop_cerr g (p ++ rest) = tokenize_cerr rest := by
  intro f
  induction f with
  | zero => intro p acc ts h; cases h
  | succ f ih =>
    intro p acc ts h pre rest hrest g hg
    cases p with
    | nil =>
      cases h
      simp only [List.nil_append] at hg ⊢
      exact ⟨lex_of_loop _ hg, tokenize_cerr_of_loop hg⟩
    | cons ch is =>
      obtain ⟨g, rfl⟩ : ∃ g', g = g' + 1 := ⟨g - 1, by simp at hg; omega⟩
      simp only [List.cons_append, List.length_cons, List.length_append] at hg
      simp only [List.cons_append]
      rcases tokenize_loop_step ch with ⟨_, e, e'⟩ | ⟨tok, _, e, e'⟩ | ⟨_, e, e'⟩ | ⟨_, e, e'⟩
        | ⟨_, e, e'⟩ | ⟨_, e, e'⟩
      · rw [e] at h
        rw [e, e']
        exact ih _ _ _ h pre rest hrest g (by simp; omega)
      · rw [e] at h
        rw [e, e', List.append_assoc]
        exact ih _ _ _ h pre rest hrest g (by simp; omega)
      · rw [e] at h
        rw [e, e']
        cases hs : tokenize_string is [] with
        | error err => rw [hs] at h; cases h
        | ok r =>
          obtain ⟨s, is'⟩ := r
          rw [hs] at h
          simp only at h
          rw [tokenize_string_append _ _ _ _ rest hs]
          simp only
          have := tokenize_string_length _ _ _ _ hs
          rw [List.append_assoc]
          exact ih _ _ _ h pre rest hrest g (by simp; omega)
      · rw [e] at h
        rw [e, e', tpn_append rest hrest, List.append_assoc]
        have := tpn_length is (.finite false 0)
        exact ih _ _ _ h pre rest hrest g (by simp; omega)
      · rw [e] at h
        rw [e, e', tpn_append rest hrest, List.append_assoc]
        have := tpn_length is (.finite false (ch.toNat - 48))
        exact ih _ _ _ h pre rest hrest g (by simp; omega)
      · rw [e] at h; cases h

/-! ## Unterminated strings, whitespace and structural characters -/

theorem tokenize_string_unterminated (t : List Char) (ht : '"' ∉ t) : ∀ s : List Char,
    tokenize_string t s = .error .invalid_string := by
  induction t with
  | nil => intro s; rfl
  | cons c t ih =>
    intro s
    simp only [List.mem_cons, not_or] at ht
    unfold tokenize_string
    rw [if_neg (fun h => ht.1 h.symm)]
    exact ih ht.2 _

theorem whitespace_not_digit {c : Char} (h : whitespace c) : ¬ digit c := by
  rcases h with rfl | rfl | rfl | rfl <;> decide

theorem whitespace_structural_token {c : Char} (h : whitespace c) : structural_token c = none := by
  rcases h with rfl | rfl | rfl | rfl <;> rfl

/-- Leading whitespace is skipped. -/
theorem lex_whitespace (w : List Char) (hw : ∀ c ∈ w, whitespace c) (is : List Char)
    (ret : List token) : lex (w ++ is) ret = lex is ret := by
  induction w with
  | nil => rfl
  | cons c w ih =>
    have hc : whitespace c := hw c (List.mem_cons_self _ _)
    have e : lex (c :: (w ++ is)) ret = lex (w ++ is) ret := by
      rcases hc with rfl | rfl | rfl | rfl <;> rfl
    rw [List.cons_append, e]
    exact ih (fun c hc => hw c (List.mem_cons_of_mem _ hc))

/-- On structural characters and whitespace the loop appends one token per
structural character. -/
theorem lex_structural (s : List Char)
    (hs : ∀ c ∈ s, whitespace c ∨ (structural_token c).isSome = true) : ∀ ret : List token,
    lex s ret = some (.ok (ret ++ s.filterMap structural_token)) := by
  induction s with
  | nil => intro ret; simp [lex_nil]
  | cons c s ih =>
    intro ret
    have hc := hs c (List.mem_cons_self _ _)
    have ih := ih (fun c hc => hs c (List.mem_cons_of_mem _ hc))
    show tokenize_loop (s.length + 1 + 1) (c :: s) ret = _
    rcases tokenize_loop_step c with ⟨hw, e, _⟩ | ⟨tok, ht, e, _⟩ | ⟨rfl, _, _⟩ | ⟨rfl, _, _⟩
      | ⟨hd, _, _⟩ | ⟨hd, _, _⟩
    · rw [e, List.filterMap_cons, whitespace_structural_token hw]
      exact ih ret
    · rw [e, List.filterMap_cons, ht]
      simp only
      rw [show ret ++ tok :: List.filterMap structural_token s
        = ret ++ [tok] ++ List.filterMap structural_token s by simp]
      exact ih _
    · exact absurd hc (by decide)
    · exact absurd hc (by decide)
    · exfalso
      rcases nonzero_digit_cases hd with h | h | h | h | h | h | h | h | h <;> subst h <;>
        exact absurd hc (by decide)
    · obtain ⟨h1, h2, _⟩ := hd
      rcases hc with hc | hc
      · exact absurd hc h1
      · rw [h2] at hc; cases hc

/-! ## The cursor operations -/

theorem getElem?_none_of_le {toks : List token} {h : Nat} (hle : toks.length ≤ h) :
    toks[h]? = none :=
  List.getElem?_eq_none hle

/-- `get_if` on the alternative the token holds returns its payload. -/
theorem get_if_kind (tok : token) : get_if tok.kind tok = some tok.payload := by
  cases tok <;> rfl

/-- `get_if` on any other alternative returns the null pointer. -/
theorem get_if_of_ne {k : token_kind} {tok : token} (h : tok.kind ≠ k) : get_if k tok = none := by
  cases tok <;> cases k <;> first | rfl | exact absurd rfl h

/-- `get_if` is non-null exactly on the alternative the token holds. -/
theorem get_if_isSome (k : token_kind) (tok : token) :
    (get_if k tok).isSome = decide (tok.kind = k) := by
  cases tok <;> cases k <;> rfl

/-! ## The text of an array -/

/-- The text after the first element: every further element preceded by `, `. -/
theorem render_rest_eq (xs : List value) :
    render_rest xs = (xs.map fun x => [',', ' '] ++ render_value x).flatten := by
  induction xs with
  | nil => simp [render_rest]
  | cons x xs ih => rw [render_rest_cons, ih]; simp

theorem intercalate_cons (sep x : List Char) (xs : List (List Char)) :
    List.intercalate sep (x :: xs) = x ++ (xs.map fun y => sep ++ y).flatten := by
  induction xs generalizing x with
  | nil => simp [List.intercalate]
  | cons y ys ih =>
    have h := ih y
    simp only [List.intercalate, List.intersperse_cons_cons, List.flatten_cons, List.map_cons]
      at h ⊢
    rw [h, List.append_assoc]

/-! ## The position stays within the token vector -/

theorem array_loop_bounded {P : token_stream → Option (Res value)} (hP : BoundedParse P) :
    ∀ (k : Nat) (st : token_stream) (ret : List value) (r : Res value),
      parse_array_loop P k st ret = some r → st.head_ ≤ st.tokens_.length →
      r.2.tokens_ = st.tokens_ ∧ r.2.head_ ≤ st.tokens_.length := by
  intro k
  induction k with
  | zero => intro st ret r hr; cases hr
  | succ k ih =>
    intro st ret r hr h0
    unfold parse_array_loop at hr
    rcases pop_if_cases .rbracket st with ⟨e, h⟩ | ⟨hlt, h⟩ | ⟨hlt, h⟩
    · simp only [h] at hr; cases hr; exact ⟨rfl, h0⟩
    · simp only [h] at hr; cases hr; exact ⟨rfl, hlt⟩
    · simp only [h] at hr
      rcases expect_cases .comma st with ⟨e, h⟩ | ⟨_, p, h⟩
      · simp only [h] at hr; cases hr; exact ⟨rfl, h0⟩
      · simp only [h] at hr
        cases hp : P ⟨st.tokens_, st.head_ + 1⟩ with
        | none => simp only [hp] at hr; cases hr
        | some r1 =>
          obtain ⟨r1, st1⟩ := r1
          obtain ⟨ht, hb⟩ := hP _ _ hp hlt
          simp only at ht hb
          simp only [hp] at hr
          cases r1 with
          | error e => simp only at hr; cases hr; exact ⟨ht, hb⟩
          | ok v =>
            simp only at hr
            obtain ⟨ht', hb'⟩ := ih st1 _ r hr (by rw [ht]; exact hb)
            exact ⟨ht'.trans ht, by rw [ht] at hb'; exact hb'⟩

theorem expect_one_bounded {P : token_stream → Option (Res value)} (hP : BoundedParse P)
    (st : token_stream) (ret : List (List Char × value)) (r : Res (List (List Char × value)))
    (hr : expect_one P st ret = some r) (h0 : st.head_ ≤ st.tokens_.length) :
    r.2.tokens_ = st.tokens_ ∧ r.2.head_ ≤ st.tokens_.length := by
  unfold expect_one at hr
  rcases expect_cases .string st with ⟨e, h⟩ | ⟨hlt, p, h⟩
  · simp only [h] at hr; cases hr; exact ⟨rfl, h0⟩
  · simp only [h] at hr
    rcases expect_cases .colon ⟨st.tokens_, st.head_ + 1⟩ with ⟨e, h⟩ | ⟨hlt2, p2, h⟩
    · simp only [h] at hr; cases hr; exact ⟨rfl, hlt⟩
    · simp only [h] at hr
      simp only at hlt2
      cases hp : P ⟨st.tokens_, st.head_ + 1 + 1⟩ with
      | none => simp only [hp] at hr; cases hr
      | some r1 =>
        obtain ⟨r1, st1⟩ := r1
        obtain ⟨ht, hb⟩ := hP _ _ hp hlt2
        simp only at ht hb
        simp only [hp] at hr
        cases r1 with
        | error e => simp only at hr; cases hr; exact ⟨ht, hb⟩
        | ok v => simp only at hr; cases hr; exact ⟨ht, hb⟩

theorem object_loop_bounded {P : token_stream → Option (Res value)} (hP : BoundedParse P) :
    ∀ (k : Nat) (st : token_stream) (ret : List (List Char × value)) (r : Res value),
      parse_object_loop P k st ret = some r → st.head_ ≤ st.tokens_.length →
      r.2.tokens_ = st.tokens_ ∧ r.2.head_ ≤ st.tokens_.length := by
  intro k
  induction k with
  | zero => intro st ret r hr; cases hr
  | succ k ih =>
    intro st ret r hr h0
    unfold parse_object_loop at hr
    rcases pop_if_cases .rbrace st with ⟨e, h⟩ | ⟨hlt, h⟩ | ⟨hlt, h⟩
    · simp only [h] at hr; cases hr; exact ⟨rfl, h0⟩
    · simp only [h] at hr; cases hr; exact ⟨rfl, hlt⟩
    · simp only [h] at hr
      rcases expect_cases .comma st with ⟨e, h⟩ | ⟨_, p, h⟩
      · simp only [h] at hr; cases hr; exact ⟨rfl, h0⟩
      · simp only [h] at hr
        cases hp : expect_one P ⟨st.tokens_, st.head_ + 1⟩ ret with
        | none => simp only [hp] at hr; cases hr
        | some r1 =>
          obtain ⟨r1, st1⟩ := r1
          obtain ⟨ht, hb⟩ := expect_one_bounded hP _ _ _ hp hlt
          simp only at ht hb
          simp only [hp] at hr
          cases r1 with
          | error e => simp only at hr; cases hr; exact ⟨ht, hb⟩
          | ok m =>
            simp only at hr
            obtain ⟨ht', hb'⟩ := ih st1 _ r hr (by rw [ht]; exact hb)
            exact ⟨ht'.trans ht, by rw [ht] at hb'; exact hb'⟩

theorem parse_array_bounded {P : token_stream → Option (Res value)} (hP : BoundedParse P)
    (f : Nat) (st : token_stream) (r : Res value) (hr : parse_array P f st = some r)
    (h0 : st.head_ ≤ st.tokens_.length) :
    r.2.tokens_ = st.tokens_ ∧ r.2.head_ ≤ st.tokens_.length := by
  unfold parse_array at hr
  rcases expect_cases .lbracket st with ⟨e, h⟩ | ⟨hlt, p, h⟩
  · simp only [h] at hr; cases hr; exact ⟨rfl, h0⟩
  · simp only [h] at hr
    rcases pop_if_cases .rbracket ⟨st.tokens_, st.head_ + 1⟩ with ⟨e, h⟩ | ⟨hlt2, h⟩ | ⟨_, h⟩
    · simp only [h] at hr; cases hr; exact ⟨rfl, hlt⟩
    · simp only [h] at hr; cases hr; exact ⟨rfl, hlt2⟩
    · simp only [h] at hr
      cases hp : P ⟨st.tokens_, st.head_ + 1⟩ with
      | none => simp only [hp] at hr; cases hr
      | some r1 =>
        obtain ⟨r1, st1⟩ := r1
        obtain ⟨ht, hb⟩ := hP _ _ hp hlt
        simp only at ht hb
        simp only [hp] at hr
        cases r1 with
        | error e => simp only at hr; cases hr; exact ⟨ht, hb⟩
        | ok v =>
          simp only at hr
          obtain ⟨ht', hb'⟩ := array_loop_bounded hP f st1 _ r hr (by rw [ht]; exact hb)
          exact ⟨ht'.trans ht, by rw [ht] at hb'; exact hb'⟩

theorem parse_object_bounded {P : token_stream → Option (Res value)} (hP : BoundedParse P)
    (f : Nat) (st : token_stream) (r : Res value) (hr : parse_object P f st = some r)
    (h0 : st.head_ ≤ st.tokens_.length) :
    r.2.tokens_ = st.tokens_ ∧ r.2.head_ ≤ st.tokens_.length := by
  unfold parse_object at hr
  rcases expect_cases .lbrace st with ⟨e, h⟩ | ⟨hlt, p, h⟩
  · simp only [h] at hr; cases hr; exact ⟨rfl, h0⟩
  · simp only [h] at hr
    rcases pop_if_cases .rbrace ⟨st.tokens_, st.head_ + 1⟩ with ⟨e, h⟩ | ⟨hlt2, h⟩ | ⟨_, h⟩
    · simp only [h] at hr; cases hr; exact ⟨rfl, hlt⟩
    · simp only [h] at hr; cases hr; exact ⟨rfl, hlt2⟩
    · simp only [h] at hr
      cases hp : expect_one P ⟨st.tokens_, st.head_ + 1⟩ [] with
      | none => simp only [hp] at hr; cases hr
      | some r1 =>
        obtain ⟨r1, st1⟩ := r1
        obtain ⟨ht, hb⟩ := expect_one_bounded hP _ _ _ hp hlt
        simp only at ht hb
        simp only [hp] at hr
        cases r1 with
        | error e => simp only at hr; cases hr; exact ⟨ht, hb⟩
        | ok m =>
          simp only at hr
          obtain ⟨ht', hb'⟩ := object_loop_bounded hP f st1 _ r hr (by rw [ht]; exact hb)
          exact ⟨ht'.trans ht, by rw [ht] at hb'; exact hb'⟩

/-- Whatever the fuel, an outcome of `parse_fuel` reached from a position not
past the end leaves the position not past the end. -/
theorem parse_fuel_bounded : ∀ f, BoundedParse (fun s => parse_fuel f s) := by
  intro f
  induction f with
  | zero => intro st r hr; cases hr
  | succ f ih =>
    intro st r hr h0
    simp only [parse_fuel, token_stream.visit] at hr
    cases ht : st.tokens_[st.head_]? with
    | none => simp only [ht] at hr; cases hr; exact ⟨rfl, h0⟩
    | some tok =>
      have hlt := lt_length_of_getElem? ht
      simp only [ht] at hr
      cases tok with
      | lbrace => exact parse_object_bounded ih f st r hr h0
      | lbracket => exact parse_array_bounded ih f st r hr h0
      | string s =>
        simp only [parse_string, token_stream.expect, token_stream.cur, ht, get_if] at hr
        cases hr
        exact ⟨rfl, hlt⟩
      | number n =>
        simp only [parse_number, token_stream.expect, token_stream.cur, ht, get_if] at hr
        cases hr
        exact ⟨rfl, hlt⟩
      | rbrace => cases hr; exact ⟨rfl, h0⟩
      | rbracket => cases hr; exact ⟨rfl, h0⟩
      | comma => cases hr; exact ⟨rfl, h0⟩
      | colon => cases hr; exact ⟨rfl, h0⟩

/-- `parse` at the end of the tokens or past it throws `std::out_of_range`. -/
theorem parse_past_end (st : token_stream) (h : st.tokens_.length ≤ st.head_) :
    parse st = some (.error .out_of_range, st) := by
  simp only [parse, parse_fuel, token_stream.visit, getElem?_none_of_le h]

/-! ## Numbers written next to each other -/

theorem toDigitsCore_acc : ∀ (fuel n : Nat) (acc : List Char),
    Nat.toDigitsCore 10 fuel n acc = Nat.toDigitsCore 10 fuel n [] ++ acc := by
  intro fuel
  induction fuel with
  | zero => intro n acc; rfl
  | succ fuel ih =>
    intro n acc
    simp only [Nat.toDigitsCore]
    by_cases h0 : n / 10 = 0
    · rw [if_pos h0, if_pos h0]; rfl
    · rw [if_neg h0, if_neg h0, ih _ (_ :: acc), ih _ [_]]
      simp

theorem toDigitsCore_fuel : ∀ (f n : Nat), n < f → ∀ f', n < f' → ∀ acc : List Char,
    Nat.toDigitsCore 10 f n acc = Nat.toDigitsCore 10 f' n acc := by
  intro f
  induction f with
  | zero => intro n h; omega
  | succ f ih =>
    intro n hf f' hf' acc
    obtain ⟨f', rfl⟩ : ∃ g, f' = g + 1 := ⟨f' - 1, by omega⟩
    simp only [Nat.toDigitsCore]
    by_cases h0 : n / 10 = 0
    · rw [if_pos h0, if_pos h0]
    · rw [if_neg h0, if_neg h0]
      exact ih _ (by omega) _ (by omega) _

/-- The digits of `q * 10 + r` are those of `q` followed by the digit `r`. -/
theorem toDigits_snoc {q r : Nat} (hq : 1 ≤ q) (hr : r < 10) :
    Nat.toDigits 10 (q * 10 + r) = Nat.toDigits 10 q ++ [Nat.digitChar r] := by
  have h1 : (q * 10 + r) / 10 = q := by omega
  have h2 : (q * 10 + r) % 10 = r := by omega
  have h0 : ¬ (q * 10 + r) / 10 = 0 := by omega
  show Nat.toDigitsCore 10 (q * 10 + r + 1) (q * 10 + r) [] = Nat.toDigitsCore 10 (q + 1) q [] ++ _
  simp only [Nat.toDigitsCore]
  rw [if_neg h0, h1, h2, toDigitsCore_acc]
  congr 1
  exact toDigitsCore_fuel (q * 10 + r) q (by omega) (q + 1) (by omega) []

theorem digitChar_of_digit {c : Char} (h : digit c) : Nat.digitChar (c.toNat - 48) = c := by
  unfold digit at h
  simp only [show '0'.toNat = 48 from rfl, show '9'.toNat = 57 from rfl] at h
  obtain ⟨h1, h2⟩ := h
  interval_cases hk : c.toNat
  all_goals
    have hc := char_eq_of_toNat hk
    subst hc
    rfl

/-- A digit string that does not begin with `0` is the text of its value. -/
theorem toDigits_decimal_value (c : Char) (hc : digit c) (hc1 : '1'.toNat ≤ c.toNat)
    (ds : List Char) : (∀ x ∈ ds, digit x) →
      Nat.toDigits 10 (decimal_value 0 (c :: ds)) = c :: ds := by
  induction ds using List.reverseRecOn with
  | nil =>
    intro _
    have h2 := hc.2
    simp only [show '1'.toNat = 49 from rfl, show '9'.toNat = 57 from rfl] at hc1 h2
    have e : decimal_value 0 [c] = c.toNat - 48 := by
      simp [decimal_value]
    rw [e]
    have hlt : c.toNat - 48 < 10 := by omega
    have : Nat.toDigits 10 (c.toNat - 48) = [Nat.digitChar (c.toNat - 48)] := by
      generalize c.toNat - 48 = k at hlt
      interval_cases k <;> rfl
    rw [this, digitChar_of_digit hc]
  | append_singleton ds d ih =>
    intro hds
    have hd : digit d := hds d (by simp)
    have ih := ih (fun x hx => hds x (by simp [hx]))
    have hd' := hd
    unfold digit at hd'
    simp only [show '0'.toNat = 48 from rfl, show '9'.toNat = 57 from rfl,
      show '1'.toNat = 49 from rfl] at hd' hc1
    have e : decimal_value 0 (c :: (ds ++ [d]))
        = decimal_value 0 (c :: ds) * 10 + (d.toNat - 48) := by
      rw [← List.cons_append, decimal_value_append]
      rfl
    have hq : 1 ≤ decimal_value 0 (c :: ds) := by
      rw [decimal_value_cons]
      exact Nat.le_trans (by omega) (le_decimal_value ds _)
    rw [e, toDigits_snoc hq (by omega), ih, digitChar_of_digit hd]
    rfl

/-- A string of `k` digits has a value below `(init + 1) * 10 ^ k`. -/
theorem decimal_value_lt (ds : List Char) : ∀ init, (∀ x ∈ ds, digit x) →
    decimal_value init ds < (init + 1) * 10 ^ ds.length := by
  induction ds with
  | nil => intro init _; simp [decimal_value]
  | cons c ds ih =>
    intro init hds
    have hc := hds c (List.mem_cons_self _ _)
    unfold digit at hc
    simp only [show '0'.toNat = 48 from rfl, show '9'.toNat = 57 from rfl] at hc
    rw [decimal_value_cons]
    have := ih (init * 10 + (c.toNat - 48)) (fun x hx => hds x (List.mem_cons_of_mem _ hx))
    refine Nat.lt_of_lt_of_le this ?_
    rw [List.length_cons, Nat.pow_succ, Nat.mul_comm (10 ^ ds.length) 10, ← Nat.mul_assoc]
    exact Nat.mul_le_mul_right _ (by omega)


theorem lt_pow_toDigits_length (m : Nat) : m < 10 ^ (Nat.toDigits 10 m).length := by
  obtain ⟨c, ds, e, hds, hval, _⟩ := toDigits_spec m
  have h := decimal_value_lt (c :: ds) 0 hds
  rw [hval, Nat.zero_add, Nat.one_mul] at h
  rw [e]
  exact h

theorem toDigits_length_pos (m : Nat) : 1 ≤ (Nat.toDigits 10 m).length := by
  obtain ⟨c, ds, e, _⟩ := toDigits_spec m
  rw [e]
  simp

theorem lt_of_toDigits_length_le {m : Nat} (h : (Nat.toDigits 10 m).length ≤ 6) : m < 10 ^ 6 :=
  Nat.lt_of_lt_of_le (lt_pow_toDigits_length m) (Nat.pow_le_pow_right (by norm_num) h)

/-- The digits of `a` followed by the digits of `b` are the digits of one
number, when `a` is not zero. -/
theorem toDigits_append {a : Nat} (ha : 1 ≤ a) (b : Nat) :
    Nat.toDigits 10 (a * 10 ^ (Nat.toDigits 10 b).length + b)
      = Nat.toDigits 10 a ++ Nat.toDigits 10 b := by
  obtain ⟨ca, da, ea, hda, hva, hfa⟩ := toDigits_spec a
  obtain ⟨cb, db, eb, hdb, hvb, _⟩ := toDigitsCore_spec (b + 1) b [] (by omega)
  have eb' : Nat.toDigits 10 b = cb :: db := by simpa [Nat.toDigits] using eb
  have hval : decimal_value 0 (ca :: (da ++ cb :: db)) = a * 10 ^ (db.length + 1) + b := by
    rw [← List.cons_append, decimal_value_append, hva, hvb a]
  have hall : ∀ x ∈ da ++ cb :: db, digit x := by
    intro x hx
    rcases List.mem_append.1 hx with h | h
    · exact hda x (List.mem_cons_of_mem _ h)
    · exact hdb x h
  have key := toDigits_decimal_value ca (hda ca (List.mem_cons_self _ _)) (hfa ha) _ hall
  rw [hval] at key
  rw [ea, eb', List.length_cons, key]
  rfl

/-- A number other than `±0` directly followed by a positive number is written
as one number, when that number is below `10 ^ 6`. -/
theorem show_double_glue (s : Bool) {a b : Nat} (ha : 1 ≤ a)
    (h : (Nat.toDigits 10 a).length + (Nat.toDigits 10 b).length ≤ 6) :
    show_double (.finite s a) ++ show_double (.finite false b)
      = show_double (.finite s (a * 10 ^ (Nat.toDigits 10 b).length + b)) := by
  have hla : (Nat.toDigits 10 a).length ≤ 6 := by omega
  have hlb : (Nat.toDigits 10 b).length ≤ 6 := by omega
  have hlg : (Nat.toDigits 10 (a * 10 ^ (Nat.toDigits 10 b).length + b)).length ≤ 6 := by
    rw [toDigits_append ha, List.length_append]; exact h
  rw [show_double_small s (lt_of_toDigits_length_le hla),
    show_double_small false (lt_of_toDigits_length_le hlb),
    show_double_small s (lt_of_toDigits_length_le hlg), toDigits_append ha]
  simp

theorem glued_digits_cases (ts : List token) :
    glued_digits ts = 0 ∨
      ∃ b rest, 1 ≤ b ∧ ts = .number (.finite false b) :: rest ∧
        glued_digits ts = (Nat.toDigits 10 b).length + glued_digits rest := by
  cases ts with
  | nil => exact Or.inl rfl
  | cons t rest =>
    cases t with
    | number n =>
      cases n with
      | finite s m =>
        by_cases h : s = false ∧ 1 ≤ m
        · obtain ⟨rfl, hm⟩ := h
          refine Or.inr ⟨m, rest, hm, rfl, ?_⟩
          simp only [glued_digits]
          rw [if_pos ⟨trivial, hm⟩]
        · left
          simp only [glued_digits]
          rw [if_neg h]
      | inf s => exact Or.inl rfl
      | nan => exact Or.inl rfl
    | _ => exact Or.inl rfl

theorem runs_small_number {s : Bool} {m : Nat} {ts : List token} :
    runs_small (.number (.finite s m) :: ts) = true ↔
      (Nat.toDigits 10 m).length + glued_digits ts ≤ 6 ∧
        (s = true ∧ m = 0 → glued_digits ts = 0) ∧ runs_small ts = true := by
  simp only [runs_small, Bool.and_eq_true, decide_eq_true_eq, and_assoc]

theorem runs_small_tail {t : token} {ts : List token} (h : runs_small (t :: ts) = true) :
    runs_small ts = true := by
  cases t with
  | number n =>
    cases n with
    | finite s m => exact (runs_small_number.1 h).2.2
    | inf s => simp [runs_small] at h
    | nan => simp [runs_small] at h
  | _ => simpa [runs_small] using h

/-- The text of the tokens does not begin with a digit when they do not begin
with a positive number. -/
theorem no_digit_head_of_glued_zero (ts : List token) (hlex : ∀ t ∈ ts, t.lexed)
    (hg : glued_digits ts = 0) : no_digit_head (render_tokens ts) := by
  cases ts with
  | nil => intro c hc; simp [render_tokens] at hc
  | cons t rest =>
    cases t with
    | number n =>
      intro c hc
      rw [render_tokens_cons, show (token.number n).render = show_double n from rfl] at hc
      cases n with
      | finite s m =>
        have h0 : double.finite s m ≠ .finite false 0 := hlex _ (List.mem_cons_self _ _)
        have hs : s = true := by
          cases s with
          | true => rfl
          | false =>
            exfalso
            have hm1 : 1 ≤ m := by
              rcases Nat.eq_zero_or_pos m with h | h
              · subst h; exact absurd rfl h0
              · exact h
            simp only [glued_digits] at hg
            rw [if_pos ⟨trivial, hm1⟩] at hg
            have := toDigits_length_pos m
            omega
        subst hs
        simp only [show_double, if_true, List.cons_append, List.nil_append, List.head?_cons,
          Option.some.injEq] at hc
        subst hc
        decide
      | inf s =>
        cases s <;>
          simp only [show_double, if_true, Bool.false_eq_true, if_false, List.cons_append,
            List.nil_append, List.head?_cons, Option.some.injEq] at hc <;>
          subst hc <;> decide
      | nan =>
        simp only [show_double, List.cons_append, List.head?_cons, Option.some.injEq] at hc
        subst hc
        decide
    | lbrace => exact no_digit_head_render _ _ (by decide)
    | rbrace => exact no_digit_head_render _ _ (by decide)
    | lbracket => exact no_digit_head_render _ _ (by decide)
    | rbracket => exact no_digit_head_render _ _ (by decide)
    | comma => exact no_digit_head_render _ _ (by decide)
    | colon => exact no_digit_head_render _ _ (by decide)
    | string s => exact no_digit_head_render _ _ (by simp [token.kind])

/-- The text of tokens whose runs of glued numbers are small is lexed, to
tokens with the same text: every number is lexed together with the positive
numbers glued to it, as the one number they are the text of. -/
theorem lex_render_runs : ∀ (k : Nat) (ts : List token), ts.length ≤ k →
    (∀ t ∈ ts, t.lexed) → runs_small ts = true →
    ∃ ts', (∀ ret, lex (render_tokens ts) ret = some (.ok (ret ++ ts'))) ∧
      render_tokens ts' = render_tokens ts := by
  intro k
  induction k with
  | zero =>
    intro ts hk _ _
    have : ts = [] := List.length_eq_zero.1 (by omega)
    subst this
    exact ⟨[], fun ret => by simp [render_tokens, lex_nil], rfl⟩
  | succ k ih =>
    intro ts hk hlex hr
    cases ts with
    | nil => exact ⟨[], fun ret => by simp [render_tokens, lex_nil], rfl⟩
    | cons t rest =>
      have hk' : rest.length ≤ k := by simp only [List.length_cons] at hk; omega
      have hlex' : ∀ x ∈ rest, x.lexed := fun x hx => hlex x (List.mem_cons_of_mem _ hx)
      have hr' := runs_small_tail hr
      have step : ∀ (tok : token), (∀ ret, lex (render_tokens (tok :: rest)) ret
            = lex (render_tokens rest) (ret ++ [tok])) →
          ∃ ts', (∀ ret, lex (render_tokens (tok :: rest)) ret = some (.ok (ret ++ ts'))) ∧
            render_tokens ts' = render_tokens (tok :: rest) := by
        intro tok htok
        obtain ⟨ts', h1, h2⟩ := ih rest hk' hlex' hr'
        refine ⟨tok :: ts', fun ret => ?_, ?_⟩
        · rw [htok, h1]; simp
        · rw [render_tokens_cons, render_tokens_cons, h2]
      cases t with
      | lbrace => exact step _ fun ret => by rw [render_tokens_cons]; exact lex_lbrace _ _
      | rbrace => exact step _ fun ret => by rw [render_tokens_cons]; exact lex_rbrace _ _
      | lbracket => exact step _ fun ret => by rw [render_tokens_cons]; exact lex_lbracket _ _
      | rbracket => exact step _ fun ret => by rw [render_tokens_cons]; exact lex_rbracket _ _
      | comma => exact step _ fun ret => by rw [render_tokens_cons]; exact lex_comma _ _
      | colon => exact step _ fun ret => by rw [render_tokens_cons]; exact lex_colon _ _
      | string s =>
        have hs : '"' ∉ s := hlex (.string s) (List.mem_cons_self _ _)
        refine step _ fun ret => ?_
        rw [render_tokens_cons, show (token.string s).render = '"' :: s ++ ['"'] from rfl,
          List.append_assoc, List.singleton_append]
        exact lex_string s _ hs ret
      | number n =>
        cases n with
        | inf s => simp [runs_small] at hr
        | nan => simp [runs_small] at hr
        | finite s m =>
          obtain ⟨h1, h2, _⟩ := runs_small_number.1 hr
          have h0 : double.finite s m ≠ .finite false 0 := hlex _ (List.mem_cons_self _ _)
          have hm : m < 10 ^ 6 := lt_of_toDigits_length_le (by omega)
          rcases glued_digits_cases rest with hg | ⟨b, rest', hb, rfl, hg⟩
          · refine step _ fun ret => ?_
            rw [render_tokens_cons]
            exact lex_show_double (.finite s m) hm h0 _
              (no_digit_head_of_glued_zero rest hlex' hg) ret
          · have hm1 : 1 ≤ m := by
              rcases Nat.eq_zero_or_pos m with h | h
              · subst h
                have hb' := toDigits_length_pos b
                cases s with
                | false => exact absurd rfl h0
                | true => have := h2 ⟨rfl, rfl⟩; omega
              · exact h
            obtain ⟨h1', _, hr''⟩ := runs_small_number.1 hr'
            rw [hg] at h1
            have hglue := show_double_glue s hm1
              (show (Nat.toDigits 10 m).length + (Nat.toDigits 10 b).length ≤ 6 by omega)
            have htext : render_tokens (.number (.finite s m) :: .number (.finite false b) :: rest')
                = render_tokens (.number (.finite s (m * 10 ^ (Nat.toDigits 10 b).length + b))
                    :: rest') := by
              rw [render_tokens_cons, render_tokens_cons, render_tokens_cons, ← List.append_assoc]
              exact congrArg (· ++ render_tokens rest') hglue
            have hlen : (Nat.toDigits 10 (m * 10 ^ (Nat.toDigits 10 b).length + b)).length
                = (Nat.toDigits 10 m).length + (Nat.toDigits 10 b).length := by
              rw [toDigits_append hm1, List.length_append]
            obtain ⟨ts', e1, e2⟩ := ih
              (.number (.finite s (m * 10 ^ (Nat.toDigits 10 b).length + b)) :: rest')
              (by simp only [List.length_cons] at hk' ⊢; omega)
              (by
                intro x hx
                rcases List.mem_cons.1 hx with rfl | hx
                · intro h
                  injection h with _ hz
                  omega
                · exact hlex' x (List.mem_cons_of_mem _ hx))
              (runs_small_number.2 ⟨by rw [hlen]; omega, by intro h; omega, hr''⟩)
            exact ⟨ts', fun ret => by rw [htext]; exact e1 ret, by rw [htext]; exact e2⟩

/-! ## Only small runs of glued numbers are lexed back to the same text -/

/-- One step `n * 10 + ch - '0'` on a double that is at least `b` gives a
double that is at least `b'`, for every `b' ≤ 10 * b` far enough below `2 ^ 52`
for the rounding not to matter. -/
theorem step_at_least {n : double} {c : Nat} (hc : 48 ≤ c ∧ c ≤ 57) {b b' : Nat}
    (h1 : b' ≤ 10 * b) (h2 : b' + 48 ≤ 2 ^ 52) (hn : n.at_least b) :
    (((n.mul (double.ofInt 10)).add (double.ofInt (c : Int))).sub
        (double.ofInt ((48 : Nat) : Int))).at_least b' := by
  have h10 : double.ofInt 10 = .finite false 10 := ofInt_natCast (n := 10) (by norm_num)
  have h48 : double.ofInt ((48 : Nat) : Int) = .finite false 48 :=
    ofInt_natCast (n := 48) (by norm_num)
  have hch : double.ofInt (c : Int) = .finite false c := ofInt_natCast (by omega)
  rw [h10, h48, hch]
  cases n with
  | nan => exact absurd hn (by simp [double.at_least])
  | inf s =>
    simp only [double.at_least] at hn
    subst hn
    simp [double.mul, double.add, double.sub, double.neg, double.at_least]
  | finite s m =>
    simp only [double.at_least] at hn
    obtain ⟨hs, hm⟩ := hn
    subst hs
    simp only [double.mul, Bool.xor_false, Bool.false_bne]
    rcases ofSignMag_false_cases (m * 10) with e1 | ⟨y1, e1, r1⟩
    · rw [e1]
      simp [double.add, double.sub, double.neg, double.at_least]
    · rw [e1]
      have hy1 : b' ≤ y1 := roundMag_lower (by omega) (by omega) r1
      have hz : ¬ ((y1 : Int) + (c : Int) = 0) := by omega
      have hneg : ¬ ((y1 : Int) + (c : Int) < 0) := by omega
      have habs : ((y1 : Int) + (c : Int)).natAbs = y1 + c := by omega
      simp only [double.add, double.toInt, Bool.false_eq_true, if_false, hz, hneg, habs,
        decide_False]
      rcases ofSignMag_false_cases (y1 + c) with e2 | ⟨y2, e2, r2⟩
      · rw [e2]
        simp [double.add, double.sub, double.neg, double.at_least]
      · rw [e2]
        have hy2 : b' + 48 ≤ y2 := roundMag_lower h2 (by omega) r2
        simp only [double.sub, double.neg, double.add, double.toInt, Bool.not_false,
          Bool.false_eq_true, if_false, if_true, Bool.false_and]
        by_cases hz2 : ((y2 : Int) + -((48 : Nat) : Int)) = 0
        · rw [if_pos hz2]
          simp only [double.at_least, true_and]
          omega
        · rw [if_neg hz2]
          have hneg2 : ¬ ((y2 : Int) + -((48 : Nat) : Int) < 0) := by omega
          have habs2 : ((y2 : Int) + -((48 : Nat) : Int)).natAbs = y2 - 48 := by omega
          simp only [hneg2, habs2, decide_False]
          rcases ofSignMag_false_cases (y2 - 48) with e3 | ⟨y3, e3, r3⟩
          · rw [e3]; simp [double.at_least]
          · rw [e3]
            simp only [double.at_least, true_and]
            exact roundMag_lower (by omega) (by omega) r3

/-- Reading on from a double that is at least `b` gives one that is. -/
theorem tpn_at_least {b : Nat} (hb : b + 48 ≤ 2 ^ 52) (is : List Char) :
    ∀ n : double, n.at_least b → (tokenize_positive_number is n).1.at_least b := by
  induction is with
  | nil => intro n hn; exact hn
  | cons c is ih =>
    intro n hn
    unfold tokenize_positive_number
    split
    · exact hn
    · rename_i hc
      simp only [show '0'.toNat = 48 from rfl, show '9'.toNat = 57 from rfl] at hc ⊢
      exact ih _ (step_at_least (c := c.toNat) (by omega) (by omega) hb hn)

theorem pow_min_succ_le (j : Nat) : 10 ^ min (j + 1) 6 ≤ 10 * 10 ^ min j 6 := by
  by_cases h : j < 6
  · rw [Nat.min_eq_left (by omega), Nat.min_eq_left (by omega), Nat.pow_succ, Nat.mul_comm]
  · rw [Nat.min_eq_right (by omega), Nat.min_eq_right (by omega)]
    omega

theorem pow_min_le (j : Nat) : 10 ^ min j 6 ≤ 10 ^ 6 :=
  Nat.pow_le_pow_right (by norm_num) (Nat.min_le_right _ _)

/-- Reading `6 - j` or more digits on from a double that is at least `10 ^ j`
gives a double that is at least `10 ^ 6`, whatever follows the digits. -/
theorem tpn_grows (ds : List Char) : ∀ (j : Nat) (n : double), (∀ c ∈ ds, digit c) →
    n.at_least (10 ^ min j 6) → 6 ≤ j + ds.length → ∀ rest : List Char,
    (tokenize_positive_number (ds ++ rest) n).1.at_least (10 ^ 6) := by
  induction ds with
  | nil =>
    intro j n _ hn hj rest
    simp only [List.length_nil, Nat.add_zero] at hj
    rw [Nat.min_eq_right hj] at hn
    exact tpn_at_least (by norm_num) rest n hn
  | cons c ds ih =>
    intro j n hds hn hj rest
    have hc : digit c := hds c (List.mem_cons_self _ _)
    unfold digit at hc
    simp only [show '0'.toNat = 48 from rfl, show '9'.toNat = 57 from rfl] at hc
    have hno : ¬ (c.toNat < 48 ∨ 57 < c.toNat) := by omega
    simp only [List.cons_append, tokenize_positive_number, show '0'.toNat = 48 from rfl,
      show '9'.toNat = 57 from rfl, if_neg hno]
    have hcap : 10 ^ min (j + 1) 6 + 48 ≤ 2 ^ 52 := by
      have := pow_min_le (j + 1)
      have : (10 : Nat) ^ 6 + 48 ≤ 2 ^ 52 := by norm_num
      omega
    exact ih (j + 1) _ (fun x hx => hds x (List.mem_cons_of_mem _ hx))
      (step_at_least (c := c.toNat) (by omega) (pow_min_succ_le j) hcap hn)
      (by simp only [List.length_cons] at hj; omega) rest

/-- One exact step of `tokenize_positive_number` on a digit. -/
theorem tpn_step_exact {c : Char} (hc : digit c) (is : List Char) {n : Nat}
    (hn : n * 10 + c.toNat ≤ 2 ^ 53) :
    tokenize_positive_number (c :: is) (.finite false n)
      = tokenize_positive_number is (.finite false (n * 10 + (c.toNat - 48))) := by
  unfold digit at hc
  simp only [show '0'.toNat = 48 from rfl, show '9'.toNat = 57 from rfl] at hc
  have hno : ¬ (c.toNat < 48 ∨ 57 < c.toNat) := by omega
  have h1 : n * 10 ≤ 2 ^ 53 := by omega
  have h10 : double.ofInt 10 = .finite false 10 := ofInt_natCast (n := 10) (by norm_num)
  have h48 : double.ofInt ((48 : Nat) : Int) = .finite false 48 :=
    ofInt_natCast (n := 48) (by norm_num)
  have hch : double.ofInt (c.toNat : Int) = .finite false c.toNat :=
    ofInt_natCast (by omega)
  simp only [tokenize_positive_number, show '0'.toNat = 48 from rfl,
    show '9'.toNat = 57 from rfl, if_neg hno, h10, h48, hch, mul_exact h1, add_exact hn,
    sub_exact (show 48 ≤ n * 10 + c.toNat by omega) hn]
  have : n * 10 + c.toNat - 48 = n * 10 + (c.toNat - 48) := by omega
  rw [this]

/-- Past the digits `tokenize_positive_number` leaves what follows them. -/
theorem tpn_rest (rest : List Char) (hrest : no_digit_head rest) (ds : List Char) :
    ∀ n : double, (∀ c ∈ ds, digit c) → (tokenize_positive_number (ds ++ rest) n).2 = rest := by
  induction ds with
  | nil => intro n _; rw [List.nil_append, tpn_stop rest hrest]
  | cons c ds ih =>
    intro n hds
    have hc : digit c := hds c (List.mem_cons_self _ _)
    unfold digit at hc
    have hno : ¬ (c.toNat < '0'.toNat ∨ '9'.toNat < c.toNat) := by omega
    simp only [List.cons_append, tokenize_positive_number, if_neg hno]
    exact ih _ (fun x hx => hds x (List.mem_cons_of_mem _ hx))
theorem mant_shape (c : Char) (r ex : List Char) :
    ∃ x tl, (x = '.' ∨ x = 'e') ∧
      (if (dropZerosRev (c :: r).tail.reverse).reverse = [] then (c :: r).take 1
        else (c :: r).take 1 ++ '.' :: (dropZerosRev (c :: r).tail.reverse).reverse)
        ++ 'e' :: '+' :: ex = c :: x :: tl := by
  by_cases h : (dropZerosRev (c :: r).tail.reverse).reverse = []
  · rw [if_pos h]
    exact ⟨'e', _, Or.inr rfl, rfl⟩
  · rw [if_neg h]
    exact ⟨'.', _, Or.inl rfl, rfl⟩

theorem show_scientific_shape (m len : Nat) :
    ∃ c x tl, digit c ∧ (x = '.' ∨ x = 'e') ∧ show_scientific m len = c :: x :: tl := by
  unfold show_scientific
  dsimp only
  generalize (if (if m % 10 ^ (len - 6) > 10 ^ (len - 6) / 2 ∨
      m % 10 ^ (len - 6) = 10 ^ (len - 6) / 2 ∧ m / 10 ^ (len - 6) % 2 = 1
      then m / 10 ^ (len - 6) + 1 else m / 10 ^ (len - 6)) = 10 ^ 6 then 10 ^ 5
      else if m % 10 ^ (len - 6) > 10 ^ (len - 6) / 2 ∨
      m % 10 ^ (len - 6) = 10 ^ (len - 6) / 2 ∧ m / 10 ^ (len - 6) % 2 = 1
      then m / 10 ^ (len - 6) + 1 else m / 10 ^ (len - 6)) = q
  obtain ⟨c, r, e, hd, -⟩ := toDigits_spec q
  rw [e]
  obtain ⟨x, tl, hx, h⟩ := mant_shape c r _
  exact ⟨c, x, tl, hd c (List.mem_cons_self _ _), hx, h⟩

/-- The text of a number of magnitude `10 ^ 6` or more: a digit, then `.` or
`e`. -/
theorem show_double_big (s : Bool) {m : Nat} (hm : 10 ^ 6 ≤ m) :
    ∃ c x tl, digit c ∧ (x = '.' ∨ x = 'e') ∧
      show_double (.finite s m) = (if s then ['-'] else []) ++ c :: x :: tl := by
  have hl : ¬ (Nat.toDigits 10 m).length ≤ 6 := by
    intro h
    have := lt_of_toDigits_length_le h
    omega
  obtain ⟨c, x, tl, hc, hx, e⟩ := show_scientific_shape m (Nat.toDigits 10 m).length
  refine ⟨c, x, tl, hc, hx, ?_⟩
  simp only [show_double, if_neg hl, e]

/-- The text of a number of magnitude below `10 ^ 6`: digits, the first one
not `0` unless the number is zero. -/
theorem show_double_small_shape (s : Bool) {m : Nat} (hm : m < 10 ^ 6) :
    ∃ c ds, digit c ∧ (∀ y ∈ ds, digit y) ∧ (1 ≤ m → '1'.toNat ≤ c.toNat) ∧
      Nat.toDigits 10 m = c :: ds ∧
      show_double (.finite s m) = (if s then ['-'] else []) ++ c :: ds := by
  obtain ⟨c, ds, e, hds, -, hfirst⟩ := toDigits_spec m
  refine ⟨c, ds, hds c (List.mem_cons_self _ _), fun y hy => hds y (List.mem_cons_of_mem _ hy),
    hfirst, e, ?_⟩
  rw [show_double_small s hm, e]

theorem lex_minus (is : List Char) (ret : List token) :
    lex ('-' :: is) ret = lex (tokenize_positive_number is (.finite false 0)).2
      (ret ++ [.number (tokenize_positive_number is (.finite false 0)).1.neg]) := by
  show tokenize_loop (is.length + 1 + 1) ('-' :: is) ret = _
  rw [tokenize_loop_minus]
  have := tpn_length is (.finite false 0)
  exact lex_of_loop _ (by omega)

theorem lex_number_start (d : Char) (h : '1'.toNat ≤ d.toNat ∧ d.toNat ≤ '9'.toNat)
    (is : List Char) (ret : List token) :
    lex (d :: is) ret = lex (tokenize_positive_number is (.finite false (d.toNat - 48))).2
      (ret ++ [.number (tokenize_positive_number is (.finite false (d.toNat - 48))).1]) := by
  show tokenize_loop (is.length + 1 + 1) (d :: is) ret = _
  rw [tokenize_loop_number_start _ _ _ _ h]
  have := tpn_length is (.finite false (d.toNat - 48))
  exact lex_of_loop _ (by omega)

/-- None of the characters `.`, `e`, `i`, `n` of the text of a large number, of
an infinity or of NaN is accepted by the lexer. -/
theorem lex_invalid {x : Char} (hx : x = '.' ∨ x = 'e' ∨ x = 'i' ∨ x = 'n') (tail : List Char)
    (ret : List token) : lex (x :: tail) ret = some (.error .invalid_letter) := by
  rcases hx with rfl | rfl | rfl | rfl <;> rfl

theorem invalid_not_digit {x : Char} (hx : x = '.' ∨ x = 'e' ∨ x = 'i' ∨ x = 'n') :
    ¬ digit x := by
  rcases hx with rfl | rfl | rfl | rfl <;> decide

/-- Digits, with or without a sign before them, followed by one of `.`, `e`,
`i`, `n` are rejected. -/
theorem lex_digits_invalid (s : Bool) (ds : List Char) (hds : ∀ c ∈ ds, digit c) {x : Char}
    (hx : x = '.' ∨ x = 'e' ∨ x = 'i' ∨ x = 'n') (tail : List Char) (ret : List token) :
    lex ((if s then ['-'] else []) ++ ds ++ x :: tail) ret = some (.error .invalid_letter) := by
  have hrest : no_digit_head (x :: tail) := no_digit_head_cons (invalid_not_digit hx) tail
  cases s with
  | true =>
    simp only [if_true, List.cons_append, List.nil_append]
    rw [lex_minus, tpn_rest _ hrest ds _ hds]
    exact lex_invalid hx tail _
  | false =>
    simp only [Bool.false_eq_true, if_false, List.nil_append]
    cases ds with
    | nil => exact lex_invalid hx tail _
    | cons c ds =>
      have hc := hds c (List.mem_cons_self _ _)
      by_cases h1 : '1'.toNat ≤ c.toNat
      · rw [List.cons_append, lex_number_start c ⟨h1, hc.2⟩,
          tpn_rest _ hrest ds _ (fun y hy => hds y (List.mem_cons_of_mem _ hy))]
        exact lex_invalid hx tail _
      · have h0 := hc.1
        simp only [show '0'.toNat = 48 from rfl, show '1'.toNat = 49 from rfl] at h0 h1
        have hk : c.toNat = 48 := by omega
        have : c = Char.ofNat 48 := char_eq_of_toNat hk
        subst this
        rfl
/-- A number of the input text: an optional sign and a digit, which without a
sign is not `0`; the lexer reads on with `tokenize_positive_number` from that
digit. -/
theorem lex_signed_digits (s : Bool) {c0 : Char} (hc0 : digit c0)
    (hs : s = false → '1'.toNat ≤ c0.toNat) (is : List Char) (ret : List token) :
    lex ((if s then ['-'] else []) ++ c0 :: is) ret
      = lex (tokenize_positive_number is (.finite false (c0.toNat - 48))).2
          (ret ++ [.number (if s
            then (tokenize_positive_number is (.finite false (c0.toNat - 48))).1.neg
            else (tokenize_positive_number is (.finite false (c0.toNat - 48))).1)]) := by
  cases s with
  | true =>
    have h9 := hc0.2
    simp only [show '9'.toNat = 57 from rfl] at h9
    have e := tpn_step_exact hc0 is (n := 0) (by
      have : (57 : Nat) ≤ 2 ^ 53 := by norm_num
      omega)
    rw [Nat.zero_mul, Nat.zero_add] at e
    simp only [if_true, List.cons_append, List.nil_append]
    rw [lex_minus, e]
  | false =>
    simp only [Bool.false_eq_true, if_false, List.nil_append]
    exact lex_number_start c0 ⟨hs rfl, hc0.2⟩ is ret

/-- The text of a number that is at least `10 ^ 6`, or of its negative: after
the sign, and at most one character further, stands a character that is not a
digit. -/
theorem show_at_least_big {v : double} (hv : v.at_least (10 ^ 6)) (s : Bool) :
    ∃ pre y tl, show_double (if s then v.neg else v)
        = (if s then ['-'] else []) ++ pre ++ y :: tl ∧ pre.length ≤ 1 ∧ ¬ digit y := by
  cases v with
  | nan => exact absurd hv (by simp [double.at_least])
  | inf t =>
    simp only [double.at_least] at hv
    subst hv
    refine ⟨[], 'i', ['n', 'f'], ?_, by simp, by decide⟩
    cases s <;> rfl
  | finite t m =>
    simp only [double.at_least] at hv
    obtain ⟨rfl, hm⟩ := hv
    obtain ⟨c, x, tl, _, hx, e⟩ := show_double_big s hm
    refine ⟨[c], x, tl, ?_, by simp, ?_⟩
    · have : (if s then (double.finite false m).neg else double.finite false m)
          = double.finite s m := by cases s <;> rfl
      rw [this, e]
      simp
    · rcases hx with rfl | rfl <;> decide

/-- The text of the negative of a positive number: after the sign stands a
character other than `0`, or a digit and then a character that is not a
digit. -/
theorem show_neg_of_at_least_one {v : double} (hv : v.at_least 1) :
    ∃ pre y tl, show_double v.neg = '-' :: pre ++ y :: tl ∧ pre.length ≤ 1 ∧ y ≠ '0' ∧
      (pre ≠ [] → ¬ digit y) := by
  cases v with
  | nan => exact absurd hv (by simp [double.at_least])
  | inf t =>
    simp only [double.at_least] at hv
    subst hv
    exact ⟨[], 'i', ['n', 'f'], rfl, by simp, by decide, fun h => absurd rfl h⟩
  | finite t m =>
    simp only [double.at_least] at hv
    obtain ⟨rfl, hm⟩ := hv
    by_cases hlt : m < 10 ^ 6
    · obtain ⟨c, ds, _, _, hfirst, _, e⟩ := show_double_small_shape true hlt
      refine ⟨[], c, ds, by rw [show (double.finite false m).neg = .finite true m from rfl, e]; rfl,
        by simp, ?_, fun h => absurd rfl h⟩
      intro h
      subst h
      exact absurd (hfirst hm) (by decide)
    · obtain ⟨c, x, tl, _, hx, e⟩ := show_double_big true (Nat.le_of_not_lt hlt)
      refine ⟨[c], x, tl, by rw [show (double.finite false m).neg = .finite true m from rfl, e]; rfl,
        by simp, ?_, fun _ => ?_⟩
      · rcases hx with rfl | rfl <;> decide
      · rcases hx with rfl | rfl <;> decide

/-- The tokens the loop returns are the tokens it was given followed by those
of the input read alone. -/
theorem lex_ok_acc : ∀ (k : Nat) (x : List Char), x.length ≤ k → ∀ (acc out : List token),
    lex x acc = some (.ok out) → ∃ out', lex x [] = some (.ok out') ∧ out = acc ++ out' := by
  intro k
  induction k with
  | zero =>
    intro x hk acc out h
    have : x = [] := List.length_eq_zero.1 (by omega)
    subst this
    rw [lex_nil] at h
    cases h
    exact ⟨[], rfl, by simp⟩
  | succ k ih =>
    intro x hk acc out h
    cases x with
    | nil =>
      rw [lex_nil] at h
      cases h
      exact ⟨[], rfl, by simp⟩
    | cons ch is =>
      simp only [List.length_cons] at hk
      have cont : ∀ (r : List Char) (tok : token), r.length ≤ k →
          lex r (acc ++ [tok]) = some (.ok out) →
          ∃ out', lex r [tok] = some (.ok out') ∧ out = acc ++ out' := by
        intro r tok hr h'
        obtain ⟨o1, e1, e2⟩ := ih r hr _ _ h'
        have := (tokenize_loop_continues _ r [] o1 e1 [tok] [] (by intro c hc; cases hc)
          (r.length + 1) (by simp)).1
        rw [List.append_nil, List.append_nil, lex_nil] at this
        exact ⟨[tok] ++ o1, this, by rw [e2, List.append_assoc]⟩
      have hl : ∀ ret, lex (ch :: is) ret = tokenize_loop (is.length + 1 + 1) (ch :: is) ret :=
        fun _ => rfl
      rw [hl] at h
      rw [hl]
      rcases tokenize_loop_step ch with ⟨_, e, _⟩ | ⟨tok, _, e, _⟩ | ⟨_, e, _⟩ | ⟨_, e, _⟩
        | ⟨_, e, _⟩ | ⟨_, e, _⟩
      · rw [e] at h ⊢
        exact ih is (by omega) _ _ h
      · rw [e] at h ⊢
        exact cont is tok (by omega) h
      · rw [e] at h ⊢
        cases hs : tokenize_string is [] with
        | error err => rw [hs] at h; cases h
        | ok r =>
          obtain ⟨s, is'⟩ := r
          rw [hs] at h
          simp only at h ⊢
          have hlen := tokenize_string_length _ _ _ _ hs
          rw [lex_of_loop _ (by omega)] at h ⊢
          exact cont is' _ (by omega) h
      · rw [e] at h ⊢
        have hlen := tpn_length is (.finite false 0)
        rw [lex_of_loop _ (by omega)] at h ⊢
        exact cont _ _ (by omega) h
      · rw [e] at h ⊢
        have hlen := tpn_length is (.finite false (ch.toNat - 48))
        rw [lex_of_loop _ (by omega)] at h ⊢
        exact cont _ _ (by omega) h
      · rw [e] at h; cases h

theorem head_digit_of_append {ds : List Char} (hds : ∀ c ∈ ds, digit c) (hne : ds ≠ [])
    {y : Char} {tl rest : List Char} (e : y :: tl = ds ++ rest) : digit y := by
  cases ds with
  | nil => exact absurd rfl hne
  | cons d ds =>
    rw [List.cons_append] at e
    injection e with e1 _
    rw [e1]
    exact hds d (List.mem_cons_self _ _)

/-- The converse of `lex_render_runs`: when the text of lexed tokens is lexed
to tokens with the same text, every run of glued numbers is small. -/
theorem runs_small_of_idempotent : ∀ (k : Nat) (ts : List token), ts.length ≤ k →
    (∀ t ∈ ts, t.lexed) → ∀ ts', lex (render_tokens ts) [] = some (.ok ts') →
    render_tokens ts' = render_tokens ts → runs_small ts = true := by
  intro k
  induction k with
  | zero =>
    intro ts hk _ _ _ _
    have : ts = [] := List.length_eq_zero.1 (by omega)
    subst this
    rfl
  | succ k ih =>
    intro ts hk hlex ts' h1 h2
    cases ts with
    | nil => rfl
    | cons t rest =>
      have hk' : rest.length ≤ k := by simp only [List.length_cons] at hk; omega
      have hlex' : ∀ x ∈ rest, x.lexed := fun x hx => hlex x (List.mem_cons_of_mem _ hx)
      have step : (∀ ret, lex (render_tokens (t :: rest)) ret
            = lex (render_tokens rest) (ret ++ [t])) → runs_small rest = true := by
        intro htok
        rw [htok] at h1
        obtain ⟨o, e1, e2⟩ := lex_ok_acc _ _ (Nat.le_refl _) _ _ h1
        subst e2
        rw [List.nil_append, List.singleton_append, render_tokens_cons, render_tokens_cons] at h2
        exact ih rest hk' hlex' o e1 (List.append_cancel_left h2)
      cases t with
      | lbrace => exact step fun ret => by rw [render_tokens_cons]; exact lex_lbrace _ _
      | rbrace => exact step fun ret => by rw [render_tokens_cons]; exact lex_rbrace _ _
      | lbracket => exact step fun ret => by rw [render_tokens_cons]; exact lex_lbracket _ _
      | rbracket => exact step fun ret => by rw [render_tokens_cons]; exact lex_rbracket _ _
      | comma => exact step fun ret => by rw [render_tokens_cons]; exact lex_comma _ _
      | colon => exact step fun ret => by rw [render_tokens_cons]; exact lex_colon _ _
      | string s =>
        have hs : '"' ∉ s := hlex (.string s) (List.mem_cons_self _ _)
        refine step fun ret => ?_
        rw [render_tokens_cons, show (token.string s).render = '"' :: s ++ ['"'] from rfl,
          List.append_assoc, List.singleton_append]
        exact lex_string s _ hs ret
      | number n =>
        rw [render_tokens_cons, show (token.number n).render = show_double n from rfl] at h1
        cases n with
        | nan =>
          exfalso
          have := lex_digits_invalid false [] (by intro c hc; cases hc)
            (x := 'n') (Or.inr (Or.inr (Or.inr rfl))) (['a', 'n'] ++ render_tokens rest) []
          rw [show show_double .nan ++ render_tokens rest
            = (if false then ['-'] else []) ++ [] ++ 'n' :: (['a', 'n'] ++ render_tokens rest)
            from rfl, this] at h1
          cases h1
        | inf s =>
          exfalso
          have := lex_digits_invalid s [] (by intro c hc; cases hc)
            (x := 'i') (Or.inr (Or.inr (Or.inl rfl))) (['n', 'f'] ++ render_tokens rest) []
          rw [show show_double (.inf s) ++ render_tokens rest
            = (if s then ['-'] else []) ++ [] ++ 'i' :: (['n', 'f'] ++ render_tokens rest)
            by cases s <;> rfl, this] at h1
          cases h1
        | finite s m =>
          have h0 : double.finite s m ≠ .finite false 0 := hlex _ (List.mem_cons_self _ _)
          by_cases hm : m < 10 ^ 6
          · have hlm : (Nat.toDigits 10 m).length ≤ 6 :=
              Nat.toDigitsCore_length 10 (by norm_num) (m + 1) m 6 hm (by norm_num)
            rcases glued_digits_cases rest with hg | ⟨b, rest', hb, rfl, hg⟩
            · have hr := step fun ret => by
                rw [render_tokens_cons]
                exact lex_show_double (.finite s m) hm h0 _
                  (no_digit_head_of_glued_zero rest hlex' hg) ret
              exact runs_small_number.2 ⟨by omega, fun _ => hg, hr⟩
            · obtain ⟨cm, dm, hcm, hdm, hfm, etm, esm⟩ := show_double_small_shape s hm
              rw [render_tokens_cons,
                show (token.number (.finite false b)).render = show_double (.finite false b)
                  from rfl] at h1
              rw [render_tokens_cons, render_tokens_cons,
                show (token.number (.finite s m)).render = show_double (.finite s m) from rfl,
                show (token.number (.finite false b)).render = show_double (.finite false b)
                  from rfl] at h2
              by_cases hb6 : b < 10 ^ 6
              · obtain ⟨cb, db, hcb, hdb, hfb, etb, esb⟩ := show_double_small_shape false hb6
                have hcb1 := hfb hb
                simp only [Bool.false_eq_true, if_false, List.nil_append] at esb
                by_cases hm0 : m = 0
                · exfalso
                  subst hm0
                  have hs : s = true := by
                    cases s with
                    | true => rfl
                    | false => exact absurd rfl h0
                  subst hs
                  have e0 : cm = '0' ∧ dm = [] := by
                    have : Nat.toDigits 10 0 = ['0'] := rfl
                    rw [this] at etm
                    injection etm with a b
                    exact ⟨a.symm, b.symm⟩
                  obtain ⟨rfl, rfl⟩ := e0
                  have htext : show_double (.finite true 0)
                        ++ (show_double (.finite false b) ++ render_tokens rest')
                      = (if true then ['-'] else []) ++ '0' :: (cb :: (db ++ render_tokens rest'))
                      := by
                    rw [esm, esb]; simp
                  rw [htext, lex_signed_digits true (by decide) (by intro h; cases h),
                    show '0'.toNat - 48 = 0 from rfl,
                    tpn_step_exact hcb _ (n := 0) (by
                      have := hcb.2
                      simp only [show '9'.toNat = 57 from rfl] at this
                      have : (57 : Nat) ≤ 2 ^ 53 := by norm_num
                      omega),
                    Nat.zero_mul, Nat.zero_add] at h1
                  have hv := tpn_at_least (b := 1) (by norm_num) (db ++ render_tokens rest')
                    (.finite false (cb.toNat - 48)) (by
                      simp only [double.at_least, true_and]
                      simp only [show '1'.toNat = 49 from rfl] at hcb1
                      omega)
                  obtain ⟨o, _, e2⟩ := lex_ok_acc _ _ (Nat.le_refl _) _ _ h1
                  subst e2
                  simp only [if_true, List.nil_append, List.singleton_append,
                    render_tokens_cons] at h2
                  rw [show (token.number (tokenize_positive_number (db ++ render_tokens rest')
                      (.finite false (cb.toNat - 48))).1.neg).render
                    = show_double (tokenize_positive_number (db ++ render_tokens rest')
                      (.finite false (cb.toNat - 48))).1.neg from rfl, htext] at h2
                  obtain ⟨pre, y, tl, e, hpre, hy0, hyd⟩ := show_neg_of_at_least_one hv
                  rw [e] at h2
                  cases pre with
                  | nil =>
                    simp only [if_true, List.nil_append, List.cons_append, List.cons.injEq,
                      true_and] at h2
                    exact hy0 h2.1
                  | cons c pre =>
                    cases pre with
                    | nil =>
                      simp only [if_true, List.nil_append, List.cons_append, List.cons.injEq,
                        true_and] at h2
                      have hd := hyd (by simp)
                      rw [h2.2.1] at hd
                      exact hd hcb
                    | cons _ _ => simp at hpre
                · have hm1 : 1 ≤ m := Nat.pos_of_ne_zero hm0
                  have hcm1 := hfm hm1
                  by_cases hlen : (Nat.toDigits 10 m).length + (Nat.toDigits 10 b).length ≤ 6
                  · have hglue := show_double_glue s hm1 hlen
                    have htext : render_tokens
                          (.number (.finite s (m * 10 ^ (Nat.toDigits 10 b).length + b)) :: rest')
                        = show_double (.finite s m)
                          ++ (show_double (.finite false b) ++ render_tokens rest') := by
                      rw [render_tokens_cons, ← List.append_assoc]
                      exact congrArg (· ++ render_tokens rest') hglue.symm
                    have hlg : (Nat.toDigits 10 (m * 10 ^ (Nat.toDigits 10 b).length + b)).length
                        = (Nat.toDigits 10 m).length + (Nat.toDigits 10 b).length := by
                      rw [toDigits_append hm1, List.length_append]
                    have hr := ih
                      (.number (.finite s (m * 10 ^ (Nat.toDigits 10 b).length + b)) :: rest')
                      (by simp only [List.length_cons] at hk' ⊢; omega)
                      (by
                        intro x hx
                        rcases List.mem_cons.1 hx with rfl | hx
                        · intro h
                          injection h with _ hz
                          omega
                        · exact hlex' x (List.mem_cons_of_mem _ hx))
                      ts' (by rw [htext]; exact h1) (by rw [htext]; exact h2)
                    obtain ⟨g1, _, g3⟩ := runs_small_number.1 hr
                    rw [hlg] at g1
                    exact runs_small_number.2 ⟨by rw [hg]; omega, fun h => by omega,
                      runs_small_number.2 ⟨by omega, fun h => absurd h.1 (by decide), g3⟩⟩
                  · exfalso
                    have hlm' : (Nat.toDigits 10 m).length = dm.length + 1 := by rw [etm]; rfl
                    have hlb' : (Nat.toDigits 10 b).length = db.length + 1 := by rw [etb]; rfl
                    have hds : ∀ c ∈ dm ++ cb :: db, digit c := by
                      intro c hc
                      rcases List.mem_append.1 hc with h | h
                      · exact hdm c h
                      · rcases List.mem_cons.1 h with rfl | h
                        · exact hcb
                        · exact hdb c h
                    have htext : show_double (.finite s m)
                          ++ (show_double (.finite false b) ++ render_tokens rest')
                        = (if s then ['-'] else [])
                          ++ cm :: ((dm ++ cb :: db) ++ render_tokens rest') := by
                      rw [esm, esb]; simp
                    rw [htext, lex_signed_digits s hcm (fun _ => hcm1)] at h1
                    have hv := tpn_grows (dm ++ cb :: db) 0 (.finite false (cm.toNat - 48)) hds
                      (by
                        simp only [double.at_least, true_and]
                        simp only [show '1'.toNat = 49 from rfl] at hcm1
                        simp
                        omega)
                      (by simp only [List.length_append, List.length_cons]; omega)
                      (render_tokens rest')
                    obtain ⟨o, _, e2⟩ := lex_ok_acc _ _ (Nat.le_refl _) _ _ h1
                    subst e2
                    obtain ⟨pre, y, tl, e, hpre, hyd⟩ := show_at_least_big hv s
                    rw [List.nil_append, List.singleton_append, render_tokens_cons,
                      show ∀ d, (token.number d).render = show_double d from fun _ => rfl,
                      e, htext, List.append_assoc, List.append_assoc] at h2
                    have h3 := List.append_cancel_left h2
                    cases pre with
                    | nil =>
                      simp only [List.nil_append, List.cons_append, List.cons.injEq] at h3
                      rw [h3.1] at hyd
                      exact hyd hcm
                    | cons c pre =>
                      cases pre with
                      | nil =>
                        simp only [List.nil_append, List.cons_append, List.cons.injEq] at h3
                        exact hyd (head_digit_of_append hds (by simp)
                          (by rw [List.cons_append] at *; exact h3.2))
                      | cons _ _ => simp at hpre
              · exfalso
                obtain ⟨cb, x, tl, hcb, hx, esb⟩ := show_double_big false (Nat.le_of_not_lt hb6)
                simp only [Bool.false_eq_true, if_false, List.nil_append] at esb
                have hds : ∀ c ∈ cm :: dm ++ [cb], digit c := by
                  intro c hc
                  simp only [List.cons_append, List.mem_cons, List.mem_append,
                    List.mem_singleton, List.not_mem_nil, or_false] at hc
                  rcases hc with rfl | h | rfl
                  · exact hcm
                  · exact hdm c h
                  · exact hcb
                have := lex_digits_invalid s (cm :: dm ++ [cb]) hds
                  (x := x) (by rcases hx with h | h <;> simp [h]) (tl ++ render_tokens rest') []
                rw [show show_double (.finite s m)
                      ++ (show_double (.finite false b) ++ render_tokens rest')
                    = (if s then ['-'] else []) ++ (cm :: dm ++ [cb])
                      ++ x :: (tl ++ render_tokens rest') by rw [esm, esb]; simp, this] at h1
                cases h1
          · exfalso
            obtain ⟨c, x, tl, hc, hx, e⟩ := show_double_big s (Nat.le_of_not_lt hm)
            have := lex_digits_invalid s [c] (by
                intro y hy
                rw [List.mem_singleton] at hy
                rw [hy]; exact hc)
              (x := x) (by rcases hx with h | h <;> simp [h]) (tl ++ render_tokens rest) []
            rw [e, show (if s then ['-'] else []) ++ c :: x :: tl ++ render_tokens rest
              = (if s then ['-'] else []) ++ [c] ++ x :: (tl ++ render_tokens rest)
              by simp, this] at h1
            cases h1

/-! # The claims -/

/-- Claim C1 (print/parse round trip), as amended.  For every input `s` on
which `tokenize` and then `parse` succeed with a value `v` all of whose numbers
have magnitude below `10 ^ 6`, and for every order `w` in which the entries of
the objects of `v` may be iterated, tokenizing and parsing the text
`render_value w` also succeeds and yields a value structurally equal to `v`,
objects compared as key-to-value maps. -/
theorem render_parse_roundtrip (s : List Char) (ts : List token) (v : value)
    (st' : token_stream) (h1 : tokenize s = some (.ok ts))
    (h2 : parse ⟨ts, 0⟩ = some (.ok v, st')) (hsmall : v.small) (w : value)
    (hw : v.equiv w) :
    ∃ ts' v' st'', tokenize (render_value w) = some (.ok ts') ∧
      parse ⟨ts', 0⟩ = some (.ok v', st'') ∧ v.equiv v' := by
  have hrun := ((parse_eq_ok_iff _ _ _).1 h2).2
  have hkeep : v.lexed ∧ v.keys_nodup := keeps_of_run (tokenize_lexed h1) hrun
  have hgood := roundtrip_of_good w (all_of_equiv _ _ v hsmall w hw)
    (all_of_equiv _ _ v hkeep.1 w hw) (keys_nodup_of_equiv v hkeep.2 w hw)
  exact ⟨w.tokens, w, _, hgood.1, hgood.2, hw⟩

/-- Claim C1 (amended) at `s = {"a": 1, "b": [2, "x"]}`, the value rendered
with the entry `b` before the entry `a`. -/
theorem render_parse_roundtrip_witness :
    tokenize "\x7b\"a\": 1, \"b\": [2, \"x\"]\x7d".toList
        = some (.ok [.lbrace, .string ['a'], .colon, .number (.finite false 1), .comma,
            .string ['b'], .colon, .lbracket, .number (.finite false 2), .comma, .string ['x'],
            .rbracket, .rbrace]) ∧
      parse ⟨[.lbrace, .string ['a'], .colon, .number (.finite false 1), .comma,
            .string ['b'], .colon, .lbracket, .number (.finite false 2), .comma, .string ['x'],
            .rbracket, .rbrace], 0⟩
        = some (.ok (.object [(['a'], .number (.finite false 1)),
            (['b'], .array [.number (.finite false 2), .string ['x']])]),
          ⟨[.lbrace, .string ['a'], .colon, .number (.finite false 1), .comma,
            .string ['b'], .colon, .lbracket, .number (.finite false 2), .comma, .string ['x'],
            .rbracket, .rbrace], 13⟩) ∧
      ∃ ts' v' st'',
        tokenize (render_value (.object [(['b'], .array [.number (.finite false 2),
            .string ['x']]), (['a'], .number (.finite false 1))])) = some (.ok ts') ∧
        parse ⟨ts', 0⟩ = some (.ok v', st'') ∧
        (value.object [(['a'], .number (.finite false 1)),
          (['b'], .array [.number (.finite false 2), .string ['x']])]).equiv v' :=
  ⟨by decide, rfl,
    render_parse_roundtrip "\x7b\"a\": 1, \"b\": [2, \"x\"]\x7d".toList
      [.lbrace, .string ['a'], .colon, .number (.finite false 1), .comma,
        .string ['b'], .colon, .lbracket, .number (.finite false 2), .comma, .string ['x'],
        .rbracket, .rbrace]
      (.object [(['a'], .number (.finite false 1)),
        (['b'], .array [.number (.finite false 2), .string ['x']])])
      ⟨_, 13⟩ (by decide) rfl
      (by simp [value.small, value.all, entries_all, list_all, double.small])
      (.object [(['b'], .array [.number (.finite false 2), .string ['x']]),
        (['a'], .number (.finite false 1))])
      (by
        simp only [value.equiv]
        exact ⟨_, _, rfl, List.Perm.swap _ _ _, by simp [entries_equiv, value.equiv, list_equiv]⟩)⟩

/-- Claim C1 as stated fails at `s = 1000000`: the value is the number
`1000000`, its text is `1e+06`, and `tokenize` rejects that text at `e`. -/
theorem render_parse_roundtrip_counterexample :
    tokenize "1000000".toList = some (.ok [.number (.finite false 1000000)]) ∧
      parse ⟨[.number (.finite false 1000000)], 0⟩
        = some (.ok (.number (.finite false 1000000)), ⟨[.number (.finite false 1000000)], 1⟩) ∧
      render_value (.number (.finite false 1000000)) = "1e+06".toList ∧
      tokenize "1e+06".toList = some (.error .invalid_letter) :=
  ⟨by decide, rfl, by decide, by decide⟩

/-- Claim C2 (grammar correctness of the parser).  For every token sequence
`ts`, `parse` started at position 0 succeeds if and only if some prefix of `ts`
is derivable from the production `value` of the grammar; a derivable prefix is
unique; and on success the final position is the length of that prefix. -/
theorem parse_accepts_grammar (ts : List token) :
    ((∃ v st', parse ⟨ts, 0⟩ = some (.ok v, st')) ↔ ∃ pre, pre <+: ts ∧ Derives .value pre) ∧
    (∀ pre₁ pre₂, pre₁ <+: ts → pre₂ <+: ts → Derives .value pre₁ → Derives .value pre₂ →
      pre₁ = pre₂) ∧
    (∀ v st', parse ⟨ts, 0⟩ = some (.ok v, st') →
      ∀ pre, pre <+: ts → Derives .value pre → st'.head_ = pre.length) := by
  refine ⟨⟨?_, ?_⟩, ?_, ?_⟩
  · rintro ⟨v, st', hr⟩
    obtain ⟨_, r⟩ := (parse_eq_ok_iff _ _ _).1 hr
    exact ⟨slice ts 0 st'.head_, slice_zero_prefix _ _, derives_of_run r⟩
  · rintro ⟨pre, hp, d⟩
    obtain ⟨v, hv⟩ := parse_of_derives_prefix hp d
    exact ⟨v, _, hv⟩
  · intro pre₁ pre₂ hp₁ hp₂ d₁ d₂
    obtain ⟨v₁, hv₁⟩ := parse_of_derives_prefix hp₁ d₁
    obtain ⟨v₂, hv₂⟩ := parse_of_derives_prefix hp₂ d₂
    rw [hv₁] at hv₂
    have hl : pre₁.length = pre₂.length := by
      have := congrArg (fun r => r.map (fun x => x.2.head_)) hv₂
      simpa using this
    rw [List.prefix_iff_eq_take] at hp₁ hp₂
    rw [hp₁, hp₂, hl]
  · intro v st' hr pre hp d
    obtain ⟨v', hv'⟩ := parse_of_derives_prefix hp d
    rw [hr] at hv'
    have := congrArg (fun r => r.map (fun x => x.2.head_)) hv'
    simpa using this

/-- Claim C2 at the tokens `[ ] ,`: the prefix `[ ]` is derivable, so `parse`
succeeds. -/
theorem parse_accepts_grammar_witness :
    ∃ v st', parse ⟨[.lbracket, .rbracket, .comma], 0⟩ = some (.ok v, st') :=
  (parse_accepts_grammar [.lbracket, .rbracket, .comma]).1.2
    ⟨[.lbracket, .rbracket], ⟨[.comma], rfl⟩, Derives.value_array Derives.array_empty⟩

/-- Claim C3 (duplicate object keys), as amended: `emplace` does not overwrite.
For tokens `'{' STRING(k) ':' v1 ',' STRING(k) ':' v2 '}'` with `v1`, `v2` token
sequences that `parse` reads whole as `x1`, `x2`, `parse_object` (with fuel at
least the number of tokens) returns the object whose only entry maps `k` to
`x1`, the value of the earlier member.  More generally, for an object written
with members `ms`, `parse_object` returns the map built by `emplace` in order,
and the value stored under a key is that of the first member carrying it. -/
theorem duplicate_key_keeps_first (k : List Char) (ts1 ts2 : List token) (x1 x2 : value)
    (h1 : parse ⟨ts1, 0⟩ = some (.ok x1, ⟨ts1, ts1.length⟩))
    (h2 : parse ⟨ts2, 0⟩ = some (.ok x2, ⟨ts2, ts2.length⟩))
    (ms : List Member) (hms : members_parsed ms) :
    (∀ f, (duplicate_key_tokens k ts1 ts2).length ≤ f →
      parse_object (fun s => parse_fuel f s) f ⟨duplicate_key_tokens k ts1 ts2, 0⟩
        = some (.ok (.object [(k, x1)]),
            ⟨duplicate_key_tokens k ts1 ts2, (duplicate_key_tokens k ts1 ts2).length⟩)) ∧
    find k [(k, x1)] = some x1 ∧
    (∀ f, (object_tokens ms).length ≤ f →
      parse_object (fun s => parse_fuel f s) f ⟨object_tokens ms, 0⟩
        = some (.ok (.object (emplace_all [] ms)),
            ⟨object_tokens ms, (object_tokens ms).length⟩)) ∧
    (∀ key, find key (emplace_all [] ms) = first_with_key key ms) := by
  have two : members_parsed [(k, ts1, x1), (k, ts2, x2)] := by
    intro m hm
    simp only [List.mem_cons, List.mem_singleton, List.not_mem_nil, or_false] at hm
    rcases hm with rfl | rfl
    · exact h1
    · exact h2
  have etok : object_tokens [(k, ts1, x1), (k, ts2, x2)] = duplicate_key_tokens k ts1 ts2 := by
    simp [object_tokens, member_tokens, duplicate_key_tokens]
  have emap : emplace_all [] [(k, ts1, x1), (k, ts2, x2)] = [(k, x1)] := by
    simp [emplace_all, emplace, find]
  have r2 := run_object_tokens _ two
  rw [etok, emap] at r2
  refine ⟨fun f hf => parse_object_of_run (by simp [duplicate_key_tokens]) r2 (by omega),
    by simp [find], fun f hf => ?_, fun key => ?_⟩
  · cases ms with
    | nil =>
      obtain ⟨f, rfl⟩ : ∃ f', f = f' + 1 := ⟨f - 1, by simp [object_tokens] at hf; omega⟩
      rfl
    | cons m ms =>
      exact parse_object_of_run (by simp [object_tokens]) (run_object_tokens _ hms) (by omega)
  · simpa [find] using find_emplace_all key ms []

/-- Claim C3 (amended) at the tokens of `{"k":1,"k":2}`: the object maps `k` to 1. -/
theorem duplicate_key_keeps_first_witness :
    parse ⟨[.number (.finite false 1)], 0⟩
        = some (.ok (.number (.finite false 1)), ⟨[.number (.finite false 1)], 1⟩) ∧
      parse ⟨[.number (.finite false 2)], 0⟩
        = some (.ok (.number (.finite false 2)), ⟨[.number (.finite false 2)], 1⟩) ∧
      parse_object (fun s => parse_fuel 9 s) 9
          ⟨duplicate_key_tokens ['k'] [.number (.finite false 1)] [.number (.finite false 2)], 0⟩
        = some (.ok (.object [(['k'], .number (.finite false 1))]),
            ⟨duplicate_key_tokens ['k'] [.number (.finite false 1)] [.number (.finite false 2)],
              9⟩) :=
  ⟨rfl, rfl,
    (duplicate_key_keeps_first ['k'] [.number (.finite false 1)] [.number (.finite false 2)]
      (.number (.finite false 1)) (.number (.finite false 2)) rfl rfl [] (by
        intro m hm; cases hm)).1 9 (by decide)⟩

/-- Claim C3 as stated fails at the tokens of `{"k":1,"k":2}`: the value parsed
from the later member is 2, and `parse_object` returns no object whose entry
for `k` is 2. -/
theorem duplicate_key_counterexample :
    parse ⟨[.number (.finite false 2)], 0⟩
        = some (.ok (.number (.finite false 2)), ⟨[.number (.finite false 2)], 1⟩) ∧
      ¬ ∃ m st', parse_object (fun s => parse_fuel 9 s) 9
          ⟨duplicate_key_tokens ['k'] [.number (.finite false 1)] [.number (.finite false 2)], 0⟩
            = some (.ok (.object m), st') ∧
          find ['k'] m = some (.number (.finite false 2)) := by
  refine ⟨rfl, ?_⟩
  rintro ⟨m, st', h, hf⟩
  have e : parse_object (fun s => parse_fuel 9 s) 9
      ⟨duplicate_key_tokens ['k'] [.number (.finite false 1)] [.number (.finite false 2)], 0⟩
      = some (.ok (.object [(['k'], .number (.finite false 1))]),
          ⟨duplicate_key_tokens ['k'] [.number (.finite false 1)] [.number (.finite false 2)],
            9⟩) := rfl
  rw [e] at h
  simp only [Option.some.injEq, Prod.mk.injEq, Except.ok.injEq, value.object.injEq] at h
  obtain ⟨rfl, _⟩ := h
  simp [find] at hf

/-- Claim C4 (unsigned number lexing), as amended.  For every digit sequence
whose first digit is `'1'..'9'` and whose decimal value `n` satisfies
`n + 48 ≤ 2 ^ 53` (so that every step `n * 10 + ch - '0'` is exact in double
arithmetic), `tokenize` of exactly that input succeeds and returns the one
token `NumberLit(n)`. -/
theorem tokenize_unsigned_number (d : Char) (ds : List Char)
    (hd : '1'.toNat ≤ d.toNat ∧ d.toNat ≤ '9'.toNat) (hds : ∀ c ∈ ds, digit c)
    (hv : decimal_value 0 (d :: ds) + 48 ≤ 2 ^ 53) :
    tokenize (d :: ds) = some (.ok [.number (.finite false (decimal_value 0 (d :: ds)))]) := by
  have hd' := hd
  simp only [show '1'.toNat = 49 from rfl, show '9'.toNat = 57 from rfl] at hd'
  have hval : decimal_value 0 (d :: ds) = decimal_value (d.toNat - 48) ds := by
    show decimal_value (0 * 10 + (d.toNat - 48)) ds = _
    rw [Nat.zero_mul, Nat.zero_add]
  rw [hval] at hv ⊢
  have key := tpn_exact [] (by intro c hc; cases hc) ds (d.toNat - 48) hds hv
  rw [List.append_nil] at key
  unfold tokenize
  rw [List.length_cons, tokenize_loop_number_start _ _ _ _ hd, key]
  rfl

/-- Claim C4 (amended) at the input `42`. -/
theorem tokenize_unsigned_number_witness :
    ('1'.toNat ≤ '4'.toNat ∧ '4'.toNat ≤ '9'.toNat) ∧ (∀ c ∈ ['2'], digit c) ∧
      decimal_value 0 ('4' :: ['2']) + 48 ≤ 2 ^ 53 ∧
      tokenize ('4' :: ['2'])
        = some (.ok [.number (.finite false (decimal_value 0 ('4' :: ['2'])))]) :=
  ⟨by decide, by decide, by decide,
    tokenize_unsigned_number '4' ['2'] (by decide) (by decide) (by decide)⟩

/-- Claim C4 as stated fails: the inputs `0` and `007` are rejected with
"Invalid letter" (the `switch` of `tokenize` has no `case '0'`), and the
digits `9007199254740993` (which is `2 ^ 53 + 1`) give the double
`9007199254740992`, not their decimal value. -/
theorem tokenize_unsigned_number_counterexample :
    tokenize ['0'] = some (.error .invalid_letter) ∧
      tokenize ['0', '0', '7'] = some (.error .invalid_letter) ∧
      tokenize "9007199254740993".toList
        = some (.ok [.number (.finite false 9007199254740992)]) ∧
      decimal_value 0 "9007199254740993".toList = 9007199254740993 := by
  decide

/-- Claim C5 (signed number lexing, including the lone minus), as amended.
For every sequence of `k ≥ 0` decimal digits whose decimal value `n`
satisfies `n + 48 ≤ 2 ^ 53`, `tokenize` of `'-'` followed by those digits
succeeds and returns the one token `NumberLit(-n)`; for no digits at all this
is `NumberLit(-0)`. -/
theorem tokenize_signed_number (ds : List Char) (hds : ∀ c ∈ ds, digit c)
    (hv : decimal_value 0 ds + 48 ≤ 2 ^ 53) :
    tokenize ('-' :: ds) = some (.ok [.number (.finite true (decimal_value 0 ds))]) := by
  have key := tpn_exact [] (by intro c hc; cases hc) ds 0 hds hv
  rw [List.append_nil] at key
  unfold tokenize
  rw [List.length_cons, tokenize_loop_minus, key]
  rfl

/-- Claim C5 (amended) at the lone minus: `tokenize("-")` is `[NumberLit(-0)]`. -/
theorem tokenize_signed_number_witness :
    (∀ c ∈ ([] : List Char), digit c) ∧ decimal_value 0 [] + 48 ≤ 2 ^ 53 ∧
      tokenize ('-' :: []) = some (.ok [.number (.finite true (decimal_value 0 []))]) :=
  ⟨by decide, by decide, tokenize_signed_number [] (by decide) (by decide)⟩

/-- Claim C5 as stated fails at `-9007199254740993`: the token is the double
`-9007199254740992`, not minus the decimal value of the digits. -/
theorem tokenize_signed_number_counterexample :
    tokenize "-9007199254740993".toList
        = some (.ok [.number (.finite true 9007199254740992)]) ∧
      decimal_value 0 "9007199254740993".toList = 9007199254740993 ∧
      tokenize "-9007199254740993".toList
        ≠ some (.ok [.number (.finite true (decimal_value 0 "9007199254740993".toList))]) := by
  decide

/-- Claim C6 (parsing at end of input), as amended.  `parse` on a cursor whose
position is at or past the end of the tokens fails without moving, with the
`std::out_of_range` of `tokens_.at(head_)`; `cur` on the same cursor reports a
different exception, "Unexpected EOF". -/
theorem parse_at_end (st : token_stream) (h : st.tokens_.length ≤ st.head_) :
    parse st = some (.error .out_of_range, st) ∧ st.cur = .error .unexpected_eof := by
  have h0 : st.tokens_[st.head_]? = none := List.getElem?_eq_none h
  simp [parse, parse_fuel, token_stream.visit, token_stream.cur, h0]

/-- Claim C6 (amended) on the empty token sequence. -/
theorem parse_at_end_witness :
    ([] : List token).length ≤ 0 ∧
      parse ⟨[], 0⟩ = some (.error .out_of_range, ⟨[], 0⟩) ∧
      (token_stream.mk [] 0).cur = .error .unexpected_eof :=
  ⟨by decide, parse_at_end ⟨[], 0⟩ (by decide)⟩

/-- Claim C6 as stated fails on the empty token sequence: `parse` does not fail
with the "Unexpected EOF" that `cur` reports, but with `std::out_of_range`. -/
theorem parse_at_end_counterexample :
    parse ⟨[], 0⟩ = some (.error .out_of_range, ⟨[], 0⟩) ∧
      (token_stream.mk [] 0).cur = .error .unexpected_eof ∧
      ¬ ∃ st', parse ⟨[], 0⟩ = some (.error .unexpected_eof, st') := by
  refine ⟨rfl, rfl, ?_⟩
  rintro ⟨st', h⟩
  have : parse ⟨[], 0⟩ = some (.error .out_of_range, ⟨[], 0⟩) := rfl
  rw [this] at h
  cases h

/-- Claim C7 (trailing tokens are ignored).  If `parse` on `ts` from position 0
succeeds with value `v` and final position `p`, then `parse` on `ts ++ extra`
from position 0 succeeds with the same value and the same final position. -/
theorem parse_ignores_trailing_tokens (ts extra : List token) (v : value) (st' : token_stream)
    (h : parse ⟨ts, 0⟩ = some (.ok v, st')) :
    parse ⟨ts ++ extra, 0⟩ = some (.ok v, ⟨ts ++ extra, st'.head_⟩) := by
  rw [parse_eq_ok_iff] at h ⊢
  exact ⟨rfl, run_append extra h.2⟩

/-- Claim C7 at the tokens of `[1]` followed by `,` and `}`. -/
theorem parse_ignores_trailing_tokens_witness :
    parse ⟨[.lbracket, .number (.finite false 1), .rbracket], 0⟩
        = some (.ok (.array [.number (.finite false 1)]),
            ⟨[.lbracket, .number (.finite false 1), .rbracket], 3⟩) ∧
      parse ⟨[.lbracket, .number (.finite false 1), .rbracket] ++ [.comma, .rbrace], 0⟩
        = some (.ok (.array [.number (.finite false 1)]),
            ⟨[.lbracket, .number (.finite false 1), .rbracket] ++ [.comma, .rbrace], 3⟩) :=
  ⟨rfl, parse_ignores_trailing_tokens [.lbracket, .number (.finite false 1), .rbracket]
    [.comma, .rbrace] (.array [.number (.finite false 1)])
    ⟨[.lbracket, .number (.finite false 1), .rbracket], 3⟩ rfl⟩

/-- Claim C8 (token-rendering idempotence), as amended.  For every input `s`
on which `tokenize` succeeds with tokens in which every number, together with
the positive numbers that directly follow it, is written with at most six
digits in all, and in which `-0` is not directly followed by a positive number,
with `t = render_tokens (tokenize s)`, `tokenize t` succeeds and
`render_tokens (tokenize t) = t`.  Two numbers may stand next to each other:
a number before a negative one is lexed back as it was, and a number before a
positive one is lexed back together with it as the one number they are the
text of.  (String literals may contain structural characters.)  The condition
on the numbers is exact: on every other input on which `tokenize` succeeds,
`tokenize t` fails or `render_tokens (tokenize t)` differs from `t`. -/
theorem render_tokens_idempotent (s : List Char) (ts : List token)
    (h : tokenize s = some (.ok ts)) :
    runs_small ts = true ↔
      ∃ ts', tokenize (render_tokens ts) = some (.ok ts') ∧
        render_tokens ts' = render_tokens ts := by
  constructor
  · intro hruns
    obtain ⟨ts', h1, h2⟩ := lex_render_runs ts.length ts (Nat.le_refl _) (tokenize_lexed h) hruns
    refine ⟨ts', ?_, h2⟩
    rw [tokenize_eq_lex, h1 [], List.nil_append]
  · rintro ⟨ts', h1, h2⟩
    exact runs_small_of_idempotent ts.length ts (Nat.le_refl _) (tokenize_lexed h) ts' h1 h2

/-- Claim C8 (amended) at `s = [12345 6, 3 -4, - -, -5 3, "a]"]`, with numbers
next to each other and a string literal containing a structural character: the
text is `[123456,3-4,-0-0,-53,"a]"]`, which is lexed with `123456` and `-53` as
one number each and rendered as the same text. -/
theorem render_tokens_idempotent_witness :
    tokenize "[12345 6, 3 -4, - -, -5 3, \"a]\"]".toList
        = some (.ok [.lbracket, .number (.finite false 12345), .number (.finite false 6), .comma,
            .number (.finite false 3), .number (.finite true 4), .comma,
            .number (.finite true 0), .number (.finite true 0), .comma,
            .number (.finite true 5), .number (.finite false 3), .comma,
            .string ['a', ']'], .rbracket]) ∧
      runs_small [.lbracket, .number (.finite false 12345), .number (.finite false 6), .comma,
            .number (.finite false 3), .number (.finite true 4), .comma,
            .number (.finite true 0), .number (.finite true 0), .comma,
            .number (.finite true 5), .number (.finite false 3), .comma,
            .string ['a', ']'], .rbracket] = true ∧
      render_tokens [.lbracket, .number (.finite false 12345), .number (.finite false 6), .comma,
            .number (.finite false 3), .number (.finite true 4), .comma,
            .number (.finite true 0), .number (.finite true 0), .comma,
            .number (.finite true 5), .number (.finite false 3), .comma,
            .string ['a', ']'], .rbracket]
        = "[123456,3-4,-0-0,-53,\"a]\"]".toList ∧
      tokenize "[123456,3-4,-0-0,-53,\"a]\"]".toList
        = some (.ok [.lbracket, .number (.finite false 123456), .comma,
            .number (.finite false 3), .number (.finite true 4), .comma,
            .number (.finite true 0), .number (.finite true 0), .comma,
            .number (.finite true 53), .comma,
            .string ['a', ']'], .rbracket]) ∧
      ∃ ts', tokenize (render_tokens [.lbracket, .number (.finite false 12345),
            .number (.finite false 6), .comma,
            .number (.finite false 3), .number (.finite true 4), .comma,
            .number (.finite true 0), .number (.finite true 0), .comma,
            .number (.finite true 5), .number (.finite false 3), .comma,
            .string ['a', ']'], .rbracket]) = some (.ok ts') ∧
        render_tokens ts' = render_tokens [.lbracket, .number (.finite false 12345),
            .number (.finite false 6), .comma,
            .number (.finite false 3), .number (.finite true 4), .comma,
            .number (.finite true 0), .number (.finite true 0), .comma,
            .number (.finite true 5), .number (.finite false 3), .comma,
            .string ['a', ']'], .rbracket] :=
  ⟨by decide, by decide, by decide, by decide,
    (render_tokens_idempotent "[12345 6, 3 -4, - -, -5 3, \"a]\"]".toList
      [.lbracket, .number (.finite false 12345), .number (.finite false 6), .comma,
            .number (.finite false 3), .number (.finite true 4), .comma,
            .number (.finite true 0), .number (.finite true 0), .comma,
            .number (.finite true 5), .number (.finite false 3), .comma,
            .string ['a', ']'], .rbracket]
      (by decide)).1 (by decide)⟩

/-- Claim C8 as stated fails at `s = - 5`, at `s = 123456 7` and at
`s = 1000000`, none of which has a string literal.  The tokens of `- 5` are
`-0` and `5`, rendered `-05`, which lexes to the one token `-5`, rendered `-5`.
The tokens of `123456 7` are rendered `1234567`, which lexes to one token,
rendered `1.23457e+06`.  The token of `1000000` is rendered `1e+06`, which
`tokenize` rejects at `e`.  These are the three cases the amended claim leaves
out. -/
theorem render_tokens_idempotent_counterexample :
    (tokenize ['-', ' ', '5']
        = some (.ok [.number (.finite true 0), .number (.finite false 5)]) ∧
      render_tokens [.number (.finite true 0), .number (.finite false 5)] = ['-', '0', '5'] ∧
      tokenize ['-', '0', '5'] = some (.ok [.number (.finite true 5)]) ∧
      render_tokens [.number (.finite true 5)] = ['-', '5'] ∧
      runs_small [.number (.finite true 0), .number (.finite false 5)] = false) ∧
    (tokenize "123456 7".toList
        = some (.ok [.number (.finite false 123456), .number (.finite false 7)]) ∧
      render_tokens [.number (.finite false 123456), .number (.finite false 7)]
        = "1234567".toList ∧
      tokenize "1234567".toList = some (.ok [.number (.finite false 1234567)]) ∧
      render_tokens [.number (.finite false 1234567)] = "1.23457e+06".toList ∧
      runs_small [.number (.finite false 123456), .number (.finite false 7)] = false) ∧
    (tokenize "1000000".toList = some (.ok [.number (.finite false 1000000)]) ∧
      render_tokens [.number (.finite false 1000000)] = "1e+06".toList ∧
      tokenize "1e+06".toList = some (.error .invalid_letter) ∧
      runs_small [.number (.finite false 1000000)] = false) := by
  decide

/-- Claim C9 (value dispatch rejects non-starting tokens), as amended.  At a
position whose token is `,`, `:`, `}` or `]`, `parse` fails without moving,
with the "Invalid token" exception of the catch-all handler of `visit` (not
the "Unexpected token" of `expect`).  Consequently an array with a trailing
comma, `'[' value (',' value)* ',' ']'`, is rejected with that exception, the
position left on the `]`. -/
theorem parse_rejects_non_starting_token (st : token_stream) (t : token)
    (h0 : st.tokens_[st.head_]? = some t)
    (ht : t = .comma ∨ t = .colon ∨ t = .rbrace ∨ t = .rbracket)
    (e tl rest : List token) (de : Derives .value e) (dt : Derives .elements_tail tl) :
    parse st = some (.error .invalid_token, st) ∧
      parse ⟨.lbracket :: e ++ tl ++ .comma :: .rbracket :: rest, 0⟩
        = some (.error .invalid_token,
            ⟨.lbracket :: e ++ tl ++ .comma :: .rbracket :: rest, e.length + tl.length + 2⟩) :=
  ⟨parse_at_non_starting_token st t h0 ht, parse_array_trailing_comma rest de dt⟩

/-- Claim C9 (amended) at the token `,` and at the tokens of `[1,]`. -/
theorem parse_rejects_non_starting_token_witness :
    parse ⟨[.comma], 0⟩ = some (.error .invalid_token, ⟨[.comma], 0⟩) ∧
      parse ⟨.lbracket :: [.number (.finite false 1)] ++ [] ++ .comma :: .rbracket :: [], 0⟩
        = some (.error .invalid_token,
            ⟨.lbracket :: [.number (.finite false 1)] ++ [] ++ .comma :: .rbracket :: [], 3⟩) :=
  parse_rejects_non_starting_token ⟨[.comma], 0⟩ .comma rfl (Or.inl rfl)
    [.number (.finite false 1)] [] [] (Derives.value_number _) Derives.elements_tail_nil

/-- Claim C9 as stated fails at the token `,` and at the tokens of `[1,]`:
`parse` does not fail with the "Unexpected token" exception that `expect`
throws on a mismatch, but with "Invalid token". -/
theorem parse_rejects_non_starting_token_counterexample :
    (token_stream.mk [.comma] 0).expect .colon = (.error .unexpected_token, ⟨[.comma], 0⟩) ∧
      parse ⟨[.comma], 0⟩ = some (.error .invalid_token, ⟨[.comma], 0⟩) ∧
      (¬ ∃ st', parse ⟨[.comma], 0⟩ = some (.error .unexpected_token, st')) ∧
      tokenize ['[', '1', ',', ']']
        = some (.ok [.lbracket, .number (.finite false 1), .comma, .rbracket]) ∧
      ¬ ∃ st', parse ⟨[.lbracket, .number (.finite false 1), .comma, .rbracket], 0⟩
        = some (.error .unexpected_token, st') := by
  refine ⟨rfl, rfl, ?_, by decide, ?_⟩
  · rintro ⟨st', h⟩
    have : parse ⟨[.comma], 0⟩ = some (.error .invalid_token, ⟨[.comma], 0⟩) := rfl
    rw [this] at h
    cases h
  · rintro ⟨st', h⟩
    have : parse ⟨[.lbracket, .number (.finite false 1), .comma, .rbracket], 0⟩
        = some (.error .invalid_token,
            ⟨[.lbracket, .number (.finite false 1), .comma, .rbracket], 3⟩) := rfl
    rw [this] at h
    cases h

/-- Claim C10 (missing colon), as amended.  For every token sequence beginning
`'{' STRING(k) t` with `t` any token other than `:`, `parse` fails with the
"Unexpected token" exception of `expect<token::colon>`, the position left on
`t`; the exception is the same whatever `t` is and carries neither the
expected nor the found kind. -/
theorem parse_missing_colon (k : List Char) (t : token) (rest : List token)
    (ht : t ≠ .colon) :
    parse ⟨.lbrace :: .string k :: t :: rest, 0⟩
      = some (.error .unexpected_token, ⟨.lbrace :: .string k :: t :: rest, 2⟩) := by
  cases t <;>
    simp [parse, parse_fuel, token_stream.visit, parse_object, token_stream.expect,
      token_stream.cur, token_stream.pop_if, token_stream.match_, token_stream.eat, get_if,
      expect_one] at ht ⊢

/-- Claim C10 (amended) at the tokens of `{"a" 1}`. -/
theorem parse_missing_colon_witness :
    token.number (.finite false 1) ≠ token.colon ∧
      parse ⟨.lbrace :: .string ['a'] :: .number (.finite false 1) :: [.rbrace], 0⟩
        = some (.error .unexpected_token,
            ⟨.lbrace :: .string ['a'] :: .number (.finite false 1) :: [.rbrace], 2⟩) :=
  ⟨by decide, parse_missing_colon ['a'] (.number (.finite false 1)) [.rbrace] (by decide)⟩

/-- Claim C10 as stated fails: the exception thrown on the tokens of `{"a" 1}`
and on those of `{"a" "b"}` is the same, so nothing read off the exception
can be the found kind `NumberLit` in the first case and `StringLit` in the
second. -/
theorem parse_missing_colon_counterexample :
    ¬ ∃ expected found : Error → token_kind,
      (∀ e st', parse ⟨[.lbrace, .string ['a'], .number (.finite false 1), .rbrace], 0⟩
          = some (.error e, st') → expected e = .colon ∧ found e = .number) ∧
      (∀ e st', parse ⟨[.lbrace, .string ['a'], .string ['b'], .rbrace], 0⟩
          = some (.error e, st') → expected e = .colon ∧ found e = .string) := by
  rintro ⟨expected, found, h1, h2⟩
  have e1 := (h1 .unexpected_token _ rfl).2
  have e2 := (h2 .unexpected_token _ rfl).2
  rw [e1] at e2
  cases e2

/-- Claim C11 (unterminated string).  For every input `p ++ '"' :: t` where
`tokenize p` succeeds and `t` contains no `"`, `tokenize` throws the
"Invalid string" exception of `tokenize_string`, the program's error for a
string literal that is not closed before the end of input; the outcome is that
exception alone, no token sequence is returned. -/
theorem tokenize_unterminated_string (p t : List Char) (ts : List token)
    (hp : tokenize p = some (.ok ts)) (ht : '"' ∉ t) :
    tokenize (p ++ '"' :: t) = some (.error .invalid_string) := by
  have h := (tokenize_loop_continues _ p [] ts hp [] ('"' :: t)
    (no_digit_head_cons (by decide) t) ((p ++ '"' :: t).length + 1) (by omega)).1
  rw [tokenize_eq_lex]
  unfold lex
  rw [List.append_nil] at h
  rw [h, List.nil_append]
  show tokenize_loop (t.length + 1 + 1) ('"' :: t) ts = _
  rw [tokenize_loop_quote, tokenize_string_unterminated t ht]

/-- Claim C11 on `"abc` with no closing quote, alone and after `[1, `. -/
theorem tokenize_unterminated_string_witness :
    (tokenize [] = some (.ok []) ∧ '"' ∉ ['a', 'b', 'c'] ∧
      tokenize ['"', 'a', 'b', 'c'] = some (.error .invalid_string)) ∧
    (tokenize ['[', '1', ',', ' '] = some (.ok [.lbracket, .number (.finite false 1), .comma]) ∧
      tokenize (['[', '1', ',', ' '] ++ '"' :: ['a', 'b', 'c']) = some (.error .invalid_string)) :=
  ⟨⟨by decide, by decide, tokenize_unterminated_string [] ['a', 'b', 'c'] [] (by decide) (by decide)⟩,
   ⟨by decide, tokenize_unterminated_string ['[', '1', ',', ' '] ['a', 'b', 'c']
      [.lbracket, .number (.finite false 1), .comma] (by decide) (by decide)⟩⟩

/-- Claim C12 (invalid character), as amended.  For every character `c` that
is not whitespace, not one of `{ } [ ] , :`, not `"`, not `-` and not a
decimal digit, and for all inputs `p` and `r` with `tokenize p` succeeding,
`tokenize (p ++ c :: r)` throws the "Invalid letter" exception; the exception
is the same for every `c`, and the character is reported on `std::cerr` only,
as its decimal code followed by a newline. -/
theorem tokenize_invalid_character (c : Char) (p r : List Char) (ts : List token)
    (hp : tokenize p = some (.ok ts)) (hw : ¬ whitespace c) (hs : structural_token c = none)
    (hq : c ≠ '"') (hm : c ≠ '-') (hd : ¬ digit c) :
    tokenize (p ++ c :: r) = some (.error .invalid_letter) ∧
      tokenize_cerr (p ++ c :: r) = some (Nat.toDigits 10 c.toNat ++ ['\n']) := by
  obtain ⟨h1, h2⟩ := tokenize_loop_continues _ p [] ts hp [] (c :: r) (no_digit_head_cons hd r)
    ((p ++ c :: r).length + 1) (by omega)
  rw [List.append_nil] at h1
  rw [List.nil_append] at h1
  have e1 : tokenize (p ++ c :: r) = lex (c :: r) ts := h1
  have e2 : tokenize_cerr (p ++ c :: r) = tokenize_cerr (c :: r) := h2
  rw [e1, e2]
  rcases tokenize_loop_step c with ⟨h, _, _⟩ | ⟨tok, h, _, _⟩ | ⟨h, _, _⟩ | ⟨h, _, _⟩
    | ⟨h, _, _⟩ | ⟨_, e, e'⟩
  · exact absurd h hw
  · rw [hs] at h; cases h
  · exact absurd h hq
  · exact absurd h hm
  · exact absurd ⟨Nat.le_trans (by decide) h.1, h.2⟩ hd
  · exact ⟨e _ _ _, e' _ _⟩

/-- Claim C12 (amended) on `@`, alone and in `[1 @ 2`. -/
theorem tokenize_invalid_character_witness :
    (tokenize [] = some (.ok []) ∧
      tokenize ['@'] = some (.error .invalid_letter) ∧
      tokenize_cerr ['@'] = some ['6', '4', '\n']) ∧
    (tokenize ['[', '1', ' '] = some (.ok [.lbracket, .number (.finite false 1)]) ∧
      tokenize (['[', '1', ' '] ++ '@' :: [' ', '2']) = some (.error .invalid_letter) ∧
      tokenize_cerr (['[', '1', ' '] ++ '@' :: [' ', '2']) = some ['6', '4', '\n']) :=
  ⟨⟨by decide, tokenize_invalid_character '@' [] [] [] (by decide) (by decide) (by decide)
      (by decide) (by decide) (by decide)⟩,
   ⟨by decide, tokenize_invalid_character '@' ['[', '1', ' '] [' ', '2']
      [.lbracket, .number (.finite false 1)] (by decide) (by decide) (by decide) (by decide)
      (by decide) (by decide)⟩⟩

/-- Claim C12 as stated fails: `tokenize` throws the same exception on `@` and
on `#`, so nothing read off the exception is the offending character in both
cases; what is written to `std::cerr` for `@` is the text `64`, not the
character. -/
theorem tokenize_invalid_character_counterexample :
    (¬ ∃ offending : Error → Char,
      (∀ e, tokenize ['@'] = some (.error e) → offending e = '@') ∧
      (∀ e, tokenize ['#'] = some (.error e) → offending e = '#')) ∧
    tokenize_cerr ['@'] = some ['6', '4', '\n'] := by
  refine ⟨?_, by decide⟩
  rintro ⟨offending, h1, h2⟩
  have e1 := h1 .invalid_letter (by decide)
  have e2 := h2 .invalid_letter (by decide)
  rw [e1] at e2
  exact absurd e2 (by decide)

/-- Claim C13 (string literals are lexed verbatim).  For every character
sequence `t` without `"`, backslashes and structural characters included,
`tokenize` of `"t"` returns the single token `string t`: no escape is
processed and nothing is dropped. -/
theorem tokenize_string_literal (t : List Char) (ht : '"' ∉ t) :
    tokenize ('"' :: t ++ ['"']) = some (.ok [.string t]) :=
  lex_string t [] ht []

/-- Claim C13 on the literal `"a\n{b:,]"` (a backslash followed by `n`, and
structural characters). -/
theorem tokenize_string_literal_witness :
    '"' ∉ ['a', '\\', 'n', '{', 'b', ':', ',', ']'] ∧
      tokenize ('"' :: ['a', '\\', 'n', '{', 'b', ':', ',', ']'] ++ ['"'])
        = some (.ok [.string ['a', '\\', 'n', '{', 'b', ':', ',', ']']]) :=
  ⟨by decide, tokenize_string_literal _ (by decide)⟩

/-- Claim C14 (cursor `expect<K>`).  For every cursor and kind `k`: (i) with the
position at or past the end, `expect` throws "Unexpected EOF" and leaves the
cursor as it is; (ii) when the current token has kind `k`, `expect` returns that
token's payload and the position increases by exactly one; (iii) when the
current token has another kind, `expect` throws "Unexpected token" and leaves
the cursor as it is.  In every case the token sequence is the one given. -/
theorem expect_spec (st : token_stream) :
    (st.tokens_.length ≤ st.head_ → ∀ k, st.expect k = (.error .unexpected_eof, st)) ∧
    (∀ tok, st.tokens_[st.head_]? = some tok →
      st.expect tok.kind = (.ok tok.payload, ⟨st.tokens_, st.head_ + 1⟩) ∧
      ∀ k, tok.kind ≠ k → st.expect k = (.error .unexpected_token, st)) ∧
    (∀ k, (st.expect k).2.tokens_ = st.tokens_) := by
  refine ⟨?_, ?_, ?_⟩
  · intro hle k
    simp only [token_stream.expect, token_stream.cur, getElem?_none_of_le hle]
  · intro tok h0
    constructor
    · simp only [token_stream.expect, token_stream.cur, h0, get_if_kind, token_stream.eat]
    · intro k hk
      simp only [token_stream.expect, token_stream.cur, h0, get_if_of_ne hk]
  · intro k
    rcases expect_cases k st with ⟨e, h⟩ | ⟨_, p, h⟩ <;> rw [h]

/-- Claim C14 on the tokens of `"a" 1` at the positions 0, 1 and 2. -/
theorem expect_spec_witness :
    token_stream.expect .string ⟨[.string ['a'], .number (.finite false 1)], 0⟩
      = (.ok ['a'], ⟨[.string ['a'], .number (.finite false 1)], 1⟩) ∧
    token_stream.expect .string ⟨[.string ['a'], .number (.finite false 1)], 1⟩
      = (.error .unexpected_token, ⟨[.string ['a'], .number (.finite false 1)], 1⟩) ∧
    token_stream.expect .string ⟨[.string ['a'], .number (.finite false 1)], 2⟩
      = (.error .unexpected_eof, ⟨[.string ['a'], .number (.finite false 1)], 2⟩) :=
  ⟨((expect_spec ⟨[.string ['a'], .number (.finite false 1)], 0⟩).2.1 (.string ['a']) rfl).1,
   ((expect_spec ⟨[.string ['a'], .number (.finite false 1)], 1⟩).2.1
      (.number (.finite false 1)) rfl).2 .string (by decide),
   (expect_spec ⟨[.string ['a'], .number (.finite false 1)], 2⟩).1 (by decide) .string⟩

/-- Claim C15 (cursor `match<K>` and `pop_if<K>`).  For every cursor with a
current token, `match` returns whether that token has kind `k`, the cursor
being left as it is, and `pop_if` returns true with the position increased by
exactly one when the token has kind `k`, and false with the cursor as it is
otherwise; with the position at or past the end both throw "Unexpected EOF"
instead of returning false, the cursor as it is. -/
theorem match_pop_if_spec (st : token_stream) (k : token_kind) :
    (∀ tok, st.tokens_[st.head_]? = some tok →
      st.match_ k = .ok (decide (tok.kind = k)) ∧
      (tok.kind = k → st.pop_if k = (.ok true, ⟨st.tokens_, st.head_ + 1⟩)) ∧
      (tok.kind ≠ k → st.pop_if k = (.ok false, st))) ∧
    (st.tokens_.length ≤ st.head_ →
      st.match_ k = .error .unexpected_eof ∧ st.pop_if k = (.error .unexpected_eof, st)) := by
  constructor
  · intro tok h0
    have hm : st.match_ k = .ok (decide (tok.kind = k)) := by
      simp only [token_stream.match_, token_stream.cur, h0, get_if_isSome]
    refine ⟨hm, ?_, ?_⟩
    · intro hk
      simp only [token_stream.pop_if, hm, hk, decide_True, token_stream.eat]
    · intro hk
      simp only [token_stream.pop_if, hm, hk, decide_False]
  · intro hle
    have hm : st.match_ k = .error .unexpected_eof := by
      simp only [token_stream.match_, token_stream.cur, getElem?_none_of_le hle]
    exact ⟨hm, by simp only [token_stream.pop_if, hm]⟩

/-- Claim C15 on the tokens of `] ,`: at position 0 `pop_if<rbracket>` eats
the bracket, at position 1 it returns false on the comma, at position 2 it
throws. -/
theorem match_pop_if_spec_witness :
    (token_stream.match_ .rbracket ⟨[.rbracket, .comma], 0⟩ = .ok true ∧
      token_stream.pop_if .rbracket ⟨[.rbracket, .comma], 0⟩
        = (.ok true, ⟨[.rbracket, .comma], 1⟩)) ∧
    (token_stream.match_ .rbracket ⟨[.rbracket, .comma], 1⟩ = .ok false ∧
      token_stream.pop_if .rbracket ⟨[.rbracket, .comma], 1⟩
        = (.ok false, ⟨[.rbracket, .comma], 1⟩)) ∧
    (token_stream.match_ .rbracket ⟨[.rbracket, .comma], 2⟩ = .error .unexpected_eof ∧
      token_stream.pop_if .rbracket ⟨[.rbracket, .comma], 2⟩
        = (.error .unexpected_eof, ⟨[.rbracket, .comma], 2⟩)) :=
  ⟨⟨((match_pop_if_spec ⟨[.rbracket, .comma], 0⟩ .rbracket).1 .rbracket rfl).1,
    ((match_pop_if_spec ⟨[.rbracket, .comma], 0⟩ .rbracket).1 .rbracket rfl).2.1 rfl⟩,
   ⟨((match_pop_if_spec ⟨[.rbracket, .comma], 1⟩ .rbracket).1 .comma rfl).1,
    ((match_pop_if_spec ⟨[.rbracket, .comma], 1⟩ .rbracket).1 .comma rfl).2.2 (by decide)⟩,
   (match_pop_if_spec ⟨[.rbracket, .comma], 2⟩ .rbracket).2 (by decide)⟩

/-- Claim C16 (structural tokens and whitespace).  For every input made only
of the characters `{ } [ ] , :` and of whitespace (space, tab, newline,
carriage return), `tokenize` succeeds and returns the input with the
whitespace deleted and every remaining character replaced by its token, in
order; on the empty input and on whitespace alone the result is empty. -/
theorem tokenize_structural (s : List Char)
    (hs : ∀ c ∈ s, whitespace c ∨ (structural_token c).isSome = true) :
    tokenize s = some (.ok (s.filterMap structural_token)) ∧
      ((∀ c ∈ s, whitespace c) → tokenize s = some (.ok [])) := by
  have h := lex_structural s hs []
  rw [List.nil_append] at h
  refine ⟨h, fun hw => ?_⟩
  rw [tokenize_eq_lex, h]
  congr 2
  rw [List.filterMap_eq_nil_iff]
  exact fun c hc => whitespace_structural_token (hw c hc)

/-- Claim C16 on `{}`, on ` [ ],\t:\r\n` and on the empty input. -/
theorem tokenize_structural_witness :
    tokenize ['{', '}'] = some (.ok [.lbrace, .rbrace]) ∧
    tokenize [' ', '[', ' ', ']', ',', '\t', ':', '\r', '\n']
      = some (.ok [.lbracket, .rbracket, .comma, .colon]) ∧
    tokenize [] = some (.ok []) ∧
    tokenize [' ', '\t', '\n', '\r'] = some (.ok []) :=
  ⟨(tokenize_structural ['{', '}'] (by decide)).1,
   (tokenize_structural [' ', '[', ' ', ']', ',', '\t', ':', '\r', '\n'] (by decide)).1,
   (tokenize_structural [] (by decide)).2 (by decide),
   (tokenize_structural [' ', '\t', '\n', '\r'] (by decide)).2 (by decide)⟩

/-- Claim C17 (array rendering).  For every array with elements `v1 ... vk`,
`render_value` returns `[`, then the texts of `v1 ... vk` joined by `, `, then
`]`; the empty array is written `[]` and the empty object `{}`. -/
theorem render_value_array (vs : List value) :
    render_value (.array vs)
        = ['['] ++ List.intercalate [',', ' '] (vs.map render_value) ++ [']'] ∧
      render_value (.array []) = ['[', ']'] ∧
      render_value (.object []) = ['{', '}'] := by
  refine ⟨?_, by simp [render_value], by simp [render_value, render_members]⟩
  cases vs with
  | nil => simp [render_value, List.intercalate]
  | cons x xs =>
    rw [render_value_array_cons, render_rest_eq, List.map_cons, intercalate_cons,
      List.map_map]
    simp [Function.comp_def]

/-- Claim C17 on the value parsed from `[1,2,3]`: it is written `[1, 2, 3]`. -/
theorem render_value_array_witness :
    tokenize ['[', '1', ',', '2', ',', '3', ']']
      = some (.ok [.lbracket, .number (.finite false 1), .comma, .number (.finite false 2),
          .comma, .number (.finite false 3), .rbracket]) ∧
    parse ⟨[.lbracket, .number (.finite false 1), .comma, .number (.finite false 2),
          .comma, .number (.finite false 3), .rbracket], 0⟩
      = some (.ok (.array [.number (.finite false 1), .number (.finite false 2),
          .number (.finite false 3)]),
        ⟨[.lbracket, .number (.finite false 1), .comma, .number (.finite false 2),
          .comma, .number (.finite false 3), .rbracket], 7⟩) ∧
    render_value (.array [.number (.finite false 1), .number (.finite false 2),
          .number (.finite false 3)])
      = ['[', '1', ',', ' ', '2', ',', ' ', '3', ']'] := by
  refine ⟨by decide, rfl, ?_⟩
  rw [(render_value_array _).1]
  decide

/-- Claim C18 (cursor position invariant).  For every token sequence and every
position `p0` not past its end, the run of `parse` from `p0` ends, whether it
returns or throws, with the tokens as they were and at a position `p` with
`p0 ≤ p ≤ length`; so do `expect` and `pop_if` (`match` has no effect on the
cursor).  A token handed out by `cur` is always one at an index below the
length, and at the end of the tokens, the one position from which an index at
or past the length could be read, every operation throws instead of reading:
`cur`, `expect`, `match` and `pop_if` throw "Unexpected EOF", and `parse`, whose
dispatch reads with the bounds-checked `tokens_.at`, throws `std::out_of_range`,
the position left as it is. -/
theorem cursor_position_invariant (st : token_stream) (h0 : st.head_ ≤ st.tokens_.length) :
    (∃ r, parse st = some r ∧ r.2.tokens_ = st.tokens_ ∧
      st.head_ ≤ r.2.head_ ∧ r.2.head_ ≤ st.tokens_.length) ∧
    (∀ k, (st.expect k).2.tokens_ = st.tokens_ ∧
      st.head_ ≤ (st.expect k).2.head_ ∧ (st.expect k).2.head_ ≤ st.tokens_.length) ∧
    (∀ k, (st.pop_if k).2.tokens_ = st.tokens_ ∧
      st.head_ ≤ (st.pop_if k).2.head_ ∧ (st.pop_if k).2.head_ ≤ st.tokens_.length) ∧
    (∀ t, st.cur = .ok t → st.head_ < st.tokens_.length ∧ st.tokens_[st.head_]? = some t) ∧
    (st.head_ = st.tokens_.length →
      st.cur = .error .unexpected_eof ∧
      (∀ k, st.expect k = (.error .unexpected_eof, st) ∧
        st.match_ k = .error .unexpected_eof ∧
        st.pop_if k = (.error .unexpected_eof, st)) ∧
      parse st = some (.error .out_of_range, st)) := by
  refine ⟨?_, ?_, ?_, ?_, ?_⟩
  · obtain ⟨r, hr, ht, hh⟩ := parse_total st
    exact ⟨r, hr, ht, hh, (parse_fuel_bounded _ st r hr h0).2⟩
  · intro k
    rcases expect_cases k st with ⟨e, h⟩ | ⟨hlt, p, h⟩ <;> rw [h]
    · exact ⟨rfl, Nat.le_refl _, h0⟩
    · exact ⟨rfl, Nat.le_succ _, hlt⟩
  · intro k
    rcases pop_if_cases k st with ⟨e, h⟩ | ⟨hlt, h⟩ | ⟨hlt, h⟩ <;> rw [h]
    · exact ⟨rfl, Nat.le_refl _, h0⟩
    · exact ⟨rfl, Nat.le_succ _, hlt⟩
    · exact ⟨rfl, Nat.le_refl _, h0⟩
  · intro t ht
    unfold token_stream.cur at ht
    cases hg : st.tokens_[st.head_]? with
    | none => rw [hg] at ht; cases ht
    | some t' =>
      rw [hg] at ht
      cases ht
      exact ⟨lt_length_of_getElem? hg, rfl⟩
  · intro he
    have hn : st.tokens_[st.head_]? = none := getElem?_none_of_le (Nat.le_of_eq he.symm)
    have hc : st.cur = .error .unexpected_eof := by
      simp only [token_stream.cur, hn]
    have hm : ∀ k, st.match_ k = .error .unexpected_eof := by
      intro k; simp only [token_stream.match_, hc]
    refine ⟨hc, fun k => ⟨?_, hm k, ?_⟩, parse_past_end st (Nat.le_of_eq he.symm)⟩
    · simp only [token_stream.expect, hc]
    · simp only [token_stream.pop_if, hm k]

/-- Claim C18 on the tokens of `[1,`: the run of `parse` from position 0
throws at position 3, the length; from position 3 every operation throws and
the position stays 3. -/
theorem cursor_position_invariant_witness :
    parse ⟨[.lbracket, .number (.finite false 1), .comma], 0⟩
      = some (.error .out_of_range, ⟨[.lbracket, .number (.finite false 1), .comma], 3⟩) ∧
    (∃ r, parse ⟨[.lbracket, .number (.finite false 1), .comma], 0⟩ = some r ∧
      r.2.tokens_ = [.lbracket, .number (.finite false 1), .comma] ∧
      0 ≤ r.2.head_ ∧ r.2.head_ ≤ 3) ∧
    token_stream.pop_if .rbracket ⟨[.lbracket, .number (.finite false 1), .comma], 3⟩
      = (.error .unexpected_eof, ⟨[.lbracket, .number (.finite false 1), .comma], 3⟩) :=
  ⟨rfl,
   (cursor_position_invariant ⟨[.lbracket, .number (.finite false 1), .comma], 0⟩
      (by decide)).1,
   ((cursor_position_invariant ⟨[.lbracket, .number (.finite false 1), .comma], 3⟩
      (by decide)).2.2.2.2 rfl).2.1 .rbracket |>.2.2⟩

/-- Claim C19 (parser termination and progress).  For every token sequence and
start position `parse` ends, returning or throwing, and so do `parse_array`
and `parse_object` called with the recursive `parse` and a bound on their loops
of at least the number of remaining tokens; every successful call of `parse`
ends at least one token further. -/
theorem parse_terminates_and_progresses (st : token_stream) :
    (∃ r, parse st = some r) ∧
    (∀ f, st.tokens_.length - st.head_ ≤ f →
      (∃ r, parse_array (fun s => parse_fuel f s) f st = some r) ∧
      (∃ r, parse_object (fun s => parse_fuel f s) f st = some r)) ∧
    (∀ v st', parse st = some (.ok v, st') → st.head_ + 1 ≤ st'.head_) := by
  refine ⟨?_, ?_, ?_⟩
  · obtain ⟨r, hr, _⟩ := parse_total st
    exact ⟨r, hr⟩
  · intro f hf
    obtain ⟨r1, h1, _⟩ := parse_array_total (parse_fuel_total f) st hf
    obtain ⟨r2, h2, _⟩ := parse_object_total (parse_fuel_total f) st hf
    exact ⟨⟨r1, h1⟩, ⟨r2, h2⟩⟩
  · intro v st' h
    exact (run_bounds ((parse_eq_ok_iff st v st').1 h).2).1

/-- Claim C19 on the tokens of `[[1],2]` from position 1: `parse` reads `[1]`
and ends at position 4. -/
theorem parse_terminates_and_progresses_witness :
    parse ⟨[.lbracket, .lbracket, .number (.finite false 1), .rbracket, .comma,
        .number (.finite false 2), .rbracket], 1⟩
      = some (.ok (.array [.number (.finite false 1)]),
          ⟨[.lbracket, .lbracket, .number (.finite false 1), .rbracket, .comma,
            .number (.finite false 2), .rbracket], 4⟩) ∧
    1 + 1 ≤ 4 :=
  ⟨rfl, (parse_terminates_and_progresses ⟨[.lbracket, .lbracket, .number (.finite false 1),
      .rbracket, .comma, .number (.finite false 2), .rbracket], 1⟩).2.2
        (.array [.number (.finite false 1)])
        ⟨[.lbracket, .lbracket, .number (.finite false 1), .rbracket, .comma,
          .number (.finite false 2), .rbracket], 4⟩ rfl⟩

/-- Claim C20 (lexer compositionality across whitespace).  For all inputs `s1`
and `s2` on which `tokenize` succeeds and every non-empty string `w` of
whitespace, `tokenize (s1 ++ w ++ s2)` succeeds and returns the tokens of `s1`
followed by the tokens of `s2`. -/
theorem tokenize_append_whitespace (s1 s2 w : List Char) (t1 t2 : List token)
    (h1 : tokenize s1 = some (.ok t1)) (h2 : tokenize s2 = some (.ok t2))
    (hne : w ≠ []) (hw : ∀ c ∈ w, whitespace c) :
    tokenize (s1 ++ w ++ s2) = some (.ok (t1 ++ t2)) := by
  have hhead : no_digit_head (w ++ s2) := by
    cases w with
    | nil => exact absurd rfl hne
    | cons c w =>
      exact no_digit_head_cons (whitespace_not_digit (hw c (List.mem_cons_self _ _))) _
  have e1 := (tokenize_loop_continues _ s1 [] t1 h1 [] (w ++ s2) hhead
    ((s1 ++ (w ++ s2)).length + 1) (by omega)).1
  have e2 := (tokenize_loop_continues _ s2 [] t2 h2 t1 [] (by intro c hc; cases hc)
    ((s2 ++ []).length + 1) (by omega)).1
  rw [List.append_nil] at e1 e2
  rw [List.nil_append] at e1
  rw [List.append_assoc, tokenize_eq_lex]
  unfold lex
  rw [e1, lex_whitespace w hw]
  unfold lex
  rw [List.append_nil] at e2
  rw [e2]
  rfl

/-- Claim C20 on `[1` and `2]` joined by a space and a newline: the numbers
stay apart. -/
theorem tokenize_append_whitespace_witness :
    tokenize ['[', '1'] = some (.ok [.lbracket, .number (.finite false 1)]) ∧
    tokenize ['2', ']'] = some (.ok [.number (.finite false 2), .rbracket]) ∧
    tokenize (['[', '1'] ++ [' ', '\n'] ++ ['2', ']'])
      = some (.ok ([.lbracket, .number (.finite false 1)]
          ++ [.number (.finite false 2), .rbracket])) :=
  ⟨by decide, by decide,
   tokenize_append_whitespace ['[', '1'] ['2', ']'] [' ', '\n']
     [.lbracket, .number (.finite false 1)] [.number (.finite false 2), .rbracket]
     (by decide) (by decide) (by decide) (by decide)⟩

end femtojson
